import Mathlib

namespace X0

/-! ## Buffers and url_decode (lib/http/HttpConnection.cpp, src/x0/connection.cpp) -/

/-- A buffer is a sequence of bytes, each byte given by its unsigned value. -/
abbrev Buffer := List Nat

/-- A BufferRef is an (offset, size) window into its buffer. -/
structure BufferRef where
  offset : Nat
  size : Nat
deriving DecidableEq, Repr

/-- Value of one hexadecimal digit character, if it is one. -/
def hexDigit (c : Nat) : Option Nat :=
  if 48 ≤ c ∧ c ≤ 57 then some (c - 48)
  else if 97 ≤ c ∧ c ≤ 102 then some (10 + c - 97)
  else if 65 ≤ c ∧ c ≤ 70 then some (10 + c - 65)
  else none

/-- Modelled from the spec: hex2int (declared in strutils, not part of the sources at hand) is
the conversion of exactly two hexadecimal digits; it fails when one of them is no digit. -/
def hex2int (c1 c2 : Nat) : Option Nat :=
  match hexDigit c1, hexDigit c2 with
  | some h, some l => some (h * 16 + l)
  | _, _ => none

/-- The while loop of url_decode (lib/http/HttpConnection.cpp:273-295). The result is
(returned-early-with-false?, buffer, write position); the fuel bounds the iterations. -/
def url_decode_loop : Nat → Buffer → Nat → Nat → Nat → Option (Bool × Buffer × Nat)
  | 0, value, right, i, d => if i ≠ right then none else some (true, value, d)
  | fuel + 1, value, right, i, d =>
    if i ≠ right then
      if value.getD i 0 = 37 then
        if i + 3 ≤ right then
          match hex2int (value.getD (i + 1) 0) (value.getD (i + 2) 0) with
          | some ival => url_decode_loop fuel (value.set d (ival % 256)) right (i + 3) (d + 1)
          | none => some (false, value, d)
        else
          some (false, value, d)
      else if value.getD i 0 = 43 then
        url_decode_loop fuel (value.set d 32) right (i + 1) (d + 1)
      else if d ≠ i then
        url_decode_loop fuel (value.set d (value.getD i 0)) right (i + 1) (d + 1)
      else
        url_decode_loop fuel value right (i + 1) (d + 1)
    else
      some (true, value, d)

/-- The function url_decode(Buffer& value, BufferRef& url): returns the flag, the buffer and the
URL reference as they are after the call. -/
def url_decode (value : Buffer) (url : BufferRef) : Option (Bool × Buffer × BufferRef) :=
  let left := url.offset
  let right := left + url.size
  match url_decode_loop url.size value right left left with
  | none => none
  | some (true, value1, d) => some (true, value1, { offset := left, size := d - left })
  | some (false, value1, _) => some (false, value1, url)

/-- Reference decoding of a URL text, following the words of the specification: each
percent sign followed by two hexadecimal digits becomes the byte of that value, each plus
becomes a space, every other byte is itself; a percent sign without two digits has no decoding. -/
def refDecode : List Nat → Option (List Nat)
  | [] => some []
  | c :: rest =>
    if c = 37 then
      match rest with
      | x :: y :: rest2 =>
        match hexDigit x, hexDigit y with
        | some h, some l => (refDecode rest2).map (fun t => (h * 16 + l) :: t)
        | _, _ => none
      | _ => none
    else if c = 43 then (refDecode rest).map (fun t => 32 :: t)
    else (refDecode rest).map (fun t => c :: t)

/-- The condition of the claim: every percent sign reached by the left-to-right scan is
followed by two hexadecimal digits inside the range. -/
def percentsWellFormed : List Nat → Bool
  | [] => true
  | c :: rest =>
    if c = 37 then
      match rest with
      | x :: y :: rest2 =>
        (hexDigit x).isSome && (hexDigit y).isSome && percentsWellFormed rest2
      | _ => false
    else percentsWellFormed rest

/-- Bytes a BufferRef denotes. -/
def BufferRef.bytes (url : BufferRef) (value : Buffer) : List Nat :=
  (value.drop url.offset).take url.size


/-- Whether pat occurs in s at its very beginning. -/
def startsWith : List Nat → List Nat → Bool
  | [], _ => true
  | _ :: _, [] => false
  | p :: ps, c :: cs => p == c && startsWith ps cs

/-- The function std::string::find(pat), and BufferRef::find alike: position of the first occurrence, none for npos. -/
def find (pat : List Nat) : List Nat → Option Nat
  | [] => if pat = [] then some 0 else none
  | c :: cs => if startsWith pat (c :: cs) then some 0 else (find pat cs).map (fun n => n + 1)


/-! ## CgiTransport::write (plugins/fastcgi.cpp) -/

namespace FastCgi

/-- Modelled from the spec: the 8-byte header of a FastCgi::Record (fastcgi_protocol.h is not
part of the sources at hand): 1 byte version (=1), 1 byte type, 2 bytes request id in network
order, 2 bytes contentLength, 1 byte paddingLength, 1 byte reserved. -/
def Record.data (type requestId contentLength paddingLength : Nat) : List Nat :=
  [1, type % 256, requestId / 256 % 256, requestId % 256,
   contentLength / 256 % 256, contentLength % 256, paddingLength % 256, 0]

/-- One record as read back from the wire. -/
structure WireRecord where
  version : Nat
  type : Nat
  requestId : Nat
  content : List Nat
  paddingLength : Nat
deriving DecidableEq

/-- Modelled from the spec: reading a byte stream record by record in the FastCGI wire format
(8-byte header, then contentLength bytes of payload, then paddingLength bytes of padding).
The result is none when bytes are left over that do not form a complete record. -/
def readRecords : Nat → List Nat → Option (List WireRecord)
  | _, [] => some []
  | 0, _ :: _ => none
  | fuel + 1, v :: t :: ih :: il :: ch :: cl :: p :: _ :: rest =>
    let clen := ch * 256 + cl
    if rest.length < clen + p then none
    else
      (readRecords fuel (rest.drop (clen + p))).map
        (fun rs => { version := v, type := t, requestId := ih * 256 + il,
                     content := rest.take clen, paddingLength := p } :: rs)
  | _ + 1, _ => none

/-- Wire form of one record: header, payload, padding. -/
def WireRecord.bytes (r : WireRecord) : List Nat :=
  Record.data r.type r.requestId r.content.length r.paddingLength
    ++ r.content ++ List.replicate r.paddingLength 0

/-- Reading a whole byte stream: the fuel is its length (each record takes at least 8 bytes). -/
def parseRecords (bytes : List Nat) : Option (List WireRecord) :=
  readRecords bytes.length bytes

end FastCgi

/-- The constant chunkSizeCap of CgiTransport::write. -/
def chunkSizeCap : Nat := 0xFFFF

/-- The static array padding[8] of CgiTransport::write. -/
def padding : List Nat := [0, 0, 0, 0, 0, 0, 0, 0]

/-- The for loop of CgiTransport::write (plugins/fastcgi.cpp:389-404), threading writeBuffer_.
The fuel bounds the iterations. -/
def CgiTransport.write_loop : Nat → Nat → Nat → List Nat → Nat → Nat → Buffer → Option Buffer
  | 0, _, _, _, len, offset, writeBuffer => if offset < len then none else some writeBuffer
  | fuel + 1, type, requestId, buf, len, offset, writeBuffer =>
    if offset < len then
      let clen := min (offset + chunkSizeCap) len - offset
      let plen := if clen % padding.length ≠ 0 then padding.length - clen % padding.length else 0
      let writeBuffer1 := writeBuffer ++ FastCgi.Record.data type requestId clen plen
      let writeBuffer2 := writeBuffer1 ++ (buf.drop offset).take clen
      let writeBuffer3 := writeBuffer2 ++ padding.take plen
      CgiTransport.write_loop fuel type requestId buf len (offset + clen) writeBuffer3
    else some writeBuffer

/-- The function CgiTransport::write(type, requestId, buf, len) (plugins/fastcgi.cpp:377-405):
the write buffer after the call. -/
def CgiTransport.write (type requestId : Nat) (buf : List Nat) (len : Nat)
    (writeBuffer : Buffer) : Option Buffer :=
  if len = 0 then
    some (writeBuffer ++ FastCgi.Record.data type requestId 0 0)
  else
    CgiTransport.write_loop len type requestId buf len 0 writeBuffer


/-! ## request_parser (src/x0/request_parser.cpp) -/

namespace RequestParser

/-- The states of request_parser named in the switch of consume. -/
inductive State
  | method_start | method | uri_start | uri
  | http_version_h | http_version_t_1 | http_version_t_2 | http_version_p | http_version_slash
  | http_version_major_start | http_version_major | http_version_minor_start
  | expecting_newline_1 | header_line_start | header_lws | header_name
  | space_before_header_value | header_value | expecting_newline_2 | expecting_newline_3
deriving DecidableEq

/-- A request header as the parser fills it: name and value are std::string. -/
structure Header where
  name : List Nat
  value : List Nat
deriving DecidableEq

/-- The fields of request that consume writes (all are std::string or int there). -/
structure Request where
  method : List Nat
  uri : List Nat
  path : List Nat
  query : List Nat
  http_version_major : Int
  http_version_minor : Int
  headers : List Header
deriving DecidableEq

/-- A fresh request: empty strings, version 0.0, no headers (the constructor of request). -/
def Request.fresh : Request :=
  { method := [], uri := [], path := [], query := [],
    http_version_major := 0, http_version_minor := 0, headers := [] }

/-- What a call of consume yields: a boost::tribool, or the exception response::bad_request. -/
inductive Outcome
  | indeterminate | accepted | rejected | bad_request
deriving DecidableEq

/-- Promotion of a char (given by its byte value) to int, char being signed. -/
def charToInt (c : Nat) : Int := if c < 128 then (c : Int) else (c : Int) - 256

/-- Arithmetic of int: results are taken in the 32-bit two's complement range. -/
def wrapInt (x : Int) : Int := (x + 2147483648) % 4294967296 - 2147483648

def is_char (ch : Int) : Bool := ch ≥ 0 && ch < 127

def is_ctl (ch : Int) : Bool := (ch ≥ 0 && ch ≤ 31) || ch == 127

def is_tspecial (ch : Int) : Bool :=
  ch == 40 || ch == 41 || ch == 60 || ch == 62 || ch == 64 || ch == 44 || ch == 59 ||
  ch == 58 || ch == 92 || ch == 34 || ch == 47 || ch == 91 || ch == 93 || ch == 63 ||
  ch == 61 || ch == 123 || ch == 125 || ch == 32 || ch == 9

def is_digit (ch : Int) : Bool := ch ≥ 48 && ch ≤ 57

/-- The loop of url_decode(std::string&) (request_parser.cpp:28-59), its result out being
written as a recursion over the characters that remain; hexValue stands for the extraction
of a hexadecimal int from the two characters after the percent sign by std::istringstream. -/
def url_decode_from (hexValue : Nat → Nat → Option Int) : List Nat → Option (List Nat)
  | [] => some []
  | c :: rest =>
    if c = 37 then
      match rest with
      | x :: y :: rest2 =>
        match hexValue x y with
        | some value =>
          (url_decode_from hexValue rest2).map (fun t => (value % 256).toNat :: t)
        | none => none
      | _ => none
    else if c = 43 then
      (url_decode_from hexValue rest).map (fun t => 32 :: t)
    else
      (url_decode_from hexValue rest).map (fun t => c :: t)

/-- The function url_decode(std::string& url): none is the return value false (url is then
left as it was), some out is true with url = out. -/
def url_decode (hexValue : Nat → Nat → Option Int) (url : List Nat) : Option (List Nat) :=
  url_decode_from hexValue url

/-- Applies f to headers.back(). -/
def updateBack (f : Header → Header) : List Header → List Header
  | [] => []
  | [h] => [f h]
  | h :: t => h :: updateBack f t

/-- Result of one call of consume: the outcome, state_ and the request afterwards. -/
structure Step where
  result : Outcome
  state : State
  r : Request
deriving DecidableEq

/-- The function request_parser::consume(request& r, char input)
(request_parser.cpp:65-339). -/
def consume (hexValue : Nat → Nat → Option Int) (state_ : State) (r : Request) (input : Nat) :
    Step :=
  let ch := charToInt input
  match state_ with
  | .method_start =>
    if !is_char ch || is_ctl ch || is_tspecial ch then ⟨.rejected, state_, r⟩
    else ⟨.indeterminate, .method, { r with method := r.method ++ [input] }⟩
  | .method =>
    if input = 32 then ⟨.indeterminate, .uri, r⟩
    else if !is_char ch || is_ctl ch || is_tspecial ch then ⟨.rejected, state_, r⟩
    else ⟨.indeterminate, state_, { r with method := r.method ++ [input] }⟩
  | .uri_start =>
    if is_ctl ch then ⟨.rejected, state_, r⟩
    else ⟨.indeterminate, .uri, { r with uri := r.uri ++ [input] }⟩
  | .uri =>
    if input = 32 then
      match url_decode hexValue r.uri with
      | none => ⟨.bad_request, state_, r⟩
      | some uri1 =>
        let r1 := { r with uri := uri1 }
        let r2 :=
          match find [63] r1.uri with
          | some n => { r1 with path := r1.uri.take n, query := r1.uri.drop (n + 1) }
          | none => { r1 with path := r1.uri }
        if r2.path.isEmpty || r2.path.head? ≠ some 47 || (find [46, 46] r2.path).isSome then
          ⟨.bad_request, state_, r2⟩
        else ⟨.indeterminate, .http_version_h, r2⟩
    else if is_ctl ch then ⟨.rejected, state_, r⟩
    else ⟨.indeterminate, state_, { r with uri := r.uri ++ [input] }⟩
  | .http_version_h =>
    if input = 72 then ⟨.indeterminate, .http_version_t_1, r⟩ else ⟨.rejected, state_, r⟩
  | .http_version_t_1 =>
    if input = 84 then ⟨.indeterminate, .http_version_t_2, r⟩ else ⟨.rejected, state_, r⟩
  | .http_version_t_2 =>
    if input = 84 then ⟨.indeterminate, .http_version_p, r⟩ else ⟨.rejected, state_, r⟩
  | .http_version_p =>
    if input = 80 then ⟨.indeterminate, .http_version_slash, r⟩ else ⟨.rejected, state_, r⟩
  | .http_version_slash =>
    if input = 47 then
      ⟨.indeterminate, .http_version_major_start,
        { r with http_version_major := 0, http_version_minor := 0 }⟩
    else ⟨.rejected, state_, r⟩
  | .http_version_major_start =>
    if is_digit ch then
      ⟨.indeterminate, .http_version_major,
        { r with http_version_major :=
            wrapInt (wrapInt (wrapInt (r.http_version_major * 10) + ch) - 48) }⟩
    else ⟨.rejected, state_, r⟩
  | .http_version_major =>
    if input = 46 then ⟨.indeterminate, .http_version_minor_start, r⟩
    else if is_digit ch then
      ⟨.indeterminate, state_,
        { r with http_version_major :=
            wrapInt (wrapInt (wrapInt (r.http_version_major * 10) + ch) - 48) }⟩
    else ⟨.rejected, state_, r⟩
  | .http_version_minor_start =>
    if input = 13 then ⟨.indeterminate, .expecting_newline_1, r⟩
    else if is_digit ch then
      ⟨.indeterminate, state_,
        { r with http_version_minor :=
            wrapInt (wrapInt (wrapInt (r.http_version_minor * 10) + ch) - 48) }⟩
    else ⟨.rejected, state_, r⟩
  | .expecting_newline_1 =>
    if input = 10 then ⟨.indeterminate, .header_line_start, r⟩ else ⟨.rejected, state_, r⟩
  | .header_line_start =>
    if input = 13 then ⟨.indeterminate, .expecting_newline_3, r⟩
    else if !r.headers.isEmpty && (input = 32 || input = 9) then
      ⟨.indeterminate, .header_lws, r⟩
    else if !is_char ch || is_ctl ch || is_tspecial ch then ⟨.rejected, state_, r⟩
    else
      ⟨.indeterminate, .header_name,
        { r with headers := r.headers ++ [{ name := [input], value := [] }] }⟩
  | .header_lws =>
    if input = 13 then ⟨.indeterminate, .expecting_newline_2, r⟩
    else if input = 32 || input = 9 then ⟨.indeterminate, state_, r⟩
    else
      ⟨.indeterminate, .header_value,
        { r with headers := updateBack (fun h => { h with value := h.value ++ [input] }) r.headers }⟩
  | .header_name =>
    if input = 58 then ⟨.indeterminate, .space_before_header_value, r⟩
    else if !is_char ch || is_ctl ch || is_tspecial ch then ⟨.rejected, state_, r⟩
    else
      ⟨.indeterminate, state_,
        { r with headers := updateBack (fun h => { h with name := h.name ++ [input] }) r.headers }⟩
  | .space_before_header_value =>
    if input = 32 then ⟨.indeterminate, .header_value, r⟩ else ⟨.rejected, state_, r⟩
  | .header_value =>
    if input = 13 then ⟨.indeterminate, .expecting_newline_2, r⟩
    else if is_ctl ch then ⟨.rejected, state_, r⟩
    else
      ⟨.indeterminate, state_,
        { r with headers := updateBack (fun h => { h with value := h.value ++ [input] }) r.headers }⟩
  | .expecting_newline_2 =>
    if input = 10 then ⟨.indeterminate, .header_line_start, r⟩ else ⟨.rejected, state_, r⟩
  | .expecting_newline_3 =>
    if input = 10 then ⟨.accepted, state_, r⟩ else ⟨.rejected, state_, r⟩

/-- Feeding characters one by one to consume: the outcomes in order and the last state and
request. -/
def feed (hexValue : Nat → Nat → Option Int) :
    State → Request → List Nat → List Outcome × State × Request
  | state_, r, [] => ([], state_, r)
  | state_, r, c :: cs =>
    let s := consume hexValue state_ r c
    let rest := feed hexValue s.state s.r cs
    (s.result :: rest.1, rest.2)

/-- Value of a string of decimal digits. -/
def decimalValue (ds : List Nat) : Int :=
  ds.foldl (fun acc d => acc * 10 + (charToInt d - 48)) 0

/-- A token character: ASCII, not a control character, not a tspecial. -/
def isTokenChar (c : Nat) : Bool :=
  is_char (charToInt c) && !is_ctl (charToInt c) && !is_tspecial (charToInt c)

/-- A decimal digit character. -/
def isDigitChar (c : Nat) : Bool := is_digit (charToInt c)

/-- A control character. -/
def isCtlChar (c : Nat) : Bool := is_ctl (charToInt c)

/-- One header line N: SP V CRLF. -/
def headerLine (h : Header) : List Nat := h.name ++ [58, 32] ++ h.value ++ [13, 10]

/-- The request text M SP U SP HTTP/a.b CRLF (N: SP V CRLF)* CRLF. -/
def requestText (M U a b : List Nat) (hs : List Header) : List Nat :=
  M ++ [32] ++ U ++ [32] ++ [72, 84, 84, 80, 47] ++ a ++ [46] ++ b ++ [13, 10]
    ++ (hs.map headerLine).flatten ++ [13, 10]

/-- Path part of a URI: what stands before its first question mark. -/
def pathOf (U : List Nat) : List Nat :=
  match find [63] U with
  | some n => U.take n
  | none => U

/-- Query part of a URI: what stands after its first question mark. -/
def queryOf (U : List Nat) : List Nat :=
  match find [63] U with
  | some n => U.drop (n + 1)
  | none => []

end RequestParser


/-! ## HttpConnection and HttpRequest (lib/http/HttpConnection.cpp, include/x0/http/HttpRequest.h) -/

/-- The sources that can stand in an output queue. -/
inductive Source
  /-- BufferSource over the given bytes. -/
  | buffer (data : List Nat)
  /-- BufferSource holding the serialized status line and response headers. -/
  | headerBlock (status : Nat) (headers : List (List Nat × List Nat))
  /-- FileSource over a region of an open file. -/
  | file (fd offset count : Nat)
  /-- CallbackSource; the number names the callback. -/
  | callback (cb : Nat)
  /-- BufferSource holding the standard page for a status (the default response content). -/
  | defaultContent (status : Nat)
  /-- FilterSource(source, filters, last). -/
  | filter (inner : Source) (filters : List Nat) (last : Bool)
deriving DecidableEq

/-- The enum HttpRequest::OutputState. -/
inductive OutputState
  | Unhandled | Populating | Finished
deriving DecidableEq

/-- The connection status (HttpConnection::Status). -/
inductive Status
  | StartingUp | ReadingRequest | SendingReply | KeepAliveRead
deriving DecidableEq

/-- The bits of HttpConnection::flags_, one Bool per flag. -/
structure Flags where
  IsHandlingRequest : Bool
  IsResuming : Bool
  IsKeepAliveEnabled : Bool
  IsAborted : Bool
  IsClosed : Bool
deriving DecidableEq

/-- Values of HttpError used by the connection. -/
def HttpError.Undefined : Nat := 0
def HttpError.BadRequest : Nat := 400
def HttpError.RequestTimeout : Nat := 408
def HttpError.LengthRequired : Nat := 411
def HttpError.RequestEntityTooLarge : Nat := 413
def HttpError.ExpectationFailed : Nat := 417

/-- The fields of HttpRequest that the connection code reads or writes. The BufferRefs point
into the input buffer of the connection. -/
structure HttpRequest where
  outputState_ : OutputState
  method : BufferRef
  uri : BufferRef
  path : BufferRef
  query : BufferRef
  httpVersionMajor : Int
  httpVersionMinor : Int
  hostname : BufferRef
  requestHeaders : List (BufferRef × BufferRef)
  bytesTransmitted_ : Nat
  expectingContinue : Bool
  status : Nat
  responseHeaders : List (List Nat × List Nat)
  outputFilters : List Nat
deriving DecidableEq

/-- Modelled from the spec: a new HttpRequest (the constructor is in HttpRequest.cpp, not at
hand): status Undefined, output state Unhandled, nothing transmitted, no headers. -/
def HttpRequest.fresh : HttpRequest :=
  { outputState_ := .Unhandled, method := ⟨0, 0⟩, uri := ⟨0, 0⟩, path := ⟨0, 0⟩,
    query := ⟨0, 0⟩, httpVersionMajor := 0, httpVersionMinor := 0, hostname := ⟨0, 0⟩,
    requestHeaders := [], bytesTransmitted_ := 0, expectingContinue := false,
    status := HttpError.Undefined, responseHeaders := [], outputFilters := [] }

/-- Modelled from the spec: HttpRequest::clear() (HttpRequest.cpp is not at hand) clears the
request object in place for the next message. -/
def HttpRequest.clear (_ : HttpRequest) : HttpRequest := HttpRequest.fresh

/-- The errno values that processOutput tells apart. -/
inductive Errno
  | EINTR | EAGAIN | other
deriving DecidableEq

/-- What one call of output_.sendto(sink_) does, as the socket decides it: the return value
rv, errno (read when rv < 0), and the number of exhausted sources the composite source popped
from the head of the queue. -/
structure SendResult where
  rv : Int
  errno : Errno
  popped : Nat
deriving DecidableEq

/-- The three places of HttpConnection.cpp that call worker_->release(handle_). -/
inductive ReleaseSite
  | unref | processOutput | close
deriving DecidableEq

/-- A call of worker_->release(handle_): where it was made and what the connection looked like
at that moment. -/
structure ReleaseEvent where
  site : ReleaseSite
  isClosed : Bool
  isOutputPending : Bool
  refCount : Int
deriving DecidableEq

/-- The socket mode set by watchInput / watchOutput. -/
inductive SocketMode
  | None | Read | ReadWrite
deriving DecidableEq

/-- The tunables of the server read by the connection. A TimeSpan of 0 counts as unset. -/
structure ServerConfig where
  maxReadIdle : Nat
  maxKeepAlive : Nat
  maxWriteIdle : Nat
  maxRequestHeaderSize : Nat
  maxRequestHeaderCount : Nat
deriving DecidableEq

/-- The state of an HttpConnection together with its request, its worker's counters and a
record of the calls it makes to its collaborators. -/
structure HttpConnection where
  refCount_ : Int
  status_ : Status
  requestCount_ : Nat
  flags_ : Flags
  input_ : Buffer
  inputOffset_ : Nat
  request_ : HttpRequest
  output_ : List Source
  abortHandlerSet : Bool
  /-- HttpMessageProcessor::contentLength(): -1 when no Content-Length was received. -/
  contentLength : Int
  server : ServerConfig
  workerRequestCount : Nat
  socketMode : SocketMode
  socketTimeout : Option Nat
  socketClosed : Bool
  /-- Results of the calls of output_.sendto(sink_) still to come. -/
  sendResults : List SendResult
  /-- The sources handed to HttpConnection::write, in call order. -/
  handed : List Source
  /-- The requests handed to worker_->handleRequest, in call order. -/
  handled : List HttpRequest
  /-- How often abortHandler_ was invoked. -/
  abortHandlerCalls : Nat
  /-- The calls of worker_->release(handle_), in call order. -/
  releases : List ReleaseEvent
deriving DecidableEq

namespace HttpConnection

/-- Modelled from the spec: isAborted() (HttpConnection.h is not at hand) tests the flag
Aborted. -/
def isAborted (c : HttpConnection) : Bool := c.flags_.IsAborted

/-- Modelled from the spec: isClosed() (HttpConnection.h is not at hand) tests the flag
Closed. -/
def isClosed (c : HttpConnection) : Bool := c.flags_.IsClosed

/-- Modelled from the spec: isOutputPending() (HttpConnection.h is not at hand) holds when the
output queue is not empty. -/
def isOutputPending (c : HttpConnection) : Bool := !c.output_.isEmpty

/-- Modelled from the spec: isInsideSocketCallback() (HttpConnection.h is not at hand): each
inbound event takes a ref for the duration of its handler, so the connection is inside a
socket callback while refCount_ is positive. -/
def isInsideSocketCallback (c : HttpConnection) : Bool := decide (0 < c.refCount_)

/-- Modelled from the spec: shouldKeepAlive() tests the flag KeepAliveEnabled. -/
def shouldKeepAlive (c : HttpConnection) : Bool := c.flags_.IsKeepAliveEnabled

/-- The call worker_->release(handle_), recorded with the state it is made in. -/
def release (site : ReleaseSite) (c : HttpConnection) : HttpConnection :=
  { c with releases := c.releases ++
      [{ site := site, isClosed := c.isClosed, isOutputPending := c.isOutputPending,
         refCount := c.refCount_ }] }

/-- HttpConnection::ref(). -/
def ref (c : HttpConnection) : HttpConnection := { c with refCount_ := c.refCount_ + 1 }

/-- HttpConnection::unref() (HttpConnection.cpp:118-127). -/
def unref (c : HttpConnection) : HttpConnection :=
  let c1 := { c with refCount_ := c.refCount_ - 1 }
  if c1.refCount_ = 0 ∧ c1.isClosed ∧ !c1.isOutputPending then release .unref c1 else c1

/-- HttpConnection::setShouldKeepAlive(bool) (HttpConnection.cpp:750-758). -/
def setShouldKeepAlive (enabled : Bool) (c : HttpConnection) : HttpConnection :=
  if enabled then { c with flags_ := { c.flags_ with IsKeepAliveEnabled := true } }
  else { c with flags_ := { c.flags_ with IsKeepAliveEnabled := false } }

/-- HttpConnection::watchInput(timeout) (HttpConnection.cpp:453-459). -/
def watchInput (timeout : Nat) (c : HttpConnection) : HttpConnection :=
  let c1 := if timeout ≠ 0 then { c with socketTimeout := some timeout } else c
  { c1 with socketMode := .Read }

/-- HttpConnection::watchOutput() (HttpConnection.cpp:461-469). -/
def watchOutput (c : HttpConnection) : HttpConnection :=
  let timeout := c.server.maxWriteIdle
  let c1 := if timeout ≠ 0 then { c with socketTimeout := some timeout } else c
  { c1 with socketMode := .ReadWrite }

/-- HttpConnection::close() (HttpConnection.cpp:627-644). -/
def close (c : HttpConnection) : HttpConnection :=
  if c.isClosed then c
  else if c.isInsideSocketCallback then
    let c1 := { c with flags_ := { c.flags_ with IsClosed := true } }
    if !c1.isOutputPending then { c1 with socketMode := .None } else c1
  else release .close c

/-- HttpConnection::abort() (HttpConnection.cpp:597-623). The abort handler belongs to the
request handler; its call is counted. -/
def abort (c : HttpConnection) : HttpConnection :=
  if c.isAborted then c
  else
    let c1 := { c with flags_ := { c.flags_ with IsAborted := true } }
    let c2 := if c1.isOutputPending then { c1 with output_ := [] } else c1
    if c2.abortHandlerSet then
      { c2 with socketClosed := true, abortHandlerCalls := c2.abortHandlerCalls + 1 }
    else close c2

/-- HttpConnection::processResume() (HttpConnection.cpp:669-684). -/
def processResume (c : HttpConnection) : HttpConnection :=
  let c1 := { c with flags_ := { c.flags_ with IsResuming := false } }
  let c2 := { c1 with request_ := c1.request_.clear }
  if c2.inputOffset_ < c2.input_.length then
    { c2 with status_ := .ReadingRequest }
  else
    watchInput c2.server.maxKeepAlive { c2 with status_ := .KeepAliveRead }

/-- HttpConnection::resume() (HttpConnection.cpp:653-667); the TCP_CORK switch of the socket
is left out. -/
def resume (c : HttpConnection) : HttpConnection :=
  let c1 := { c with flags_ := { c.flags_ with IsHandlingRequest := false } }
  if c1.isInsideSocketCallback then
    { c1 with flags_ := { c1.flags_ with IsResuming := true } }
  else processResume c1

/-- Modelled from the spec: HttpRequest::finalize() (HttpRequest.cpp is not at hand): the
output drain sees Finished and either resumes for the next message or closes, based on
keep-alive. -/
def finalize (c : HttpConnection) : HttpConnection :=
  if c.isAborted || !c.shouldKeepAlive then close c else resume c

/-- HttpRequest::checkFinish() (HttpRequest.h:456-461). -/
def checkFinish (c : HttpConnection) : HttpConnection :=
  if c.request_.outputState_ = .Finished then finalize c else c

/-- The for loop of HttpConnection::processOutput() (HttpConnection.cpp:548-588); each
iteration takes the next result of output_.sendto(sink_). When no result is left the socket
is taken to block (EAGAIN). The call watchInput() without argument passes no timeout. -/
def processOutputLoop : List SendResult → HttpConnection → HttpConnection
  | [], c => watchOutput c
  | res :: rest, c =>
    let c0 := { c with sendResults := rest, output_ := c.output_.drop res.popped }
    if 0 < res.rv then
      processOutputLoop rest
        { c0 with request_ := { c0.request_ with
            bytesTransmitted_ := c0.request_.bytesTransmitted_ + res.rv.toNat } }
    else if res.rv = 0 then
      let c2 := watchInput 0 c0
      let c3 := checkFinish c2
      if c3.isClosed ∧ !c3.isOutputPending ∧ c3.refCount_ = 0 then release .processOutput c3
      else c3
    else
      match res.errno with
      | .EINTR => processOutputLoop rest c0
      | .EAGAIN => watchOutput c0
      | .other => abort c0

/-- HttpConnection::processOutput() (HttpConnection.cpp:543-590). -/
def processOutput (c : HttpConnection) : HttpConnection :=
  let c1 := ref c
  let c2 := processOutputLoop c1.sendResults c1
  unref c2

/-- HttpConnection::write(Source*) (HttpConnection.cpp:526-537). -/
def write (chunk : Source) (c : HttpConnection) : HttpConnection :=
  let c0 := { c with handed := c.handed ++ [chunk] }
  if !c0.isAborted then
    processOutput { c0 with output_ := c0.output_ ++ [chunk] }
  else c0

end HttpConnection

namespace HttpRequest

/-- Modelled from the spec: HttpRequest::serialize() (HttpRequest.cpp is not at hand)
serializes the status line and responseHeaders into a new BufferSource. -/
def serialize (r : HttpRequest) : Source := .headerBlock r.status r.responseHeaders

/-- The statements under case Populating of HttpRequest::write (HttpRequest.h:384-389), which
case Unhandled falls through to. -/
def writePopulating (chunk : Source) (c : HttpConnection) : HttpConnection :=
  if c.request_.outputFilters.isEmpty then HttpConnection.write chunk c
  else HttpConnection.write (.filter chunk c.request_.outputFilters false) c

/-- HttpRequest::write(Source*) (HttpRequest.h:372-393). -/
def write (chunk : Source) (c : HttpConnection) : HttpConnection :=
  if c.isAborted then c
  else
    match c.request_.outputState_ with
    | .Unhandled =>
      let c1 := { c with request_ := { c.request_ with outputState_ := .Populating } }
      let c2 := HttpConnection.write (serialize c1.request_) c1
      writePopulating chunk c2
    | .Populating => writePopulating chunk c
    | .Finished => c

/-- Modelled from the spec: isFinished() holds when the output state is Finished. -/
def isFinished (r : HttpRequest) : Bool := decide (r.outputState_ = .Finished)

/-- HttpRequest::supportsProtocol(major, minor) (HttpRequest.h:348-357). -/
def supportsProtocol (r : HttpRequest) (major minor : Int) : Bool :=
  if major = r.httpVersionMajor ∧ minor ≤ r.httpVersionMinor then true
  else if major < r.httpVersionMajor then true
  else false

/-- Modelled from the spec: HttpRequest::finish() (HttpRequest.cpp is not at hand): when no
content was produced it writes the default response content (the standard page keyed by
the status), it appends the terminator of a filtered stream, and sets outputState to
Finished. -/
def finish (c : HttpConnection) : HttpConnection :=
  let c1 :=
    match c.request_.outputState_ with
    | .Unhandled => write (.defaultContent c.request_.status) c
    | _ => c
  let c2 :=
    if c1.request_.outputFilters.isEmpty then c1
    else HttpConnection.write (.filter (.buffer []) c1.request_.outputFilters true) c1
  { c2 with request_ := { c2.request_ with outputState_ := .Finished } }

end HttpRequest

/-- The bytes of an ASCII string literal. -/
def ascii (s : String) : List Nat := s.toList.map Char.toNat

/-- Lower-case form of an ASCII letter. -/
def toLower (c : Nat) : Nat := if 65 ≤ c ∧ c ≤ 90 then c + 32 else c

/-- Modelled from the spec: iequals (strutils is not at hand) compares two byte strings
ignoring ASCII case. -/
def iequals (a b : List Nat) : Bool := a.map toLower == b.map toLower

/-- Modelled from the spec: equals (strutils is not at hand) compares two byte strings. -/
def equals (a b : List Nat) : Bool := a == b

/-- BufferRef::ref(offset, count): a window inside this one. -/
def BufferRef.ref (r : BufferRef) (offset count : Nat) : BufferRef :=
  { offset := r.offset + offset, size := count }

/-- BufferRef::ref(offset): the window from offset to the end of this one. -/
def BufferRef.refFrom (r : BufferRef) (offset : Nat) : BufferRef :=
  { offset := r.offset + offset, size := r.size - offset }

/-- Modelled from the spec: a BufferRef used as a condition (BufferRef.h is not at hand) stands
for a slice that is not empty. -/
def BufferRef.toBool (r : BufferRef) : Bool := decide (r.size ≠ 0)

namespace HttpRequest

/-- Modelled from the spec: HttpRequest::requestHeader(name) (HttpRequest.cpp is not at hand):
the value of the first request header whose name equals name ignoring case, and the empty
BufferRef when there is none. -/
def requestHeader (input : Buffer) (name : List Nat) :
    List (BufferRef × BufferRef) → BufferRef
  | [] => ⟨0, 0⟩
  | (n, v) :: rest => if iequals (n.bytes input) name then v else requestHeader input name rest

end HttpRequest

namespace HttpConnection

/-- Modelled from the spec: HttpRequest::contentAvailable() (HttpRequest.cpp is not at hand):
a request body is announced, that is contentLength() is positive. -/
def contentAvailable (c : HttpConnection) : Bool := decide (0 < c.contentLength)

/-- Modelled from the spec: worker_->handleRequest(request_) (HttpWorker is not at hand)
dispatches the request to the handler pipeline; the call is recorded. -/
def handleRequest (c : HttpConnection) : HttpConnection :=
  { c with handled := c.handled ++ [c.request_] }

/-- HttpConnection::timeout(Socket*) (HttpConnection.cpp:154-174). -/
def timeout (c : HttpConnection) : HttpConnection :=
  match c.status_ with
  | .ReadingRequest =>
    let c1 := setShouldKeepAlive false c
    let c2 := { c1 with request_ := { c1.request_ with status := HttpError.RequestTimeout } }
    let c3 := { c2 with status_ := .SendingReply }
    HttpRequest.finish c3
  | .KeepAliveRead => close c
  | .SendingReply => abort c
  | .StartingUp => c

/-- HttpConnection::onMessageBegin(method, uri, versionMajor, versionMinor)
(HttpConnection.cpp:301-333): the return value and the state afterwards. -/
def onMessageBegin (method uri : BufferRef) (versionMajor versionMinor : Int)
    (c : HttpConnection) : Bool × HttpConnection :=
  let c1 := { c with request_ := { c.request_ with method := method, uri := uri } }
  let c2 :=
    match url_decode c1.input_ c1.request_.uri with
    | some (_, value, url) =>
      { c1 with input_ := value, request_ := { c1.request_ with uri := url } }
    | none => c1
  let c3 :=
    match find (ascii "?") (c2.request_.uri.bytes c2.input_) with
    | some n =>
      { c2 with request_ := { c2.request_ with
          path := c2.request_.uri.ref 0 n, query := c2.request_.uri.refFrom (n + 1) } }
    | none => { c2 with request_ := { c2.request_ with path := c2.request_.uri } }
  let c4 := { c3 with request_ := { c3.request_ with
      httpVersionMajor := versionMajor, httpVersionMinor := versionMinor } }
  let c5 :=
    if c4.request_.supportsProtocol 1 1 then setShouldKeepAlive true c4
    else setShouldKeepAlive false c4
  (true, c5)

/-- HttpConnection::onMessageHeader(name, value) (HttpConnection.cpp:335-381): the return
value and the state afterwards. -/
def onMessageHeader (name value : BufferRef) (c : HttpConnection) : Bool × HttpConnection :=
  if c.request_.isFinished then (true, c)
  else
    let c1 :=
      if iequals (name.bytes c.input_) (ascii "Host") then
        match find [58] (value.bytes c.input_) with
        | some i => { c with request_ := { c.request_ with hostname := value.ref 0 i } }
        | none => { c with request_ := { c.request_ with hostname := value } }
      else if iequals (name.bytes c.input_) (ascii "Connection") then
        if iequals (value.bytes c.input_) (ascii "close") then setShouldKeepAlive false c
        else if iequals (value.bytes c.input_) (ascii "keep-alive") then
          setShouldKeepAlive true c
        else c
      else c
    if name.size + value.size > c1.server.maxRequestHeaderSize then
      let c2 := { c1 with request_ :=
        { c1.request_ with status := HttpError.RequestEntityTooLarge } }
      (false, HttpRequest.finish c2)
    else if c1.request_.requestHeaders.length > c1.server.maxRequestHeaderCount then
      let c2 := { c1 with request_ :=
        { c1.request_ with status := HttpError.RequestEntityTooLarge } }
      (false, HttpRequest.finish c2)
    else
      (true, { c1 with request_ := { c1.request_ with
        requestHeaders := c1.request_.requestHeaders ++ [(name, value)] } })

/-- The local variable expectHeader of onMessageHeaderEnd. -/
def expectHeader (c : HttpConnection) : BufferRef :=
  HttpRequest.requestHeader c.input_ (ascii "Expect") c.request_.requestHeaders

/-- The local variable content_required of onMessageHeaderEnd. -/
def content_required (c : HttpConnection) : Bool :=
  equals (c.request_.method.bytes c.input_) (ascii "POST")
    || equals (c.request_.method.bytes c.input_) (ascii "PUT")

/-- The value equals(expectHeader, "100-continue") that onMessageHeaderEnd stores in
expectingContinue. -/
def expectsContinue (c : HttpConnection) : Bool :=
  equals (c.expectHeader.bytes c.input_) (ascii "100-continue")

/-- The statements of onMessageHeaderEnd after the strict checks (HttpConnection.cpp:417-425):
the request is counted, flagged as being handled and handed to the worker. -/
def dispatch (c : HttpConnection) : Bool × HttpConnection :=
  let c2 := { c with requestCount_ := c.requestCount_ + 1 }
  let c3 := { c2 with workerRequestCount := c2.workerRequestCount + 1 }
  let c4 := { c3 with flags_ := { c3.flags_ with IsHandlingRequest := true } }
  let c5 := { c4 with status_ := .SendingReply }
  (true, handleRequest c5)

/-- HttpConnection::onMessageHeaderEnd() (HttpConnection.cpp:383-426), X0_HTTP_STRICT being
defined: the return value and the state afterwards. -/
def onMessageHeaderEnd (c : HttpConnection) : Bool × HttpConnection :=
  if c.request_.isFinished then (true, c)
  else if c.content_required && decide (c.contentLength = -1) then
    let c1 := { c with request_ := { c.request_ with status := HttpError.LengthRequired } }
    (true, HttpRequest.finish c1)
  else if !c.content_required && c.contentAvailable then
    let c1 := { c with request_ := { c.request_ with status := HttpError.BadRequest } }
    (true, HttpRequest.finish c1)
  else if c.expectHeader.toBool then
    let c1 := { c with request_ := { c.request_ with expectingContinue := c.expectsContinue } }
    if !c1.request_.expectingContinue || !c1.request_.supportsProtocol 1 1 then
      let c2 := { c1 with request_ :=
        { c1.request_ with status := HttpError.ExpectationFailed } }
      (true, HttpRequest.finish c2)
    else dispatch c1
  else dispatch c

end HttpConnection

/-- A connection as its constructor and start() leave it, while io() works on the given input:
one reference is held, the status is ReadingRequest, the request is new. -/
def HttpConnection.reading (input : Buffer) (server : ServerConfig)
    (sendResults : List SendResult) : HttpConnection :=
  { refCount_ := 1, status_ := .ReadingRequest, requestCount_ := 0,
    flags_ := { IsHandlingRequest := false, IsResuming := false, IsKeepAliveEnabled := false,
                IsAborted := false, IsClosed := false },
    input_ := input, inputOffset_ := 0,
    request_ := HttpRequest.fresh,
    output_ := [], abortHandlerSet := false, contentLength := -1, server := server,
    workerRequestCount := 0, socketMode := .Read, socketTimeout := none, socketClosed := false,
    sendResults := sendResults, handed := [], handled := [], abortHandlerCalls := 0,
    releases := [] }

/-- A request line and headers as they stand in the input buffer when onMessageHeaderEnd is
called: the method is the window (0, methodSize), the HTTP version and the headers are as
given. -/
def HttpConnection.atHeaderEnd (input : Buffer) (methodSize : Nat) (major minor : Int)
    (headers : List (BufferRef × BufferRef)) (contentLength : Int) : HttpConnection :=
  { HttpConnection.reading input ⟨60, 10, 60, 8192, 100⟩ [] with
    contentLength := contentLength,
    request_ := { HttpRequest.fresh with
      method := ⟨0, methodSize⟩, httpVersionMajor := major, httpVersionMinor := minor,
      requestHeaders := headers } }

/-- POST /cgi HTTP/1.1 with Host and Transfer-Encoding: chunked, no Content-Length. -/
def HttpConnection.chunkedPost : HttpConnection :=
  HttpConnection.atHeaderEnd
    (ascii "POST /cgi HTTP/1.1\r\nHost: x\r\nTransfer-Encoding: chunked\r\n\r\n")
    4 1 1 [(⟨20, 4⟩, ⟨26, 1⟩), (⟨29, 17⟩, ⟨48, 7⟩)] (-1)

/-- GET / HTTP/2.0 with Expect: 100-continue. -/
def HttpConnection.expectOnVersion2 : HttpConnection :=
  HttpConnection.atHeaderEnd (ascii "GET / HTTP/2.0\r\nExpect: 100-continue\r\n\r\n")
    3 2 0 [(⟨16, 6⟩, ⟨24, 12⟩)] (-1)

/-- GET / HTTP/1.0 with Expect: 100-continue. -/
def HttpConnection.expectOnVersion10 : HttpConnection :=
  HttpConnection.atHeaderEnd (ascii "GET / HTTP/1.0\r\nExpect: 100-continue\r\n\r\n")
    3 1 0 [(⟨16, 6⟩, ⟨24, 12⟩)] (-1)

/-- The sequence of calls onMessageHeader(n1, v1), ..., onMessageHeader(nk, vk): the return
values in order and the state afterwards. -/
def HttpConnection.onMessageHeaders :
    List (BufferRef × BufferRef) → HttpConnection → List Bool × HttpConnection
  | [], c => ([], c)
  | (name, value) :: rest, c =>
    let r := HttpConnection.onMessageHeader name value c
    let rs := HttpConnection.onMessageHeaders rest r.2
    (r.1 :: rs.1, rs.2)

/-- What holds of a connection between the calls made on it: the count of references is not
negative, and a connection that waits for the next request of a keep-alive client (status
KeepAliveRead) has no output queued. -/
def HttpConnection.settled (c : HttpConnection) : Prop :=
  0 ≤ c.refCount_ ∧ (c.status_ = .KeepAliveRead → c.output_ = [])

/-- The connection c1 has the reference count and the status of c. -/
def HttpConnection.Keeps (c c1 : HttpConnection) : Prop :=
  c1.refCount_ = c.refCount_ ∧ c1.status_ = c.status_

/-- The sequence of calls HttpRequest::write(c1), ..., write(cn). -/
def HttpRequest.writeAll : List Source → HttpConnection → HttpConnection
  | [], c => c
  | chunk :: rest, c => HttpRequest.writeAll rest (HttpRequest.write chunk c)

/-- The connection is not aborted when each of the calls write(c1), ..., write(cn) is made. -/
def HttpRequest.NotAbortedAt : List Source → HttpConnection → Prop
  | [], _ => True
  | chunk :: rest, c =>
    c.isAborted = false ∧ HttpRequest.NotAbortedAt rest (HttpRequest.write chunk c)

/-- What HttpRequest::write hands on for a chunk: the chunk itself, or a FilterSource around it
when the filter chain is not empty. -/
def HttpRequest.wrapped (filters : List Nat) (chunk : Source) : Source :=
  if filters.isEmpty then chunk else .filter chunk filters false

/-- The part of the state that writing output leaves alone while the request is not
Finished. -/
structure Stable where
  outputState : OutputState
  outputFilters : List Nat
  requestStatus : Nat
  responseHeaders : List (List Nat × List Nat)
  requestHeaders : List (BufferRef × BufferRef)
  status : Status
  isHandlingRequest : Bool
  handled : List HttpRequest
  requestCount : Nat
  workerRequestCount : Nat
  handed : List Source
deriving DecidableEq

/-- The stable part without the output state and the record of the sources handed on. -/
def Stable.core (s : Stable) : Stable := { s with outputState := .Unhandled, handed := [] }

/-- The stable part of a connection state. -/
def HttpConnection.stable (c : HttpConnection) : Stable :=
  { outputState := c.request_.outputState_, outputFilters := c.request_.outputFilters,
    requestStatus := c.request_.status, responseHeaders := c.request_.responseHeaders,
    requestHeaders := c.request_.requestHeaders, status := c.status_,
    isHandlingRequest := c.flags_.IsHandlingRequest, handled := c.handled,
    requestCount := c.requestCount_, workerRequestCount := c.workerRequestCount,
    handed := c.handed }

/-- Feeding a segment that keeps the parser going: every outcome is indeterminate. -/
def RequestParser.Runs (hexValue : Nat → Nat → Option Int) (s : RequestParser.State)
    (r : RequestParser.Request) (l : List Nat) (s1 : RequestParser.State)
    (r1 : RequestParser.Request) : Prop :=
  RequestParser.feed hexValue s r l = (List.replicate l.length .indeterminate, s1, r1)

/-! ## The loop of url_decode, step by step -/

/-- One test of the loop condition of url_decode: the read position i and the write position d
at the test, and the assignment value[index] = byte made by the iteration that follows, if it
makes one. -/
structure LoopStep where
  i : Nat
  d : Nat
  write : Option (Nat × Nat)
deriving DecidableEq

/-- The trace of the loop of url_decode (HttpConnection.cpp:273-295), run as url_decode_loop
runs it: one entry for each test of the loop condition, in order. -/
def url_decode_steps : Nat → Buffer → Nat → Nat → Nat → List LoopStep
  | 0, _, _, i, d => [⟨i, d, none⟩]
  | fuel + 1, value, right, i, d =>
    if i ≠ right then
      if value.getD i 0 = 37 then
        if i + 3 ≤ right then
          match hex2int (value.getD (i + 1) 0) (value.getD (i + 2) 0) with
          | some ival =>
            ⟨i, d, some (d, ival % 256)⟩ ::
              url_decode_steps fuel (value.set d (ival % 256)) right (i + 3) (d + 1)
          | none => [⟨i, d, none⟩]
        else [⟨i, d, none⟩]
      else if value.getD i 0 = 43 then
        ⟨i, d, some (d, 32)⟩ :: url_decode_steps fuel (value.set d 32) right (i + 1) (d + 1)
      else if d ≠ i then
        ⟨i, d, some (d, value.getD i 0)⟩ ::
          url_decode_steps fuel (value.set d (value.getD i 0)) right (i + 1) (d + 1)
      else ⟨i, d, none⟩ :: url_decode_steps fuel value right (i + 1) (d + 1)
    else [⟨i, d, none⟩]

/-- The buffer after the assignments of a trace, made in order. -/
def applyWrites : Buffer → List LoopStep → Buffer
  | value, [] => value
  | value, s :: rest =>
    match s.write with
    | some (k, b) => applyWrites (value.set k b) rest
    | none => applyWrites value rest

/-- What holds of one entry of the trace of url_decode on the range from left to right. -/
def LoopStep.inRange (left right : Nat) (s : LoopStep) : Prop :=
  left ≤ s.d ∧ s.d ≤ s.i ∧ s.i ≤ right ∧
    ∀ k b, s.write = some (k, b) → k = s.d ∧ s.i < right

/-! ## Further calls and sample states of HttpConnection -/

/-- The connection after onMessageBegin for the request line GET /%41% HTTP/1.1. -/
def HttpConnection.afterBadEscape : HttpConnection :=
  (HttpConnection.onMessageBegin ⟨0, 3⟩ ⟨4, 5⟩ 1 1
    (HttpConnection.reading (ascii "GET /%41% HTTP/1.1\r\n\r\n") ⟨60, 10, 60, 8192, 100⟩ [])).2

/-- The sequence of n calls of HttpConnection::abort(). -/
def HttpConnection.aborts : Nat → HttpConnection → HttpConnection
  | 0, c => c
  | n + 1, c => HttpConnection.aborts n (HttpConnection.abort c)

/-- A connection inside a socket callback with one chunk of output pending and an abort
handler set, as a request handed to a FastCGI backend has it. -/
def HttpConnection.withAbortHandler : HttpConnection :=
  { HttpConnection.reading [] ⟨60, 10, 60, 8192, 100⟩ [] with
    status_ := .SendingReply, abortHandlerSet := true, output_ := [.buffer [104, 105]] }

/-- An aborted connection whose request has not produced output yet. -/
def HttpConnection.abortedUnhandled : HttpConnection :=
  { HttpConnection.reading [] ⟨60, 10, 60, 8192, 100⟩ [] with
    flags_ := { IsHandlingRequest := true, IsResuming := false, IsKeepAliveEnabled := true,
                IsAborted := true, IsClosed := false } }

/-- Modelled from the spec: HttpRequest::onRequestContent(chunk) (HttpRequest.cpp is not at
hand) forwards the chunk to the request's body callback; the chunk is added to the record of
the chunks delivered. The callback is the application's; what it does is not modelled. -/
def HttpRequest.onRequestContent (chunk : BufferRef) (delivered : List BufferRef) :
    List BufferRef :=
  delivered ++ [chunk]

/-- HttpConnection::onMessageEnd() (HttpConnection.cpp:437-451): the return value, the chunks
delivered to the request's content callback, and the state afterwards. BufferRef() is the
empty reference. -/
def HttpConnection.onMessageEnd (c : HttpConnection) : Bool × List BufferRef × HttpConnection :=
  let delivered := HttpRequest.onRequestContent ⟨0, 0⟩ []
  if c.flags_.IsHandlingRequest then (false, delivered, c) else (true, delivered, c)

/-- The place of an output state in the order Unhandled, Populating, Finished. -/
def OutputState.rank : OutputState → Nat
  | .Unhandled => 0
  | .Populating => 1
  | .Finished => 2

/-! ## HttpRequest::HeaderList and HttpRequest::writeCallback (x0/http/HttpRequest.h) -/

/-- The characters that s.c_str() gives to a function reading a C string: those before the
first NUL. -/
def c_str (s : List Nat) : List Nat := s.takeWhile (fun c => c ≠ 0)

/-- HttpRequest::HeaderList (HttpRequest.h:52-244): the counter size_ and the headers
(name, value) reachable from first_, in the order of the links. -/
structure HeaderList where
  size_ : Nat
  headers : List (List Nat × List Nat)
deriving DecidableEq

namespace HeaderList

/-- HeaderList::size(). -/
def size (L : HeaderList) : Nat := L.size_

/-- HeaderList::findHeader(name) (HttpRequest.h:158-171): the position of the header it
returns, none for NULL. -/
def findHeader (name : List Nat) : List (List Nat × List Nat) → Option Nat
  | [] => none
  | item :: rest =>
    if iequals (c_str item.1) (c_str name) then some 0
    else (findHeader name rest).map (fun i => i + 1)

/-- HeaderList::contains(name). -/
def contains (L : HeaderList) (name : List Nat) : Bool := (findHeader name L.headers).isSome

/-- HeaderList::push_back(name, value) (HttpRequest.h:148-156). -/
def push_back (L : HeaderList) (name value : List Nat) : HeaderList :=
  { size_ := L.size_ + 1, headers := L.headers ++ [(name, value)] }

/-- HeaderList::overwrite(name, value) (HttpRequest.h:173-179). -/
def overwrite (L : HeaderList) (name value : List Nat) : HeaderList :=
  match findHeader name L.headers with
  | some i => { L with headers := L.headers.set i ((L.headers.getD i ([], [])).1, value) }
  | none => push_back L name value

/-- HeaderList::operator[](name) (HttpRequest.h:181-200): the value of the header found, the
empty string not_found when there is none. -/
def get (L : HeaderList) (name : List Nat) : List Nat :=
  match findHeader name L.headers with
  | some i => (L.headers.getD i ([], [])).2
  | none => []

/-- HeaderList::append(name, value) (HttpRequest.h:202-205): the body holds a comment only. -/
def append (L : HeaderList) (_name _value : List Nat) : HeaderList := L

end HeaderList

/-- HttpRequest::writeCallback(cb) (HttpRequest.h:408-424): the return value, how often cb
was invoked by the call itself, and the state afterwards. The assertion on the output state
is left out. Modelled from the spec: connection.write<CallbackSource>(cb) (HttpConnection.h
is not at hand) is HttpConnection::write on a new CallbackSource holding cb. -/
def HttpRequest.writeCallback (cb : Nat) (c : HttpConnection) : Bool × Nat × HttpConnection :=
  if c.isAborted then (false, 1, c)
  else if c.isOutputPending then (true, 0, HttpConnection.write (.callback cb) c)
  else (false, 1, c)

/-! ## The FastCGI plugin (plugins/fastcgi.cpp): request ids, request body, parameter names -/

/-- The part of CgiContext::handleRequest (fastcgi.cpp:714-734) that hands out request ids:
from whether the backend socket opened and the static counter nextID_ (uint16_t) to the new
counter and the id passed to bind, none when no transport is made. -/
def CgiContext.handleRequest (backendOpen : Bool) (nextID_ : Nat) : Nat × Option Nat :=
  if backendOpen then
    let n1 := (nextID_ + 1) % 65536
    let n2 := if n1 = 0 then (n1 + 1) % 65536 else n1
    (n2, some n2)
  else (nextID_, none)

/-- Successive calls of CgiContext::handleRequest, one for each entry of the list (whether
that request's backend opened): the ids handed to bind, in call order. -/
def CgiContext.handleRequests : List Bool → Nat → List (Option Nat)
  | [], _ => []
  | o :: rest, nextID_ =>
    (CgiContext.handleRequest o nextID_).2
      :: CgiContext.handleRequests rest (CgiContext.handleRequest o nextID_).1

/-- Modelled from the spec: the values of FastCgi::Type (fastcgi_protocol.h is not at hand)
are the record types of the FastCGI protocol. -/
def FastCgi.Type.EndRequest : Nat := 3
def FastCgi.Type.StdIn : Nat := 5
def FastCgi.Type.StdOut : Nat := 6
def FastCgi.Type.StdErr : Nat := 7
def FastCgi.Type.GetValuesResult : Nat := 10

/-- The call write(FastCgi::Type::StdIn, id_, chunk.data(), chunk.size()) of
CgiTransport::processRequestBody (fastcgi.cpp:611-620): the write buffer after the call. The
flush() that follows does not touch the write buffer. -/
def CgiTransport.processRequestBody (id_ : Nat) (chunk : List Nat) (writeBuffer : Buffer) :
    Option Buffer :=
  CgiTransport.write FastCgi.Type.StdIn id_ chunk chunk.length writeBuffer

/-- The function std::isalnum of the C library in the C locale, on a byte. -/
def isalnum (c : Nat) : Bool :=
  (48 ≤ c && c ≤ 57) || (65 ≤ c && c ≤ 90) || (97 ≤ c && c ≤ 122)

/-- The function std::toupper of the C library in the C locale, on a byte. -/
def toupper (c : Nat) : Nat := if 97 ≤ c ∧ c ≤ 122 then c - 32 else c

/-- The name that CgiTransport::bind gives the CGI parameter of a request header
(fastcgi.cpp:338-346). -/
def CgiTransport.headerKey (name : List Nat) : List Nat :=
  ascii "HTTP_" ++ name.map (fun p => if isalnum p then toupper p else 95)

/-! ## CgiTransport (plugins/fastcgi.cpp): records from the backend and response headers -/

def HttpError.MovedTemporarily : Nat := 302
def HttpError.ServiceUnavailable : Nat := 503

namespace FastCgi

/-- Modelled from the spec: record->type() of the record whose header starts at offset off of
the buffer (fastcgi_protocol.h is not at hand): the second byte of the header. -/
def Record.type (buf : Buffer) (off : Nat) : Nat := buf.getD (off + 1) 0

/-- Modelled from the spec: record->contentLength(): bytes 4 and 5 of the header, in network
order. -/
def Record.contentLength (buf : Buffer) (off : Nat) : Nat :=
  buf.getD (off + 4) 0 * 256 + buf.getD (off + 5) 0

/-- Modelled from the spec: record->paddingLength(): byte 6 of the header. -/
def Record.paddingLength (buf : Buffer) (off : Nat) : Nat := buf.getD (off + 6) 0

/-- Modelled from the spec: record->size(): the 8 header bytes, the content and the padding. -/
def Record.size (buf : Buffer) (off : Nat) : Nat :=
  8 + Record.contentLength buf off + Record.paddingLength buf off

/-- Modelled from the spec: the bytes from record->content() on, contentLength() many. -/
def Record.content (buf : Buffer) (off : Nat) : List Nat :=
  (buf.drop (off + 8)).take (Record.contentLength buf off)

end FastCgi

/-- The result of one call backend_->read(readBuffer_): bytes were appended (rv > 0), the
backend closed the stream (rv = 0), or the call failed (rv < 0) with an errno. -/
inductive ReadResult
  | data (bytes : List Nat)
  | eof
  | failed (errno : Errno)
deriving DecidableEq

/-- The result of one call backend_->write(...): the return value and errno. -/
structure WriteResult where
  rv : Int
  errno : Errno
deriving DecidableEq

/-- The state of a CgiTransport bound to a request, with the results of the reads and writes
on the backend socket still to come, and a record of the calls it makes: the offsets of the
records handed to processRecord, the chunks pushed into the response parser by onStdOut, the
chunks logged by onStdErr, the status of the request at each call of request_->finish(), and
whether the context has released (deleted) the transport. -/
structure CgiTransport where
  refCount_ : Int
  id_ : Nat
  backendOpen : Bool
  backendMode : SocketMode
  readBuffer_ : Buffer
  readOffset_ : Nat
  writeBuffer_ : Buffer
  writeOffset_ : Nat
  configured_ : Bool
  request_ : HttpRequest
  reads : List ReadResult
  writes : List WriteResult
  processed : List Nat
  stdout : List (List Nat)
  stderr : List (List Nat)
  finished : List Nat
  released : Bool
deriving DecidableEq

/-- How a part of CgiTransport::io leaves: on to the next statement, by goto app_err, or by
goto done. -/
inductive IoExit
  | next | app_err | done
deriving DecidableEq

namespace CgiTransport

/-- The destructor of CgiTransport (fastcgi.cpp:237-255), run by CgiContext::release: the
transport is bound, so request_ is set. -/
def destroy (t : CgiTransport) : CgiTransport :=
  let t1 := if t.backendOpen then { t with backendOpen := false } else t
  let t2 :=
    if t1.request_.status = HttpError.Undefined then
      { t1 with request_ := { t1.request_ with status := HttpError.ServiceUnavailable } }
    else t1
  { t2 with finished := t2.finished ++ [t2.request_.status], released := true }

/-- CgiTransport::ref(). -/
def ref (t : CgiTransport) : CgiTransport := { t with refCount_ := t.refCount_ + 1 }

/-- CgiTransport::unref() (fastcgi.cpp:270-279). -/
def unref (t : CgiTransport) : CgiTransport :=
  let t1 := { t with refCount_ := t.refCount_ - 1 }
  if t1.refCount_ = 0 then destroy t1 else t1

/-- CgiTransport::close() (fastcgi.cpp:257-263). -/
def close (t : CgiTransport) : CgiTransport :=
  if t.backendOpen then unref { t with backendOpen := false } else t

/-- CgiTransport::onEndRequest (fastcgi.cpp:605-609). -/
def onEndRequest (t : CgiTransport) : CgiTransport := close t

/-- CgiTransport::onStdOut (fastcgi.cpp:588-592). Modelled from the spec: process(chunk)
(HttpMessageProcessor is not at hand) pushes the payload into the embedded HTTP-message
parser; the chunk is recorded. -/
def onStdOut (chunk : List Nat) (t : CgiTransport) : CgiTransport :=
  { t with stdout := t.stdout ++ [chunk] }

/-- CgiTransport::onStdErr (fastcgi.cpp:594-603): the chunk is logged. -/
def onStdErr (chunk : List Nat) (t : CgiTransport) : CgiTransport :=
  { t with stderr := t.stderr ++ [chunk] }

/-- CgiTransport::processRecord(record) (fastcgi.cpp:533-571) for the record whose header
starts at offset off of the read buffer: the return value proceedHint and the state
afterwards. -/
def processRecord (off : Nat) (t : CgiTransport) : Bool × CgiTransport :=
  let t0 := { t with processed := t.processed ++ [off] }
  let type := FastCgi.Record.type t0.readBuffer_ off
  if type = FastCgi.Type.GetValuesResult then (true, { t0 with configured_ := true })
  else if type = FastCgi.Type.StdOut then
    (true, onStdOut (FastCgi.Record.content t0.readBuffer_ off) t0)
  else if type = FastCgi.Type.StdErr then
    (true, onStdErr (FastCgi.Record.content t0.readBuffer_ off) t0)
  else if type = FastCgi.Type.EndRequest then (false, onEndRequest t0)
  else (true, t0)

/-- The loop of CgiTransport::io that reads as much as possible (fastcgi.cpp:456-480), over
the read results still to come: whether it leaves by goto app_err, and the state. When no
result is left the socket is taken to block (EAGAIN). -/
def readLoop : List ReadResult → CgiTransport → Bool × CgiTransport
  | [], t => (false, t)
  | .data bytes :: rest, t =>
    readLoop rest { t with reads := rest, readBuffer_ := t.readBuffer_ ++ bytes }
  | .eof :: rest, t => (true, { t with reads := rest })
  | .failed errno :: rest, t =>
    match errno with
    | .EINTR => (false, { t with reads := rest })
    | .EAGAIN => (false, { t with reads := rest })
    | .other => (true, { t with reads := rest })

/-- The loop of CgiTransport::io that processes fully received records (fastcgi.cpp:482-497):
whether it leaves by goto done after a record handler returned false, and the state. The fuel
bounds the iterations. -/
def recordLoop : Nat → CgiTransport → Option (Bool × CgiTransport)
  | 0, t =>
    if t.readOffset_ + 8 < t.readBuffer_.length then
      if t.readBuffer_.length - t.readOffset_ < FastCgi.Record.size t.readBuffer_ t.readOffset_
      then some (false, t)
      else none
    else some (false, t)
  | fuel + 1, t =>
    if t.readOffset_ + 8 < t.readBuffer_.length then
      if t.readBuffer_.length - t.readOffset_ < FastCgi.Record.size t.readBuffer_ t.readOffset_
      then some (false, t)
      else
        let r := processRecord t.readOffset_
          { t with readOffset_ := t.readOffset_
              + FastCgi.Record.size t.readBuffer_ t.readOffset_ }
        if !r.1 then some (true, r.2) else recordLoop fuel r.2
    else some (false, t)

/-- The part of CgiTransport::io under revents & Read (fastcgi.cpp:453-498). Every record takes
at least 8 bytes, so the size of the read buffer is fuel enough. -/
def ioRead (t : CgiTransport) : Option (IoExit × CgiTransport) :=
  let r := readLoop t.reads t
  if r.1 then some (.app_err, r.2)
  else
    match recordLoop r.2.readBuffer_.length r.2 with
    | none => none
    | some (stop, t2) => some (if stop then .done else .next, t2)

/-- The part of CgiTransport::io under revents & Write (fastcgi.cpp:500-523), with the next
write result; when none is left the socket is taken to block (EAGAIN). -/
def ioWrite (t : CgiTransport) : IoExit × CgiTransport :=
  match t.writes with
  | [] => (.done, t)
  | w :: rest =>
    let t1 := { t with writes := rest }
    if w.rv < 0 then
      match w.errno with
      | .EINTR => (.done, t1)
      | .EAGAIN => (.done, t1)
      | .other => (.app_err, t1)
    else
      let t2 := { t1 with writeOffset_ := t1.writeOffset_ + w.rv.toNat }
      if t2.writeOffset_ = t2.writeBuffer_.length then
        (.done, { t2 with backendMode := .Read, writeBuffer_ := [], writeOffset_ := 0 })
      else (.done, t2)

/-- The end of CgiTransport::io (fastcgi.cpp:524-531): app_err runs close() and falls into
done, which runs unref(). -/
def ioLeave (exit : IoExit) (t : CgiTransport) : CgiTransport :=
  match exit with
  | .app_err => unref (close t)
  | _ => unref t

/-- CgiTransport::io(s, revents) (fastcgi.cpp:448-531); read and write say whether revents
holds Socket::Read and Socket::Write. -/
def io (read write : Bool) (t : CgiTransport) : Option CgiTransport :=
  let t0 := ref t
  match (if read then ioRead t0 else some (.next, t0)) with
  | none => none
  | some (.next, t1) =>
    if write then some (ioLeave (ioWrite t1).1 (ioWrite t1).2) else some (ioLeave .done t1)
  | some (exit, t1) => some (ioLeave exit t1)

/-- The sequence of n calls of CgiTransport::unref(). -/
def unrefs : Nat → CgiTransport → CgiTransport
  | 0, t => t
  | n + 1, t => unrefs n (unref t)

/-- A transport as the constructor and bind leave it for a new request, its backend open and
operational: one reference, empty buffers, nothing processed yet. -/
def bound (id : Nat) (reads : List ReadResult) : CgiTransport :=
  { refCount_ := 1, id_ := id, backendOpen := true, backendMode := .Read,
    readBuffer_ := [], readOffset_ := 0, writeBuffer_ := [], writeOffset_ := 0,
    configured_ := false, request_ := HttpRequest.fresh, reads := reads, writes := [],
    processed := [], stdout := [], stderr := [], finished := [], released := false }

/-- Modelled from the spec: the value of a string of decimal digits. -/
def digitsValue (ds : List Nat) : Nat := ds.foldl (fun acc d => acc * 10 + (d - 48)) 0

/-- Modelled from the spec: BufferRef::toInt() (Buffer.h is not at hand) parses the leading
decimal digits into an int. -/
def toInt (s : List Nat) : Int :=
  RequestParser.wrapInt (digitsValue (s.takeWhile (fun c => 48 ≤ c && c ≤ 57)))

/-- CgiTransport::onMessageHeader(name, value) (fastcgi.cpp:622-637), on the bytes of name
and value: the return value and the request afterwards. Modelled from the spec: value.ref(0,
n) is the slice of the first n bytes, and the whole value when find returned npos. -/
def onMessageHeader (name value : List Nat) (r : HttpRequest) : Bool × HttpRequest :=
  if iequals name (ascii "Status") then
    let code :=
      match find (ascii " ") value with
      | some n => value.take n
      | none => value
    (true, { r with status := (toInt code).toNat })
  else
    let r1 :=
      if equals name (ascii "Location") then { r with status := HttpError.MovedTemporarily }
      else r
    (true, { r1 with responseHeaders := r1.responseHeaders ++ [(name, value)] })

end CgiTransport

def HttpError.BadGateway : Nat := 502

/-- A bound transport whose backend closes the stream at the first read. -/
def CgiTransport.atEof : CgiTransport := CgiTransport.bound 1 [.eof]

/-- What holds of the read side of a transport: the read offset is inside the read buffer, and
every record handed to processRecord so far lies wholly inside it, header, content and
padding. -/
def CgiTransport.recordsInside (t : CgiTransport) : Prop :=
  t.readOffset_ ≤ t.readBuffer_.length ∧
    ∀ off ∈ t.processed, off + FastCgi.Record.size t.readBuffer_ off ≤ t.readBuffer_.length

/-! ## Pipelined input at resume, and the expire plugin (plugins/expire.cpp) -/

/-- A keep-alive connection outside any socket callback whose request GET /a has been answered
while the bytes of a second request, GET /b, stand unparsed in the input buffer. -/
def HttpConnection.pipelined : HttpConnection :=
  { HttpConnection.reading (ascii "GET /a HTTP/1.1\r\n\r\nGET /b HTTP/1.1\r\n\r\n")
      ⟨60, 10, 60, 8192, 100⟩ [] with
    refCount_ := 0, status_ := .SendingReply, inputOffset_ := 19, requestCount_ := 1,
    flags_ := { IsHandlingRequest := true, IsResuming := false, IsKeepAliveEnabled := true,
                IsAborted := false, IsClosed := false },
    request_ := { HttpRequest.fresh with
      outputState_ := .Finished, method := ⟨0, 3⟩, uri := ⟨4, 2⟩, path := ⟨4, 2⟩,
      httpVersionMajor := 1, httpVersionMinor := 1, status := 200 } }

namespace ExpirePlugin

/-- The value that ExpirePlugin::expire computes from its argument (expire.cpp:76-83); time_t
is taken as an integer without overflow. -/
def expiry (now mtime value : Int) : Int :=
  let value1 := if value < mtime then value + now else value
  if value1 < now then now else value1

/-- ExpirePlugin::expire (expire.cpp:67-91) on the response headers: args are the numbers of
the arguments, now is the worker's time, fileinfo the mtime of the request's file when it has
one; http_str stands for DateTime(value).http_str().str() and number for the decimal text
that Buffer's operator << writes for an integer. -/
def expire (http_str number : Int → List Nat) (args : List Int) (now : Int)
    (fileinfo : Option Int) (responseHeaders : HeaderList) : HeaderList :=
  match args with
  | [] => responseHeaders
  | arg0 :: _ =>
    let mtime :=
      match fileinfo with
      | some m => m
      | none => now
    let value := expiry now mtime arg0
    (responseHeaders.overwrite (ascii "Expires") (http_str value)).overwrite
      (ascii "Cache-Control") (ascii "max-age=" ++ number (value - now))

end ExpirePlugin

/-! ## composite_buffer (src/x0/composite_buffer.hpp) -/

/-- The enum composite_buffer::chunk::chunk_type. -/
inductive chunk_type
  | cstring | ciov | cfd
deriving DecidableEq

/-- A chunk of a composite_buffer: the fields type and size of the base class, and those of
the three implementations: value is the std::string of a string_chunk and, for an
iovec_chunk, the bytes of its buffers in order; offset is that of a string_chunk or fd_chunk;
fd and close are those of an fd_chunk. -/
structure chunk where
  type : chunk_type
  size : Nat
  value : List Nat
  offset : Nat
  fd : Nat
  close : Bool
deriving DecidableEq

/-- The class composite_buffer: the chunks linked from front_, in order, and size_. While the
buffer is only pushed to, back_ is the last of the chunks. -/
structure composite_buffer where
  chunks : List chunk
  size_ : Nat
deriving DecidableEq

namespace composite_buffer

/-- The constructor composite_buffer(). -/
def empty_buffer : composite_buffer := { chunks := [], size_ := 0 }

/-- composite_buffer::size(). -/
def size (b : composite_buffer) : Nat := b.size_

/-- composite_buffer::empty(). -/
def empty (b : composite_buffer) : Bool := b.size_ == 0

/-- The constructor string_chunk(value). -/
def string_chunk (value : List Nat) : chunk :=
  { type := .cstring, size := value.length, value := value, offset := 0, fd := 0,
    close := false }

/-- The constructor iovec_chunk(). -/
def iovec_chunk : chunk :=
  { type := .ciov, size := 0, value := [], offset := 0, fd := 0, close := false }

/-- The constructor fd_chunk(fd, offset, size, close). -/
def fd_chunk (fd offset size : Nat) (close : Bool) : chunk :=
  { type := .cfd, size := size, value := [], offset := offset, fd := fd, close := close }

/-- Applies f to the chunk back_ points to. -/
def updateBack (f : chunk → chunk) : List chunk → List chunk
  | [] => []
  | [c] => [f c]
  | c :: rest => c :: updateBack f rest

/-- composite_buffer::push_back(const std::string& value) (composite_buffer.hpp:509-529). -/
def push_back_string (value : List Nat) (b : composite_buffer) : composite_buffer :=
  match b.chunks.getLast? with
  | some back =>
    if back.type = .cstring then
      { b with chunks := updateBack (fun c => { c with value := c.value ++ value }) b.chunks }
    else
      { chunks := b.chunks ++ [string_chunk value],
        size_ := b.size_ + (string_chunk value).size }
  | none => { chunks := [string_chunk value], size_ := (string_chunk value).size }

/-- composite_buffer::push_back(const void *buffer, int size) (composite_buffer.hpp:531-546),
for the size bytes at buffer; iovec_chunk::push_back adds them to the chunk. -/
def push_back_raw (bytes : List Nat) (b : composite_buffer) : composite_buffer :=
  let chunks1 :=
    match b.chunks.getLast? with
    | none => [iovec_chunk]
    | some back => if back.type ≠ .ciov then b.chunks ++ [iovec_chunk] else b.chunks
  { chunks := updateBack
      (fun c => { c with value := c.value ++ bytes, size := c.size + bytes.length }) chunks1,
    size_ := b.size_ + bytes.length }

/-- composite_buffer::push_back(char value). -/
def push_back_char (value : Nat) (b : composite_buffer) : composite_buffer :=
  push_back_raw [value] b

/-- composite_buffer::push_back(const char *value): strlen(value) bytes of the C string. -/
def push_back_cstr (value : List Nat) (b : composite_buffer) : composite_buffer :=
  push_back_raw (c_str value) b

/-- composite_buffer::push_back(int fd, off_t offset, size_t size, bool close)
(composite_buffer.hpp:554-567). -/
def push_back_fd (fd offset size : Nat) (close : Bool) (b : composite_buffer) :
    composite_buffer :=
  { chunks := b.chunks ++ [fd_chunk fd offset size close],
    size_ := b.size_ + (fd_chunk fd offset size close).size }

/-- composite_buffer::push_back(composite_buffer& buffer) (composite_buffer.hpp:569-586): this
buffer and the source afterwards. -/
def push_back_buffer (source : composite_buffer) (b : composite_buffer) :
    composite_buffer × composite_buffer :=
  let b1 :=
    match b.chunks.getLast? with
    | some _ => { chunks := b.chunks ++ source.chunks, size_ := b.size_ + source.size_ }
    | none => { chunks := source.chunks, size_ := source.size_ }
  (b1, { chunks := [], size_ := 0 })

/-- One push_back operation with its arguments. -/
inductive Push
  | char (value : Nat)
  | cstr (value : List Nat)
  | string (value : List Nat)
  | raw (bytes : List Nat)
  | fd (fd offset size : Nat) (close : Bool)
  | buffer (source : composite_buffer)
deriving DecidableEq

/-- The number of bytes a push_back operation adds. -/
def Push.bytes : Push → Nat
  | .char _ => 1
  | .cstr value => (c_str value).length
  | .string value => value.length
  | .raw bytes => bytes.length
  | .fd _ _ size _ => size
  | .buffer source => source.size_

/-- The buffer after one push_back operation. -/
def push (p : Push) (b : composite_buffer) : composite_buffer :=
  match p with
  | .char value => push_back_char value b
  | .cstr value => push_back_cstr value b
  | .string value => push_back_string value b
  | .raw bytes => push_back_raw bytes b
  | .fd fd offset size close => push_back_fd fd offset size close b
  | .buffer source => (push_back_buffer source b).1

/-- The buffer after a sequence of push_back operations. -/
def pushAll : List Push → composite_buffer → composite_buffer
  | [], b => b
  | p :: rest, b => pushAll rest (push p b)

/-- The method write_some of the three chunk implementations (composite_buffer.hpp:158-169,
194-206, 230-248) for a socket call that fails (none, the return value -1) or takes at most
the given number of the bytes offered: the return value and the chunk afterwards. A
string_chunk offers size bytes from offset, an fd_chunk size bytes of the file, and an
iovec_chunk all its buffers every time; size is a size_t. -/
def write_some (accepts : Option Nat) (c : chunk) : Int × chunk :=
  match c.type with
  | .cstring =>
    match accepts with
    | none => (-1, c)
    | some k =>
      (((min k c.size : Nat) : Int),
        { c with offset := c.offset + min k c.size, size := c.size - min k c.size })
  | .ciov =>
    match accepts with
    | none => (-1, c)
    | some k =>
      (((min k c.value.length : Nat) : Int),
        { c with size := (c.size + 2 ^ 64 - min k c.value.length) % 2 ^ 64 })
  | .cfd =>
    if c.size ≠ 0 then
      match accepts with
      | none => (-1, c)
      | some k =>
        (((min k c.size : Nat) : Int),
          { c with offset := c.offset + min k c.size, size := c.size - min k c.size })
    else (0, c)

/-- The method chunk::write(socket) (composite_buffer.hpp:75-92) over the results of the socket
calls still to come: the return value, the chunk afterwards and the results left; none when
the results run out while the loop goes on. -/
def chunk_write : List (Option Nat) → Int → chunk → Option (Int × chunk × List (Option Nat))
  | socket, total, c =>
    if c.size ≠ 0 then
      match socket with
      | [] => none
      | accepts :: rest =>
        if (write_some accepts c).1 ≠ -1 then
          chunk_write rest (total + (write_some accepts c).1) (write_some accepts c).2
        else some ((write_some accepts c).1, (write_some accepts c).2, rest)
    else some (total, c, socket)

/-- The loop of composite_buffer::write(socket) (composite_buffer.hpp:588-613) over the chunks
from front_: the return value, the buffer afterwards and the socket results left. -/
def write_loop : List chunk → List (Option Nat) → Int → Nat →
    Option (Int × composite_buffer × List (Option Nat))
  | [], socket, nwritten, size_ => some (nwritten, { chunks := [], size_ := size_ }, socket)
  | front :: next, socket, nwritten, size_ =>
    match chunk_write socket 0 front with
    | none => none
    | some (rv, front1, socket1) =>
      if rv ≠ -1 then
        write_loop next socket1 (nwritten + rv) ((size_ + 2 ^ 64 - front1.size) % 2 ^ 64)
      else some (-1, { chunks := front1 :: next, size_ := size_ }, socket1)

/-- The method composite_buffer::write(socket). -/
def write (socket : List (Option Nat)) (b : composite_buffer) :
    Option (Int × composite_buffer × List (Option Nat)) :=
  write_loop b.chunks socket 0 b.size_

end composite_buffer

/-! ## request_parser: the path behind the request URI -/

namespace RequestParser

/-- The states that consume is in once the request URI has been read: those of the HTTP
version and of the header lines. -/
def State.pastUri : State → Bool
  | .method_start => false
  | .method => false
  | .uri_start => false
  | .uri => false
  | _ => true

/-- What holds of a request whose URI consume has let pass: uri is the URL-decoding of some
text, path is its part before the first question mark, and path is not empty, starts with a
slash and holds no two dots in a row. -/
def Request.pathChecked (hexValue : Nat → Nat → Option Int) (r : Request) : Prop :=
  (∃ raw, url_decode hexValue raw = some r.uri) ∧ r.path = pathOf r.uri ∧
    r.path ≠ [] ∧ r.path.head? = some 47 ∧ find [46, 46] r.path = none

/-- The request after the statements of consume that store the decoded URI and split it at
its first question mark (request_parser.cpp:114-124). -/
def Request.withUri (r : Request) (U : List Nat) : Request :=
  match find [63] U with
  | some n => { r with uri := U, path := U.take n, query := U.drop (n + 1) }
  | none => { r with uri := U, path := U }

/-- A reading of the two characters after a percent sign as hexadecimal digits, for
examples. -/
def hexOfDigits (x y : Nat) : Option Int := (hex2int x y).map Int.ofNat

end RequestParser

/-! ## Base64 (lib/base/Base64.cpp) -/

namespace Base64

/-- The table Base64::base64_. -/
def base64_ : List Nat :=
  ascii "ABCDEFGHIJKLMNOPQRSTUVWXYZabcdefghijklmnopqrstuvwxyz0123456789+/"

/-- The table Base64::pr2six_. -/
def pr2six_ : List Nat :=
  [64, 64, 64, 64, 64, 64, 64, 64, 64, 64, 64, 64, 64, 64, 64, 64,
   64, 64, 64, 64, 64, 64, 64, 64, 64, 64, 64, 64, 64, 64, 64, 64,
   64, 64, 64, 64, 64, 64, 64, 64, 64, 64, 64, 62, 64, 64, 64, 63,
   52, 53, 54, 55, 56, 57, 58, 59, 60, 61, 64, 64, 64, 64, 64, 64,
   64,  0,  1,  2,  3,  4,  5,  6,  7,  8,  9, 10, 11, 12, 13, 14,
   15, 16, 17, 18, 19, 20, 21, 22, 23, 24, 25, 64, 64, 64, 64, 64,
   64, 26, 27, 28, 29, 30, 31, 32, 33, 34, 35, 36, 37, 38, 39, 40,
   41, 42, 43, 44, 45, 46, 47, 48, 49, 50, 51, 64, 64, 64, 64, 64,
   64, 64, 64, 64, 64, 64, 64, 64, 64, 64, 64, 64, 64, 64, 64, 64,
   64, 64, 64, 64, 64, 64, 64, 64, 64, 64, 64, 64, 64, 64, 64, 64,
   64, 64, 64, 64, 64, 64, 64, 64, 64, 64, 64, 64, 64, 64, 64, 64,
   64, 64, 64, 64, 64, 64, 64, 64, 64, 64, 64, 64, 64, 64, 64, 64,
   64, 64, 64, 64, 64, 64, 64, 64, 64, 64, 64, 64, 64, 64, 64, 64,
   64, 64, 64, 64, 64, 64, 64, 64, 64, 64, 64, 64, 64, 64, 64, 64,
   64, 64, 64, 64, 64, 64, 64, 64, 64, 64, 64, 64, 64, 64, 64, 64,
   64, 64, 64, 64, 64, 64, 64, 64, 64, 64, 64, 64, 64, 64, 64, 64]

/-- Base64::encode(const unsigned char *buffer, int ALength) (Base64.cpp:51-80) on the ALength
bytes at buffer. The loop over i in steps of 3, which runs while i < len - 2, is written as a
recursion over the bytes from i on; the two shorter cases are the statements under
if (i < len). The result is the outlen characters written to encoded, which the returned
std::string holds; the array is not NUL-terminated, and what the string constructor reads
behind the characters written is cut off at outlen. -/
def encode : List Nat → List Nat
  | s0 :: s1 :: s2 :: rest =>
    base64_.getD ((s0 >>> 2) &&& 0x3F) 0
      :: base64_.getD (((s0 &&& 0x3) <<< 4) ||| ((s1 &&& 0xF0) >>> 4)) 0
      :: base64_.getD (((s1 &&& 0xF) <<< 2) ||| ((s2 &&& 0xC0) >>> 6)) 0
      :: base64_.getD (s2 &&& 0x3F) 0
      :: encode rest
  | [s0, s1] =>
    [base64_.getD ((s0 >>> 2) &&& 0x3F) 0,
     base64_.getD (((s0 &&& 0x3) <<< 4) ||| ((s1 &&& 0xF0) >>> 4)) 0,
     base64_.getD ((s1 &&& 0xF) <<< 2) 0,
     61]
  | [s0] =>
    [base64_.getD ((s0 >>> 2) &&& 0x3F) 0,
     base64_.getD ((s0 &&& 0x3) <<< 4) 0,
     61,
     61]
  | [] => []

/-- The value (bufin - bufcoded) - 1 after the scan while (pr2six_[*(bufin++)] <= 63): the
number of characters before the first one that is no base64 digit; a C string ends with a NUL,
which is none. -/
def nprbytes (bufcoded : List Nat) : Nat :=
  (bufcoded.takeWhile (fun ch => pr2six_.getD ch 64 ≤ 63)).length

/-- The byte (unsigned char) (pr2six_[*bufin] << 2 | pr2six_[bufin[1]] >> 4), bufin being the
characters from the read pointer on. -/
def byte0 (bufin : List Nat) : Nat :=
  ((pr2six_.getD (bufin.getD 0 0) 64 <<< 2) ||| (pr2six_.getD (bufin.getD 1 0) 64 >>> 4)) % 256

/-- The byte (unsigned char) (pr2six_[bufin[1]] << 4 | pr2six_[bufin[2]] >> 2). -/
def byte1 (bufin : List Nat) : Nat :=
  ((pr2six_.getD (bufin.getD 1 0) 64 <<< 4) ||| (pr2six_.getD (bufin.getD 2 0) 64 >>> 2)) % 256

/-- The byte (unsigned char) (pr2six_[bufin[2]] << 6 | pr2six_[bufin[3]]). -/
def byte2 (bufin : List Nat) : Nat :=
  ((pr2six_.getD (bufin.getD 2 0) 64 <<< 6) ||| pr2six_.getD (bufin.getD 3 0) 64) % 256

/-- The loop while (nprbytes > 4) of Base64::decode (Base64.cpp:126-132): the characters from
bufin on, nprbytes and the bytes written to the output, afterwards; none when the fuel runs
out. -/
def decode_loop : Nat → List Nat → Nat → List Nat → Option (List Nat × Nat × List Nat)
  | 0, bufin, nprbytes, bufout => if nprbytes > 4 then none else some (bufin, nprbytes, bufout)
  | fuel + 1, bufin, nprbytes, bufout =>
    if nprbytes > 4 then
      decode_loop fuel (bufin.drop 4) (nprbytes - 4)
        (bufout ++ [byte0 bufin, byte1 bufin, byte2 bufin])
    else some (bufin, nprbytes, bufout)

/-- Base64::decode(const char *input, unsigned char *output) (Base64.cpp:109-152): the return
value nbytesdecoded and the bytes written to output, in order. -/
def decode_cstr (input : List Nat) : Option (Nat × List Nat) :=
  let nbytesdecoded := ((nprbytes input + 3) / 4) * 3
  match decode_loop (nprbytes input) input (nprbytes input) [] with
  | none => none
  | some (bufin, n, bufout) =>
    let bufout1 := if n > 1 then bufout ++ [byte0 bufin] else bufout
    let bufout2 := if n > 2 then bufout1 ++ [byte1 bufin] else bufout1
    let bufout3 := if n > 3 then bufout2 ++ [byte2 bufin] else bufout2
    some (nbytesdecoded - ((4 - n) &&& 3), bufout3)

/-- Base64::decode(const std::string& value) (Base64.cpp:98-107). Modelled from the spec:
Buffer::reserve, data and resize (Buffer.h is not at hand): the result holds the first len
bytes written to its data. -/
def decode (value : List Nat) : Option (List Nat) :=
  (decode_cstr (c_str value)).map (fun r => r.2.take r.1)

end Base64

/-! ## HttpRequest::HeaderList with its links: unlinkHeader and remove (x0/http/HttpRequest.h) -/

namespace HeaderList

/-- HeaderList::Header (HttpRequest.h:55-75): name, value and the links prev and next. A link
holds the address of a Header, none for NULL. -/
structure Header where
  name : List Nat
  value : List Nat
  prev : Option Nat
  next : Option Nat
deriving DecidableEq

/-- HeaderList (HttpRequest.h:52-244) with its links: the members size_ (size_t, 64 bits),
first_ and last_, and the Header objects that are alive, by address. -/
structure Links where
  size_ : Nat
  first_ : Option Nat
  last_ : Option Nat
  heap : Nat → Option Header

namespace Links

/-- HeaderList::HeaderList() (HttpRequest.h:128-130). -/
def empty : Links := { size_ := 0, first_ := none, last_ := none, heap := fun _ => none }

/-- HeaderList::size(). -/
def size (L : Links) : Nat := L.size_

/-- The assignment p->next = next; none when no Header is alive at p. -/
def setNext (heap : Nat → Option Header) (p : Nat) (next : Option Nat) :
    Option (Nat → Option Header) :=
  match heap p with
  | none => none
  | some h => some (fun a => if a = p then some { h with next := next } else heap a)

/-- The assignment n->prev = prev; none when no Header is alive at n. -/
def setPrev (heap : Nat → Option Header) (n : Nat) (prev : Option Nat) :
    Option (Nat → Option Header) :=
  match heap n with
  | none => none
  | some h => some (fun a => if a = n then some { h with prev := prev } else heap a)

/-- The statement if (prev) prev->next = next. -/
def linkNext (heap : Nat → Option Header) (prev next : Option Nat) :
    Option (Nat → Option Header) :=
  match prev with
  | some p => setNext heap p next
  | none => some heap

/-- The statement if (next) next->prev = prev. -/
def linkPrev (heap : Nat → Option Header) (next prev : Option Nat) :
    Option (Nat → Option Header) :=
  match next with
  | some n => setPrev heap n prev
  | none => some heap

/-- The expression new Header(name, value, prev, next) (constructor, HttpRequest.h:61-69),
addr being the address of the new object: the object is made, then prev->next and next->prev
are set to it. None when a Header is alive at that address already or prev or next point to
none. -/
def newHeader (heap : Nat → Option Header) (addr : Nat) (name value : List Nat)
    (prev next : Option Nat) : Option (Nat → Option Header) :=
  if heap addr = none then
    (linkNext (fun a => if a = addr then some ⟨name, value, prev, next⟩ else heap a)
      prev (some addr)).bind fun heap1 =>
    linkPrev heap1 next (some addr)
  else none

/-- HeaderList::push_back(name, value) (HttpRequest.h:148-156), addr being the address that
new returns. -/
def push_back (addr : Nat) (name value : List Nat) (L : Links) : Option Links :=
  (newHeader L.heap addr name value L.last_ none).map fun heap1 =>
    { size_ := (L.size_ + 1) % 2 ^ 64
      first_ := if L.first_ = none then some addr else L.first_
      last_ := some addr
      heap := heap1 }

/-- The loop of HeaderList::findHeader(name) (HttpRequest.h:158-171) from item on: the pointer
returned (none inside for NULL). None outside when the fuel runs out or item points to no
Header. -/
def findHeaderFrom (name : List Nat) (heap : Nat → Option Header) :
    Nat → Option Nat → Option (Option Nat)
  | _, none => some none
  | 0, some _ => none
  | fuel + 1, some item =>
    match heap item with
    | none => none
    | some h =>
      if iequals (c_str h.name) (c_str name) then some (some item)
      else findHeaderFrom name heap fuel h.next

/-- HeaderList::findHeader(name) (HttpRequest.h:158-171). -/
def findHeader (fuel : Nat) (name : List Nat) (L : Links) : Option (Option Nat) :=
  findHeaderFrom name L.heap fuel L.first_

/-- HeaderList::unlinkHeader(item) (HttpRequest.h:213-234): the pointer returned and the list
afterwards. None when a pointer that is read points to no Header. -/
def unlinkHeader (item : Nat) (L : Links) : Option (Nat × Links) :=
  (L.heap item).bind fun h =>
  (linkNext L.heap h.prev h.next).bind fun heap1 =>
  (linkPrev heap1 h.next h.prev).bind fun heap2 =>
  (if some item = L.first_ then (heap2 item).map (fun f => f.next)
    else some L.first_).bind fun first1 =>
  (if some item = L.last_ then (heap2 item).map (fun l => l.prev)
    else some L.last_).bind fun last1 =>
  some (item, { size_ := (L.size_ + 2 ^ 64 - 1) % 2 ^ 64
                first_ := first1
                last_ := last1
                heap := heap2 })

/-- HeaderList::remove(name) (HttpRequest.h:236-242); delete ends the life of the Header
unlinked. -/
def remove (fuel : Nat) (name : List Nat) (L : Links) : Option Links :=
  match findHeader fuel name L with
  | none => none
  | some none => some L
  | some (some item) =>
    match unlinkHeader item L with
    | none => none
    | some r => some { r.2 with heap := fun a => if a = r.1 then none else r.2.heap a }

/-- The entries (name, value) that an iterator meets from current on (iterator::operator++,
HttpRequest.h:104-110) until it equals end(). None when the fuel runs out or the iterator
points to no Header. -/
def entriesFrom (heap : Nat → Option Header) :
    Nat → Option Nat → Option (List (List Nat × List Nat))
  | _, none => some []
  | 0, some _ => none
  | fuel + 1, some current =>
    match heap current with
    | none => none
    | some h => (entriesFrom heap fuel h.next).map (fun r => (h.name, h.value) :: r)

/-- The entries reachable from begin(), which is iterator(first_), in order. -/
def entries (fuel : Nat) (L : Links) : Option (List (List Nat × List Nat)) :=
  entriesFrom L.heap fuel L.first_

/-- The first address of as, nxt when there is none. -/
def headOr (as : List Nat) (nxt : Option Nat) : Option Nat :=
  match as with
  | [] => nxt
  | a :: _ => some a

/-- The last address of as, prev when there is none. -/
def lastOr : List Nat → Option Nat → Option Nat
  | [], prev => prev
  | a :: as, _ => lastOr as (some a)

/-- The Headers at the addresses as hold the entries es and are linked in this order, the
first one back to prev and the last one on to nxt. -/
def seg (heap : Nat → Option Header) :
    Option Nat → List Nat → List (List Nat × List Nat) → Option Nat → Prop
  | _, [], [], _ => True
  | prev, a :: as, e :: es, nxt =>
    heap a = some ⟨e.1, e.2, prev, headOr as nxt⟩ ∧ seg heap (some a) as es nxt
  | _, [], _ :: _, _ => False
  | _, _ :: _, [], _ => False

/-- The list is a well-formed doubly-linked list of the Headers at the distinct addresses as,
which hold the entries es in this order: first_ and last_ point to its ends (NULL when it is
empty), and the outer links are NULL. -/
def wellFormed (L : Links) (as : List Nat) (es : List (List Nat × List Nat)) : Prop :=
  as.Nodup ∧ L.first_ = headOr as none ∧ L.last_ = lastOr as none ∧ seg L.heap none as es none

/-- The list built by push_back of Accept, Vary and vary, the new Headers being at the
addresses 10, 20 and 30. -/
def sample : Links :=
  ((((some empty).bind (push_back 10 (ascii "Accept") (ascii "text/html"))).bind
    (push_back 20 (ascii "Vary") (ascii "Accept"))).bind
    (push_back 30 (ascii "vary") (ascii "Cookie"))).getD empty

end Links

end HeaderList

/-! ## Theorems -/

theorem hexDigit_lt (c h : Nat) (hc : hexDigit c = some h) : h < 16 := by
  unfold hexDigit at hc
  split_ifs at hc <;> simp at hc <;> omega

theorem hex2int_lt (x y v : Nat) (h : hex2int x y = some v) : v < 256 := by
  unfold hex2int at h
  split at h
  · rename_i a b ha hb
    have := hexDigit_lt _ _ ha
    have := hexDigit_lt _ _ hb
    simp at h; omega
  · simp at h

theorem drop_eq_getD_cons (l : List Nat) (i : Nat) (h : i < l.length) :
    l.drop i = l.getD i 0 :: l.drop (i + 1) := by
  rw [List.drop_eq_getElem_cons h]
  simp [List.getD_eq_getElem?_getD, List.getElem?_eq_getElem h]

theorem take_set_succ (l : List Nat) (d x : Nat) (h : d < l.length) :
    (l.set d x).take (d + 1) = l.take d ++ [x] := by
  induction l generalizing d with
  | nil => simp at h
  | cons a t ih =>
    cases d with
    | zero => simp
    | succ n =>
      simp only [List.length_cons, Nat.add_lt_add_iff_right] at h
      simp [ih n h]

theorem getD_set_ne (l : List Nat) (d k x : Nat) (h : d ≠ k) :
    (l.set d x).getD k 0 = l.getD k 0 := by
  simp [List.getD_eq_getElem?_getD, List.getElem?_set_ne h]

theorem seg_cons (value : Buffer) (right i : Nat) (h1 : i < right) (h2 : right ≤ value.length) :
    (value.drop i).take (right - i)
      = value.getD i 0 :: (value.drop (i + 1)).take (right - (i + 1)) := by
  rw [drop_eq_getD_cons value i (by omega)]
  have : right - i = (right - (i + 1)) + 1 := by omega
  rw [this, List.take_succ_cons]


theorem refDecode_short (c : Nat) (rest : List Nat) (hc : c = 37) (hl : rest.length < 2) :
    refDecode (c :: rest) = none := by
  subst hc
  match rest, hl with
  | [], _ => simp [refDecode]
  | [_], _ => simp [refDecode]

theorem refDecode_cons_other (c : Nat) (rest : List Nat) (h1 : c ≠ 37) :
    refDecode (c :: rest) = (refDecode rest).map (fun t => (if c = 43 then 32 else c) :: t) := by
  by_cases h2 : c = 43
  · rcases rest with _ | ⟨x, _ | ⟨y, r⟩⟩ <;> simp [refDecode, h2]
  · rcases rest with _ | ⟨x, _ | ⟨y, r⟩⟩ <;> simp [refDecode, h1, h2]

theorem take_succ_getD (l : List Nat) (d : Nat) (h : d < l.length) :
    l.take (d + 1) = l.take d ++ [l.getD d 0] := by
  induction l generalizing d with
  | nil => simp at h
  | cons a t ih =>
    cases d with
    | zero => simp
    | succ n =>
      simp only [List.length_cons, Nat.add_lt_add_iff_right] at h
      simp [ih n h]

theorem url_decode_loop_step (n : Nat) (value value1 : Buffer) (right i1 d x : Nat)
    (seg1 : List Nat)
    (hv1 : value1.take (d + 1) = value.take d ++ [x])
    (hv2 : ∀ k, d < k → value1.drop k = value.drop k)
    (IH : (∀ out, refDecode seg1 = some out →
        url_decode_loop n value1 right i1 (d + 1)
          = some (true, value1.take (d + 1) ++ out ++ value1.drop (d + 1 + out.length),
              d + 1 + out.length)) ∧
      (refDecode seg1 = none →
        ∃ v1 d1, url_decode_loop n value1 right i1 (d + 1) = some (false, v1, d1))) :
    (∀ out, (refDecode seg1).map (fun t => x :: t) = some out →
        url_decode_loop n value1 right i1 (d + 1)
          = some (true, value.take d ++ out ++ value.drop (d + out.length), d + out.length)) ∧
      ((refDecode seg1).map (fun t => x :: t) = none →
        ∃ v1 d1, url_decode_loop n value1 right i1 (d + 1) = some (false, v1, d1)) := by
  constructor
  · intro out h
    cases hr : refDecode seg1 with
    | none => simp [hr] at h
    | some o =>
      simp only [hr, Option.map_some', Option.some.injEq] at h
      subst h
      rw [IH.1 o hr, hv1, hv2 _ (by omega)]
      have e : d + 1 + o.length = d + (x :: o).length := by
        simp only [List.length_cons]; omega
      rw [e]
      simp
  · intro h
    cases hr : refDecode seg1 with
    | none => exact IH.2 hr
    | some o => simp [hr] at h

theorem url_decode_loop_spec (fuel : Nat) : ∀ (value : Buffer) (right i d : Nat),
    d ≤ i → i ≤ right → right ≤ value.length → right - i ≤ fuel →
    (∀ out, refDecode ((value.drop i).take (right - i)) = some out →
      url_decode_loop fuel value right i d
        = some (true, value.take d ++ out ++ value.drop (d + out.length), d + out.length)) ∧
    (refDecode ((value.drop i).take (right - i)) = none →
      ∃ v1 d1, url_decode_loop fuel value right i d = some (false, v1, d1)) := by
  induction fuel with
  | zero =>
    intro value right i d hdi hir hrl hf
    have hi : i = right := by omega
    subst hi
    simp [url_decode_loop, refDecode]
  | succ n ih =>
    intro value right i d hdi hir hrl hf
    by_cases hi : i = right
    · subst hi
      simp [url_decode_loop, refDecode]
    · have hlt : i < right := by omega
      have hdl : d < value.length := by omega
      rw [seg_cons value right i hlt hrl]
      simp only [url_decode_loop, hi, ne_eq, not_false_eq_true, if_true]
      by_cases hp : value.getD i 0 = 37
      · simp only [hp, if_true]
        by_cases h3 : i + 3 ≤ right
        · simp only [h3, if_true]
          rw [seg_cons value right (i + 1) (by omega) hrl,
            seg_cons value right (i + 2) (by omega) hrl]
          simp only [refDecode, if_true, hex2int]
          cases hx : hexDigit (value.getD (i + 1) 0) with
          | none => simp
          | some h =>
            cases hy : hexDigit (value.getD (i + 2) 0) with
            | none => simp
            | some l =>
              have hh := hexDigit_lt _ _ hx
              have hl := hexDigit_lt _ _ hy
              have hmod : (h * 16 + l) % 256 = h * 16 + l := Nat.mod_eq_of_lt (by omega)
              simp only [hmod]
              have IH := ih (value.set d (h * 16 + l)) right (i + 3) (d + 1)
                (by omega) h3 (by simpa using hrl) (by omega)
              rw [List.drop_set_of_lt _ _ (by omega : d < i + 3)] at IH
              exact url_decode_loop_step n value _ right (i + 3) d (h * 16 + l) _
                (take_set_succ value d _ hdl)
                (fun k hk => List.drop_set_of_lt _ _ hk) IH
        · simp only [h3, if_false]
          rw [refDecode_short 37 _ rfl (by simp; omega)]
          simp
      · simp only [hp, if_false]
        by_cases hq : value.getD i 0 = 43
        · simp only [hq, if_true]
          have IH := ih (value.set d 32) right (i + 1) (d + 1)
            (by omega) (by omega) (by simpa using hrl) (by omega)
          rw [List.drop_set_of_lt _ _ (by omega : d < i + 1)] at IH
          have e : refDecode (43 :: List.take (right - (i + 1)) (List.drop (i + 1) value))
              = (refDecode (List.take (right - (i + 1)) (List.drop (i + 1) value))).map
                  (fun t => 32 :: t) := by
            rw [refDecode_cons_other _ _ (by decide)]; simp
          rw [e]
          exact url_decode_loop_step n value _ right (i + 1) d 32 _
            (take_set_succ value d _ hdl)
            (fun k hk => List.drop_set_of_lt _ _ hk) IH
        · simp only [hq, if_false]
          have e : refDecode (value.getD i 0 :: List.take (right - (i + 1)) (List.drop (i + 1) value))
              = (refDecode (List.take (right - (i + 1)) (List.drop (i + 1) value))).map
                  (fun t => value.getD i 0 :: t) := by
            rw [refDecode_cons_other _ _ hp]; simp only [hq, if_false]
          rw [e]
          by_cases hd : d = i
          · subst hd
            simp only [ne_eq, not_true_eq_false, if_false]
            have IH := ih value right (d + 1) (d + 1) (by omega) (by omega) hrl (by omega)
            exact url_decode_loop_step n value _ right (d + 1) d _ _
              (take_succ_getD value d hdl) (fun k _ => rfl) IH
          · simp only [ne_eq, hd, not_false_eq_true, if_true]
            have IH := ih (value.set d (value.getD i 0)) right (i + 1) (d + 1)
              (by omega) (by omega) (by simpa using hrl) (by omega)
            rw [List.drop_set_of_lt _ _ (by omega : d < i + 1)] at IH
            exact url_decode_loop_step n value _ right (i + 1) d _ _
              (take_set_succ value d _ hdl)
              (fun k hk => List.drop_set_of_lt _ _ hk) IH

theorem refDecode_isSome : ∀ (n : Nat) (l : List Nat), l.length ≤ n →
    (refDecode l).isSome = percentsWellFormed l := by
  intro n
  induction n with
  | zero =>
    intro l hl
    have : l = [] := List.length_eq_zero.mp (by omega)
    subst this
    simp [refDecode, percentsWellFormed]
  | succ n ih =>
    intro l hl
    rcases l with _ | ⟨c, rest⟩
    · simp [refDecode, percentsWellFormed]
    · by_cases hc : c = 37
      · subst hc
        rcases rest with _ | ⟨x, _ | ⟨y, r⟩⟩
        · simp [refDecode, percentsWellFormed]
        · simp [refDecode, percentsWellFormed]
        · have := ih r (by simp at hl; omega)
          cases hx : hexDigit x <;> cases hy : hexDigit y <;>
            simp [refDecode, percentsWellFormed, hx, hy, ← this]
      · have h1 := ih rest (by simp at hl; omega)
        rw [refDecode_cons_other c rest hc]
        have h2 : percentsWellFormed (c :: rest) = percentsWellFormed rest := by
          rcases rest with _ | ⟨x, _ | ⟨y, r⟩⟩ <;> simp [percentsWellFormed, hc]
        rw [h2, ← h1]
        simp

/-- Claim C1: for every buffer and every URL range inside it, url_decode returns (it does not
run out of fuel) and its return value is true exactly when every percent sign reached by the
left-to-right scan is followed by two hexadecimal digits inside the range; when it is true,
the URL reference afterwards starts at the same offset and its bytes are the reference
decoding of the original range. Both url_decode of lib/http/HttpConnection.cpp and of
src/x0/connection.cpp run this loop. -/
theorem url_decode_spec (value : Buffer) (url : BufferRef)
    (h : url.offset + url.size ≤ value.length) :
    ∃ value1 url1,
      url_decode value url = some (percentsWellFormed (url.bytes value), value1, url1) ∧
      (percentsWellFormed (url.bytes value) = true →
        url1.offset = url.offset ∧ refDecode (url.bytes value) = some (url1.bytes value1)) := by
  have key := url_decode_loop_spec url.size value (url.offset + url.size) url.offset url.offset
    (le_refl _) (by omega) h (by omega)
  have e : url.offset + url.size - url.offset = url.size := by omega
  rw [e] at key
  have hs := refDecode_isSome _ (url.bytes value) (le_refl _)
  unfold BufferRef.bytes at hs ⊢
  cases hr : refDecode (List.take url.size (List.drop url.offset value)) with
  | none =>
    obtain ⟨v1, d1, hv⟩ := key.2 hr
    rw [hr] at hs
    refine ⟨v1, url, ?_, ?_⟩
    · simp [url_decode, hv, ← hs]
    · intro hw; rw [← hs] at hw; simp at hw
  | some out =>
    have hv := key.1 out hr
    rw [hr] at hs
    refine ⟨List.take url.offset value ++ out ++ List.drop (url.offset + out.length) value,
      ⟨url.offset, out.length⟩, ?_, ?_⟩
    · simp [url_decode, hv, ← hs]
    · intro _
      refine ⟨rfl, ?_⟩
      have hl : (List.take url.offset value).length = url.offset := by
        simp; omega
      simp only [List.append_assoc]
      rw [List.drop_left' hl, List.take_left' rfl]


theorem url_decode_spec_witness :
    ∃ value1 url1,
      url_decode [97, 37, 52, 49, 43, 98, 9] ⟨0, 6⟩
        = some (percentsWellFormed ((⟨0, 6⟩ : BufferRef).bytes [97, 37, 52, 49, 43, 98, 9]),
            value1, url1) ∧
      (percentsWellFormed ((⟨0, 6⟩ : BufferRef).bytes [97, 37, 52, 49, 43, 98, 9]) = true →
        url1.offset = (⟨0, 6⟩ : BufferRef).offset ∧
        refDecode ((⟨0, 6⟩ : BufferRef).bytes [97, 37, 52, 49, 43, 98, 9])
          = some (url1.bytes value1)) :=
  url_decode_spec [97, 37, 52, 49, 43, 98, 9] ⟨0, 6⟩ (by decide)

theorem readRecords_cons (fuel : Nat) (type requestId clen plen : Nat) (payload pad rest : List Nat)
    (recs : List FastCgi.WireRecord)
    (ht : type < 256) (hid : requestId < 65536) (hc : clen < 65536) (hp : plen < 256)
    (hpl : payload.length = clen) (hpad : pad.length = plen)
    (hrest : FastCgi.readRecords fuel rest = some recs) :
    FastCgi.readRecords (fuel + 1)
        (FastCgi.Record.data type requestId clen plen ++ payload ++ pad ++ rest)
      = some ({ version := 1, type := type, requestId := requestId, content := payload,
                paddingLength := plen } :: recs) := by
  have e1 : clen / 256 % 256 * 256 + clen % 256 = clen := by omega
  have e2 : requestId / 256 % 256 * 256 + requestId % 256 = requestId := by omega
  have e3 : type % 256 = type := Nat.mod_eq_of_lt ht
  have e4 : plen % 256 = plen := Nat.mod_eq_of_lt hp
  have e5 : FastCgi.Record.data type requestId clen plen ++ payload ++ pad ++ rest
      = 1 :: type :: (requestId / 256 % 256) :: (requestId % 256) :: (clen / 256 % 256)
          :: (clen % 256) :: plen :: 0 :: (payload ++ pad ++ rest) := by
    simp [FastCgi.Record.data, e3, e4]
  have hlen : ¬ (payload ++ pad ++ rest).length < clen + plen := by
    simp only [List.length_append]; omega
  have hd : (payload ++ pad ++ rest).drop (clen + plen) = rest :=
    List.drop_left' (by simp [hpl, hpad])
  have htk : (payload ++ pad ++ rest).take clen = payload := by
    rw [List.append_assoc]; exact List.take_left' hpl
  rw [e5]
  simp only [FastCgi.readRecords, e1, e2, hlen, if_false, hd, htk, hrest, Option.map_some']

theorem padding_take (n : Nat) (h : n ≤ 8) : padding.take n = List.replicate n 0 := by
  unfold padding
  interval_cases n <;> rfl

theorem write_loop_spec (fuel : Nat) : ∀ (type requestId : Nat) (buf : List Nat)
    (offset : Nat) (writeBuffer : Buffer),
    type < 256 → requestId < 65536 → offset ≤ buf.length → buf.length - offset ≤ fuel →
    ∃ recs : List FastCgi.WireRecord,
      CgiTransport.write_loop fuel type requestId buf buf.length offset writeBuffer
        = some (writeBuffer ++ (recs.map FastCgi.WireRecord.bytes).flatten) ∧
      (∀ K, ((recs.map FastCgi.WireRecord.bytes).flatten).length ≤ K →
        FastCgi.readRecords K (recs.map FastCgi.WireRecord.bytes).flatten = some recs) ∧
      recs.length = (buf.length - offset + 65534) / 65535 ∧
      (∀ r ∈ recs, r.version = 1 ∧ r.type = type ∧ r.requestId = requestId ∧
        r.content.length ≤ 65535) ∧
      (recs.map (fun r => r.content)).flatten = buf.drop offset := by
  induction fuel with
  | zero =>
    intro type requestId buf offset wb _ _ ho hf
    have : ¬ offset < buf.length := by omega
    refine ⟨[], ?_, ?_, ?_, ?_, ?_⟩
    · simp [CgiTransport.write_loop, this]
    · intro K _; cases K <;> simp [FastCgi.readRecords]
    · simp; omega
    · simp
    · simp; omega
  | succ n ih =>
    intro type requestId buf offset wb ht hid ho hf
    by_cases hlt : offset < buf.length
    · obtain ⟨clen, hclen⟩ : ∃ c, c = min (offset + chunkSizeCap) buf.length - offset := ⟨_, rfl⟩
      obtain ⟨plen, hplen⟩ : ∃ p, p = if clen % padding.length ≠ 0
          then padding.length - clen % padding.length else 0 := ⟨_, rfl⟩
      have hc1 : 1 ≤ clen := by simp only [chunkSizeCap] at hclen; omega
      have hc2 : clen ≤ 65535 := by simp only [chunkSizeCap] at hclen; omega
      have hc3 : offset + clen ≤ buf.length := by simp only [chunkSizeCap] at hclen; omega
      have hc4 : clen = 65535 ∨ offset + clen = buf.length := by
        simp only [chunkSizeCap] at hclen; omega
      have hp8 : plen ≤ 8 := by
        simp only [padding, List.length_cons, List.length_nil] at hplen
        split_ifs at hplen <;> omega
      obtain ⟨recs, h1, h2, h3, h4, h5⟩ :=
        ih type requestId buf (offset + clen)
          (wb ++ FastCgi.Record.data type requestId clen plen ++ (buf.drop offset).take clen
            ++ padding.take plen) ht hid hc3 (by omega)
      have hpl : ((buf.drop offset).take clen).length = clen := by
        simp; omega
      let r0 : FastCgi.WireRecord :=
        { version := 1, type := type, requestId := requestId,
          content := (buf.drop offset).take clen, paddingLength := plen }
      have hb : r0.bytes = FastCgi.Record.data type requestId clen plen
          ++ (buf.drop offset).take clen ++ padding.take plen := by
        simp only [FastCgi.WireRecord.bytes, r0, hpl, padding_take plen hp8]
      refine ⟨r0 :: recs, ?_, ?_, ?_, ?_, ?_⟩
      · simp only [CgiTransport.write_loop, hlt, if_true, ← hclen, ← hplen]
        rw [h1]
        simp only [List.map_cons, List.flatten_cons, hb, List.append_assoc]
      · intro K hK
        simp only [List.map_cons, List.flatten_cons, hb] at hK ⊢
        have hd8 : (FastCgi.Record.data type requestId clen plen).length = 8 := rfl
        have hpd : (padding.take plen).length = plen := by
          rw [padding_take plen hp8]; simp
        simp only [List.length_append, hd8, hpl, hpd] at hK
        obtain ⟨K1, rfl⟩ : ∃ K1, K = K1 + 1 := ⟨K - 1, by omega⟩
        exact readRecords_cons K1 type requestId clen plen _ _ _ recs ht hid (by omega)
          (by omega) hpl hpd (h2 K1 (by omega))
      · simp only [List.length_cons, h3]; omega
      · intro r hr
        rcases List.mem_cons.mp hr with rfl | hr
        · exact ⟨rfl, rfl, rfl, by simp only [r0, hpl]; exact hc2⟩
        · exact h4 r hr
      · simp only [List.map_cons, List.flatten_cons, h5, r0]
        rw [← List.drop_drop, List.take_append_drop]
    · refine ⟨[], ?_, ?_, ?_, ?_, ?_⟩
      · simp [CgiTransport.write_loop, hlt]
      · intro K _; cases K <;> simp [FastCgi.readRecords]
      · simp; omega
      · simp
      · simp; omega

/-- Claim C2: for every record type (a byte), request id (16 bits) and payload buf of length
len > 0, CgiTransport::write appends to the write buffer the wire forms of exactly
ceil(len / 65535) records, each with that type and id and at most 65535 payload bytes; reading
the appended bytes back record by record yields exactly these records with nothing left over,
and their payloads concatenated are buf. -/
theorem CgiTransport_write_roundtrip (type requestId : Nat) (buf : List Nat)
    (writeBuffer : Buffer) (ht : type < 256) (hid : requestId < 65536) (hlen : 0 < buf.length) :
    ∃ recs : List FastCgi.WireRecord,
      CgiTransport.write type requestId buf buf.length writeBuffer
        = some (writeBuffer ++ (recs.map FastCgi.WireRecord.bytes).flatten) ∧
      FastCgi.parseRecords (recs.map FastCgi.WireRecord.bytes).flatten = some recs ∧
      recs.length = (buf.length + 65534) / 65535 ∧
      (∀ r ∈ recs, r.version = 1 ∧ r.type = type ∧ r.requestId = requestId ∧
        r.content.length ≤ 65535) ∧
      (recs.map (fun r => r.content)).flatten = buf := by
  obtain ⟨recs, h1, h2, h3, h4, h5⟩ :=
    write_loop_spec buf.length type requestId buf 0 writeBuffer ht hid (Nat.zero_le _)
      (by omega)
  refine ⟨recs, ?_, h2 _ (le_refl _), by simpa using h3, h4, by simpa using h5⟩
  have hne : buf.length ≠ 0 := by omega
  simp only [CgiTransport.write, hne, if_false, h1]

theorem CgiTransport_write_roundtrip_witness :
    ∃ recs : List FastCgi.WireRecord,
      CgiTransport.write 5 1 [7, 8, 9] 3 [4] = some ([4] ++ (recs.map FastCgi.WireRecord.bytes).flatten) ∧
      FastCgi.parseRecords (recs.map FastCgi.WireRecord.bytes).flatten = some recs ∧
      recs.length = (3 + 65534) / 65535 ∧
      (∀ r ∈ recs, r.version = 1 ∧ r.type = 5 ∧ r.requestId = 1 ∧ r.content.length ≤ 65535) ∧
      (recs.map (fun r => r.content)).flatten = [7, 8, 9] :=
  CgiTransport_write_roundtrip 5 1 [7, 8, 9] [4] (by decide) (by decide) (by decide)


namespace RequestParser

theorem feed_append (hexValue : Nat → Nat → Option Int) (l1 l2 : List Nat) :
    ∀ (state_ : State) (r : Request),
    feed hexValue state_ r (l1 ++ l2)
      = ((feed hexValue state_ r l1).1
          ++ (feed hexValue (feed hexValue state_ r l1).2.1 (feed hexValue state_ r l1).2.2 l2).1,
         (feed hexValue (feed hexValue state_ r l1).2.1 (feed hexValue state_ r l1).2.2 l2).2) := by
  induction l1 with
  | nil => intro state_ r; simp [feed]
  | cons c cs ih =>
    intro state_ r
    show feed hexValue state_ r (c :: (cs ++ l2)) = _
    simp only [feed, ih, List.cons_append]

theorem runs_append {hexValue : Nat → Nat → Option Int} {s s1 s2 : State} {r r1 r2 : Request}
    {l1 l2 : List Nat} (h1 : Runs hexValue s r l1 s1 r1) (h2 : Runs hexValue s1 r1 l2 s2 r2) :
    Runs hexValue s r (l1 ++ l2) s2 r2 := by
  unfold Runs at *
  rw [feed_append, h1]
  simp only [h2, List.length_append, List.replicate_add]

theorem runs_nil (hexValue : Nat → Nat → Option Int) (s : State) (r : Request) :
    Runs hexValue s r [] s r := by
  simp [Runs, feed]

theorem runs_cons {hexValue : Nat → Nat → Option Int} {s s2 : State} {r r2 : Request}
    {c : Nat} {cs : List Nat} (s1 : State) (r1 : Request) (h1 : consume hexValue s r c = ⟨.indeterminate, s1, r1⟩)
    (h2 : Runs hexValue s1 r1 cs s2 r2) :
    Runs hexValue s r (c :: cs) s2 r2 := by
  unfold Runs at *
  simp only [feed, h1, h2, List.length_cons, List.replicate_succ]

theorem token_facts (c : Nat) (h : isTokenChar c = true) :
    (!is_char (charToInt c) || is_ctl (charToInt c) || is_tspecial (charToInt c)) = false ∧
    c ≠ 32 ∧ c ≠ 13 ∧ c ≠ 9 ∧ c ≠ 58 := by
  refine ⟨?_, ?_, ?_, ?_, ?_⟩
  · simp only [isTokenChar, Bool.and_eq_true, Bool.not_eq_true'] at h
    simp [h.1.1, h.1.2, h.2]
  all_goals (rintro rfl; revert h; decide)

theorem runs_method (hexValue : Nat → Nat → Option Int) (M : List Nat) :
    ∀ r : Request, (∀ c ∈ M, isTokenChar c = true) →
    Runs hexValue .method r M .method { r with method := r.method ++ M } := by
  induction M with
  | nil => intro r _; simpa using runs_nil hexValue .method r
  | cons c cs ih =>
    intro r h
    obtain ⟨h1, h2, -⟩ := token_facts c (h c (List.mem_cons_self _ _))
    have := ih { r with method := r.method ++ [c] } (fun x hx => h x (List.mem_cons_of_mem _ hx))
    refine runs_cons .method { r with method := r.method ++ [c] } ?_ ?_
    · simp [consume, h1, h2]
    · simpa [List.append_assoc] using this

/-- Segment A: the method and the space after it. -/
theorem runs_method_line (hexValue : Nat → Nat → Option Int) (M : List Nat) (r : Request)
    (hne : M ≠ []) (h : ∀ c ∈ M, isTokenChar c = true) (hr : r.method = []) :
    Runs hexValue .method_start r (M ++ [32]) .uri { r with method := M } := by
  obtain ⟨c, cs, rfl⟩ := List.exists_cons_of_ne_nil hne
  obtain ⟨h1, -⟩ := token_facts c (h c (List.mem_cons_self _ _))
  have h2 := runs_method hexValue cs { r with method := r.method ++ [c] }
    (fun x hx => h x (List.mem_cons_of_mem _ hx))
  refine runs_cons .method { r with method := r.method ++ [c] } ?_ ?_
  · simp [consume, h1]
  · refine runs_append h2 (runs_cons .uri _ ?_ (runs_nil _ _ _))
    simp [consume, hr]

theorem runs_uri_chars (hexValue : Nat → Nat → Option Int) (U : List Nat) :
    ∀ r : Request, (∀ c ∈ U, isCtlChar c = false ∧ c ≠ 32) →
    Runs hexValue .uri r U .uri { r with uri := r.uri ++ U } := by
  induction U with
  | nil => intro r _; simpa using runs_nil hexValue .uri r
  | cons c cs ih =>
    intro r h
    obtain ⟨h1, h2⟩ := h c (List.mem_cons_self _ _)
    simp only [isCtlChar] at h1
    have := ih { r with uri := r.uri ++ [c] } (fun x hx => h x (List.mem_cons_of_mem _ hx))
    refine runs_cons .uri { r with uri := r.uri ++ [c] } ?_ ?_
    · simp [consume, h1, h2]
    · simpa [List.append_assoc] using this

theorem url_decode_from_cons_other (hexValue : Nat → Nat → Option Int) (c : Nat)
    (rest : List Nat) (h1 : c ≠ 37) (h2 : c ≠ 43) :
    url_decode_from hexValue (c :: rest)
      = (url_decode_from hexValue rest).map (fun t => c :: t) := by
  rcases rest with _ | ⟨x, _ | ⟨y, t⟩⟩ <;> simp only [url_decode_from, h1, h2, if_false]

theorem url_decode_from_plain (hexValue : Nat → Nat → Option Int) (U : List Nat) :
    (∀ c ∈ U, c ≠ 37 ∧ c ≠ 43) → url_decode_from hexValue U = some U := by
  induction U with
  | nil => intro _; simp [url_decode_from]
  | cons c cs ih =>
    intro h
    obtain ⟨h1, h2⟩ := h c (List.mem_cons_self _ _)
    have h3 := ih (fun x hx => h x (List.mem_cons_of_mem _ hx))
    rw [url_decode_from_cons_other hexValue c cs h1 h2, h3]
    rfl

theorem pathOf_head (U : List Nat) (h : U.head? = some 47) :
    (pathOf U).isEmpty = false ∧ (pathOf U).head? = some 47 := by
  rcases U with _ | ⟨c, t⟩
  · simp at h
  · simp only [List.head?_cons, Option.some.injEq] at h
    subst h
    unfold pathOf
    simp only [find, startsWith]
    cases hf : find [63] t <;> simp

/-- Segment B: the request URI and the space after it. -/
theorem runs_uri_line (hexValue : Nat → Nat → Option Int) (U : List Nat) (r : Request)
    (hU0 : U.head? = some 47)
    (hU : ∀ c ∈ U, isCtlChar c = false ∧ c ≠ 32 ∧ c ≠ 37 ∧ c ≠ 43)
    (hdots : find [46, 46] (pathOf U) = none)
    (hr : r.uri = []) (hq : r.query = []) :
    Runs hexValue .uri r (U ++ [32]) .http_version_h
      { r with uri := U, path := pathOf U, query := queryOf U } := by
  have h1 := runs_uri_chars hexValue U r (fun c hc => ⟨(hU c hc).1, (hU c hc).2.1⟩)
  have h2 := url_decode_from_plain hexValue U (fun c hc => ⟨(hU c hc).2.2.1, (hU c hc).2.2.2⟩)
  obtain ⟨h3, h4⟩ := pathOf_head U hU0
  refine runs_append h1 (runs_cons .http_version_h _ ?_ (runs_nil _ _ _))
  simp only [consume, hr, List.nil_append, if_true, url_decode, h2]
  unfold pathOf queryOf at *
  cases hf : find [63] U with
  | none =>
    simp only [hf] at h3 h4 hdots ⊢
    simp [h3, h4, hdots, hq]
  | some n =>
    simp only [hf] at h3 h4 hdots ⊢
    simp [h3, h4, hdots]

/-- Segment C: the literal HTTP/ before the version numbers. -/
theorem runs_http_slash (hexValue : Nat → Nat → Option Int) (r : Request) :
    Runs hexValue .http_version_h r [72, 84, 84, 80, 47] .http_version_major_start
      { r with http_version_major := 0, http_version_minor := 0 } := by
  refine runs_cons .http_version_t_1 r (by simp [consume]) ?_
  refine runs_cons .http_version_t_2 r (by simp [consume]) ?_
  refine runs_cons .http_version_p r (by simp [consume]) ?_
  refine runs_cons .http_version_slash r (by simp [consume]) ?_
  exact runs_cons .http_version_major_start _ (by simp [consume]) (runs_nil _ _ _)

theorem wrapInt_digit (m v ch : Int) (h : m = wrapInt v) :
    wrapInt (wrapInt (wrapInt (m * 10) + ch) - 48) = wrapInt (v * 10 + (ch - 48)) := by
  subst h
  unfold wrapInt
  omega

theorem wrapInt_of_fits (v : Int) (h0 : 0 ≤ v) (h1 : v < 2147483648) : wrapInt v = v := by
  unfold wrapInt
  omega

theorem digit_facts (c : Nat) (h : isDigitChar c = true) :
    is_digit (charToInt c) = true ∧ 0 ≤ charToInt c - 48 ∧ c ≠ 46 ∧ c ≠ 13 := by
  refine ⟨h, ?_, ?_, ?_⟩
  · simp only [isDigitChar, is_digit, Bool.and_eq_true, decide_eq_true_eq] at h
    omega
  all_goals (rintro rfl; revert h; decide)

theorem decimal_foldl_nonneg (ds : List Nat) :
    ∀ v : Int, 0 ≤ v → (∀ c ∈ ds, isDigitChar c = true) →
    0 ≤ ds.foldl (fun acc d => acc * 10 + (charToInt d - 48)) v := by
  induction ds with
  | nil => intro v hv _; simpa using hv
  | cons c cs ih =>
    intro v hv h
    obtain ⟨-, h2, -⟩ := digit_facts c (h c (List.mem_cons_self _ _))
    simp only [List.foldl_cons]
    exact ih _ (by omega) (fun x hx => h x (List.mem_cons_of_mem _ hx))

theorem runs_major_digits (hexValue : Nat → Nat → Option Int) (ds : List Nat) :
    ∀ (r : Request) (v : Int), r.http_version_major = wrapInt v →
    (∀ c ∈ ds, isDigitChar c = true) →
    Runs hexValue .http_version_major r ds .http_version_major
      { r with http_version_major :=
          wrapInt (ds.foldl (fun acc d => acc * 10 + (charToInt d - 48)) v) } := by
  induction ds with
  | nil => intro r v hv _; simpa [← hv] using runs_nil hexValue .http_version_major r
  | cons c cs ih =>
    intro r v hv h
    obtain ⟨h1, -, h3, -⟩ := digit_facts c (h c (List.mem_cons_self _ _))
    have := ih { r with http_version_major := wrapInt (v * 10 + (charToInt c - 48)) }
      (v * 10 + (charToInt c - 48)) rfl (fun x hx => h x (List.mem_cons_of_mem _ hx))
    refine runs_cons .http_version_major
      { r with http_version_major := wrapInt (v * 10 + (charToInt c - 48)) } ?_ ?_
    · simp [consume, h1, h3, wrapInt_digit _ v _ hv]
    · simpa using this

theorem runs_minor_digits (hexValue : Nat → Nat → Option Int) (ds : List Nat) :
    ∀ (r : Request) (v : Int), r.http_version_minor = wrapInt v →
    (∀ c ∈ ds, isDigitChar c = true) →
    Runs hexValue .http_version_minor_start r ds .http_version_minor_start
      { r with http_version_minor :=
          wrapInt (ds.foldl (fun acc d => acc * 10 + (charToInt d - 48)) v) } := by
  induction ds with
  | nil => intro r v hv _; simpa [← hv] using runs_nil hexValue .http_version_minor_start r
  | cons c cs ih =>
    intro r v hv h
    obtain ⟨h1, -, -, h4⟩ := digit_facts c (h c (List.mem_cons_self _ _))
    have := ih { r with http_version_minor := wrapInt (v * 10 + (charToInt c - 48)) }
      (v * 10 + (charToInt c - 48)) rfl (fun x hx => h x (List.mem_cons_of_mem _ hx))
    refine runs_cons .http_version_minor_start
      { r with http_version_minor := wrapInt (v * 10 + (charToInt c - 48)) } ?_ ?_
    · simp [consume, h1, h4, wrapInt_digit _ v _ hv]
    · simpa using this

/-- Segment D: the major version number and the dot. -/
theorem runs_major_line (hexValue : Nat → Nat → Option Int) (a : List Nat) (r : Request)
    (hne : a ≠ []) (ha : ∀ c ∈ a, isDigitChar c = true) (hfit : decimalValue a < 2147483648)
    (hr : r.http_version_major = 0) :
    Runs hexValue .http_version_major_start r (a ++ [46]) .http_version_minor_start
      { r with http_version_major := decimalValue a } := by
  obtain ⟨c, cs, rfl⟩ := List.exists_cons_of_ne_nil hne
  obtain ⟨h1, -⟩ := digit_facts c (ha c (List.mem_cons_self _ _))
  have hv : r.http_version_major = wrapInt 0 := by rw [hr]; rfl
  have h2 := runs_major_digits hexValue cs
    { r with http_version_major := wrapInt (0 * 10 + (charToInt c - 48)) }
    (0 * 10 + (charToInt c - 48)) rfl (fun x hx => ha x (List.mem_cons_of_mem _ hx))
  have h0 := decimal_foldl_nonneg (c :: cs) 0 (le_refl _) ha
  have hw := wrapInt_of_fits (decimalValue (c :: cs)) h0 hfit
  simp only [decimalValue, List.foldl_cons] at hw h2 ⊢
  rw [hw] at h2
  refine runs_cons .http_version_major
    { r with http_version_major := wrapInt (0 * 10 + (charToInt c - 48)) } ?_ ?_
  · simp [consume, h1, wrapInt_digit _ 0 _ hv]
  · refine runs_append h2 (runs_cons .http_version_minor_start _ ?_ (runs_nil _ _ _))
    simp [consume]

/-- Segment E: the minor version number and the line end. -/
theorem runs_minor_line (hexValue : Nat → Nat → Option Int) (b : List Nat) (r : Request)
    (hb : ∀ c ∈ b, isDigitChar c = true) (hfit : decimalValue b < 2147483648)
    (hr : r.http_version_minor = 0) :
    Runs hexValue .http_version_minor_start r (b ++ [13, 10]) .header_line_start
      { r with http_version_minor := decimalValue b } := by
  have hv : r.http_version_minor = wrapInt 0 := by rw [hr]; rfl
  have h0 := decimal_foldl_nonneg b 0 (le_refl _) hb
  have hw := wrapInt_of_fits (decimalValue b) h0 hfit
  have h2 : Runs hexValue .http_version_minor_start r b .http_version_minor_start
      { r with http_version_minor := decimalValue b } := by
    have := runs_minor_digits hexValue b r 0 hv hb
    rw [show List.foldl (fun acc d => acc * 10 + (charToInt d - 48)) 0 b = decimalValue b
      from rfl, hw] at this
    exact this
  refine runs_append h2 (runs_cons .expecting_newline_1
    { r with http_version_minor := decimalValue b } ?_
    (runs_cons .header_line_start _ ?_ (runs_nil _ _ _))) <;> simp [consume]

theorem updateBack_append (f : Header → Header) (l : List Header) (h : Header) :
    updateBack f (l ++ [h]) = l ++ [f h] := by
  induction l with
  | nil => rfl
  | cons a t ih =>
    rcases t with _ | ⟨b, t1⟩
    · rfl
    · simp only [List.cons_append] at ih ⊢
      simp only [updateBack, ih]

theorem runs_header_name (hexValue : Nat → Nat → Option Int) (ns : List Nat) :
    ∀ (r : Request) (l : List Header) (h0 : Header), r.headers = l ++ [h0] →
    (∀ c ∈ ns, isTokenChar c = true) →
    Runs hexValue .header_name r ns .header_name
      { r with headers := l ++ [{ h0 with name := h0.name ++ ns }] } := by
  induction ns with
  | nil => intro r l h0 hr _; simpa [← hr] using runs_nil hexValue .header_name r
  | cons c cs ih =>
    intro r l h0 hr h
    obtain ⟨h1, -, -, -, h5⟩ := token_facts c (h c (List.mem_cons_self _ _))
    have := ih { r with headers := l ++ [{ h0 with name := h0.name ++ [c] }] } l
      { h0 with name := h0.name ++ [c] } rfl (fun x hx => h x (List.mem_cons_of_mem _ hx))
    refine runs_cons .header_name
      { r with headers := l ++ [{ h0 with name := h0.name ++ [c] }] } ?_ ?_
    · simp [consume, h1, h5, hr, updateBack_append]
    · simpa [List.append_assoc] using this

theorem ctl_facts (c : Nat) (h : isCtlChar c = false) :
    is_ctl (charToInt c) = false ∧ c ≠ 13 := by
  refine ⟨h, ?_⟩
  rintro rfl; revert h; decide

theorem runs_header_value (hexValue : Nat → Nat → Option Int) (vs : List Nat) :
    ∀ (r : Request) (l : List Header) (h0 : Header), r.headers = l ++ [h0] →
    (∀ c ∈ vs, isCtlChar c = false) →
    Runs hexValue .header_value r vs .header_value
      { r with headers := l ++ [{ h0 with value := h0.value ++ vs }] } := by
  induction vs with
  | nil => intro r l h0 hr _; simpa [← hr] using runs_nil hexValue .header_value r
  | cons c cs ih =>
    intro r l h0 hr h
    obtain ⟨h1, h2⟩ := ctl_facts c (h c (List.mem_cons_self _ _))
    have := ih { r with headers := l ++ [{ h0 with value := h0.value ++ [c] }] } l
      { h0 with value := h0.value ++ [c] } rfl (fun x hx => h x (List.mem_cons_of_mem _ hx))
    refine runs_cons .header_value
      { r with headers := l ++ [{ h0 with value := h0.value ++ [c] }] } ?_ ?_
    · simp [consume, h1, h2, hr, updateBack_append]
    · simpa [List.append_assoc] using this

/-- One header line read from header_line_start adds one header. -/
theorem runs_header_line (hexValue : Nat → Nat → Option Int) (h : Header) (r : Request)
    (hne : h.name ≠ []) (hn : ∀ c ∈ h.name, isTokenChar c = true)
    (hv : ∀ c ∈ h.value, isCtlChar c = false) :
    Runs hexValue .header_line_start r (headerLine h) .header_line_start
      { r with headers := r.headers ++ [h] } := by
  obtain ⟨name, value⟩ := h
  simp only at hne hn hv
  obtain ⟨c, cs, rfl⟩ := List.exists_cons_of_ne_nil hne
  obtain ⟨h1, h2, h3, h4, -⟩ := token_facts c (hn c (List.mem_cons_self _ _))
  have hname := runs_header_name hexValue cs
    { r with headers := r.headers ++ [{ name := [c], value := [] }] } r.headers
    { name := [c], value := [] } rfl (fun x hx => hn x (List.mem_cons_of_mem _ hx))
  have hvalue := runs_header_value hexValue value
    { r with headers := r.headers ++ [{ name := c :: cs, value := [] }] } r.headers
    { name := c :: cs, value := [] } rfl hv
  simp only [List.singleton_append, List.nil_append] at hname hvalue
  have e : headerLine { name := c :: cs, value := value }
      = c :: (cs ++ (58 :: 32 :: (value ++ [13, 10]))) := by
    simp [headerLine]
  rw [e]
  refine runs_cons .header_name
    { r with headers := r.headers ++ [{ name := [c], value := [] }] } ?_ ?_
  · simp [consume, h1, h2, h3, h4]
  · refine runs_append hname ?_
    refine runs_cons .space_before_header_value
      { r with headers := r.headers ++ [{ name := c :: cs, value := [] }] }
      (by simp [consume]) ?_
    refine runs_cons .header_value
      { r with headers := r.headers ++ [{ name := c :: cs, value := [] }] }
      (by simp [consume]) ?_
    refine runs_append hvalue ?_
    refine runs_cons .expecting_newline_2
      { r with headers := r.headers ++ [{ name := c :: cs, value := value }] }
      (by simp [consume]) ?_
    exact runs_cons .header_line_start _ (by simp [consume]) (runs_nil _ _ _)

/-- Segment F: all header lines. -/
theorem runs_header_lines (hexValue : Nat → Nat → Option Int) (hs : List Header) :
    ∀ r : Request,
    (∀ h ∈ hs, h.name ≠ [] ∧ (∀ c ∈ h.name, isTokenChar c = true) ∧
      ∀ c ∈ h.value, isCtlChar c = false) →
    Runs hexValue .header_line_start r (hs.map headerLine).flatten .header_line_start
      { r with headers := r.headers ++ hs } := by
  induction hs with
  | nil => intro r _; simpa using runs_nil hexValue .header_line_start r
  | cons h t ih =>
    intro r hh
    obtain ⟨h1, h2, h3⟩ := hh h (List.mem_cons_self _ _)
    have ht := ih { r with headers := r.headers ++ [h] }
      (fun x hx => hh x (List.mem_cons_of_mem _ hx))
    have := runs_append (runs_header_line hexValue h r h1 h2 h3) ht
    simpa [List.append_assoc] using this

/-- Claim C3: for every request text M SP U SP HTTP/a.b CRLF (N: SP V CRLF)* CRLF within the
bounds of the claim, feeding the characters one by one to consume on a fresh parser and a fresh
request yields indeterminate for every character but the last and true for the last, and
leaves method = M, uri = U, path and query = U split at its first question mark, the version
numbers = the values of a and b, and headers = the (N, V) pairs in order. This holds whatever
the hexadecimal extraction of url_decode does, as U holds no percent sign. -/
theorem consume_accepts_request_text (hexValue : Nat → Nat → Option Int)
    (M U a b : List Nat) (hs : List Header)
    (hM : M ≠ [] ∧ ∀ c ∈ M, isTokenChar c = true)
    (hN : ∀ h ∈ hs, h.name ≠ [] ∧ ∀ c ∈ h.name, isTokenChar c = true)
    (hU0 : U.head? = some 47)
    (hU : ∀ c ∈ U, isCtlChar c = false ∧ c ≠ 32 ∧ c ≠ 37 ∧ c ≠ 43)
    (hdots : find [46, 46] (pathOf U) = none)
    (ha : a ≠ [] ∧ ∀ c ∈ a, isDigitChar c = true)
    (hb : b ≠ [] ∧ ∀ c ∈ b, isDigitChar c = true)
    (hafit : decimalValue a < 2147483648)
    (hbfit : decimalValue b < 2147483648)
    (hV : ∀ h ∈ hs, ∀ c ∈ h.value, isCtlChar c = false) :
    feed hexValue .method_start Request.fresh (requestText M U a b hs)
      = (List.replicate ((requestText M U a b hs).length - 1) .indeterminate ++ [.accepted],
          .expecting_newline_3,
          { method := M, uri := U, path := pathOf U, query := queryOf U,
            http_version_major := decimalValue a, http_version_minor := decimalValue b,
            headers := hs }) := by
  have hA : Runs hexValue .method_start Request.fresh (M ++ [32]) .uri
      ⟨M, [], [], [], 0, 0, []⟩ :=
    runs_method_line hexValue M Request.fresh hM.1 hM.2 rfl
  have hB : Runs hexValue .uri ⟨M, [], [], [], 0, 0, []⟩ (U ++ [32]) .http_version_h
      ⟨M, U, pathOf U, queryOf U, 0, 0, []⟩ :=
    runs_uri_line hexValue U ⟨M, [], [], [], 0, 0, []⟩ hU0 hU hdots rfl rfl
  have hC : Runs hexValue .http_version_h ⟨M, U, pathOf U, queryOf U, 0, 0, []⟩
      [72, 84, 84, 80, 47] .http_version_major_start ⟨M, U, pathOf U, queryOf U, 0, 0, []⟩ :=
    runs_http_slash hexValue ⟨M, U, pathOf U, queryOf U, 0, 0, []⟩
  have hD : Runs hexValue .http_version_major_start ⟨M, U, pathOf U, queryOf U, 0, 0, []⟩
      (a ++ [46]) .http_version_minor_start
      ⟨M, U, pathOf U, queryOf U, decimalValue a, 0, []⟩ :=
    runs_major_line hexValue a ⟨M, U, pathOf U, queryOf U, 0, 0, []⟩ ha.1 ha.2 hafit rfl
  have hE : Runs hexValue .http_version_minor_start
      ⟨M, U, pathOf U, queryOf U, decimalValue a, 0, []⟩
      (b ++ [13, 10]) .header_line_start
      ⟨M, U, pathOf U, queryOf U, decimalValue a, decimalValue b, []⟩ :=
    runs_minor_line hexValue b ⟨M, U, pathOf U, queryOf U, decimalValue a, 0, []⟩
      hb.2 hbfit rfl
  have hF : Runs hexValue .header_line_start
      ⟨M, U, pathOf U, queryOf U, decimalValue a, decimalValue b, []⟩
      (hs.map headerLine).flatten .header_line_start
      ⟨M, U, pathOf U, queryOf U, decimalValue a, decimalValue b, hs⟩ := by
    have := runs_header_lines hexValue hs
      ⟨M, U, pathOf U, queryOf U, decimalValue a, decimalValue b, []⟩
      (fun h hh => ⟨(hN h hh).1, (hN h hh).2, hV h hh⟩)
    simpa using this
  have hAll := runs_append (runs_append (runs_append (runs_append (runs_append hA hB) hC) hD)
    hE) hF
  unfold Runs at hAll
  have e : requestText M U a b hs
      = (M ++ [32] ++ (U ++ [32]) ++ [72, 84, 84, 80, 47] ++ (a ++ [46]) ++ (b ++ [13, 10])
          ++ (hs.map headerLine).flatten) ++ [13, 10] := by
    simp [requestText]
  rw [e]
  generalize M ++ [32] ++ (U ++ [32]) ++ [72, 84, 84, 80, 47] ++ (a ++ [46]) ++ (b ++ [13, 10])
    ++ (hs.map headerLine).flatten = L at hAll ⊢
  have hlen : (L ++ [13, 10]).length - 1 = L.length + 1 := by simp
  rw [feed_append, hAll, hlen, List.replicate_succ']
  simp [feed, consume]

theorem consume_accepts_request_text_witness :
    feed (fun _ _ => none) .method_start Request.fresh
        [71, 69, 84, 32, 47, 32, 72, 84, 84, 80, 47, 49, 46, 48, 13, 10, 13, 10]
      = (List.replicate 17 .indeterminate ++ [.accepted], .expecting_newline_3,
          { method := [71, 69, 84], uri := [47], path := [47], query := [],
            http_version_major := 1, http_version_minor := 0, headers := [] }) :=
  consume_accepts_request_text (fun _ _ => none) [71, 69, 84] [47] [49] [48] []
    (by decide) (by decide) (by decide) (by decide) (by decide) (by decide) (by decide)
    (by decide) (by decide) (by decide)

end RequestParser

namespace HttpConnection

theorem stable_close (c : HttpConnection) : (close c).stable = c.stable := by
  simp only [close]
  split_ifs <;> simp [stable, release]

theorem stable_abort (c : HttpConnection) : (abort c).stable = c.stable := by
  simp only [abort]
  split_ifs <;> first | rfl | (rw [stable_close]; rfl)

theorem stable_unref (c : HttpConnection) : (unref c).stable = c.stable := by
  simp only [unref]
  split_ifs <;> rfl

theorem stable_watchInput (t : Nat) (c : HttpConnection) :
    (watchInput t c).stable = c.stable := by
  simp only [watchInput]
  split_ifs <;> rfl

theorem stable_watchOutput (c : HttpConnection) : (watchOutput c).stable = c.stable := by
  simp only [watchOutput]
  split_ifs <;> rfl

theorem stable_checkFinish (c : HttpConnection) (h : c.request_.outputState_ ≠ .Finished) :
    checkFinish c = c := by
  simp [checkFinish, h]

theorem stable_processOutputLoop (l : List SendResult) :
    ∀ c : HttpConnection, c.request_.outputState_ ≠ .Finished →
      (processOutputLoop l c).stable = c.stable := by
  induction l with
  | nil => intro c _; simp only [processOutputLoop]; exact stable_watchOutput c
  | cons res rest ih =>
    intro c h
    simp only [processOutputLoop]
    split_ifs with h1 h2 h3
    · exact (ih _ (by exact h)).trans rfl
    · rw [stable_checkFinish _ (by simpa [watchInput] using h)]
      simp only [release, stable, watchInput]
      split_ifs <;> rfl
    · rw [stable_checkFinish _ (by simpa [watchInput] using h), stable_watchInput]; rfl
    · split
      · exact (ih _ (by exact h)).trans rfl
      · rw [stable_watchOutput]; rfl
      · rw [stable_abort]; rfl

theorem stable_processOutput (c : HttpConnection) (h : c.request_.outputState_ ≠ .Finished) :
    (processOutput c).stable = c.stable := by
  simp only [processOutput]
  rw [stable_unref]
  exact (stable_processOutputLoop _ _ (by exact h)).trans rfl

theorem stable_write (chunk : Source) (c : HttpConnection)
    (h : c.request_.outputState_ ≠ .Finished) :
    (write chunk c).stable = { c.stable with handed := c.handed ++ [chunk] } := by
  simp only [write]
  split_ifs
  · exact (stable_processOutput _ (by exact h)).trans rfl
  · rfl

end HttpConnection

namespace HttpRequest

theorem writePopulating_eq (chunk : Source) (c : HttpConnection) :
    writePopulating chunk c
      = HttpConnection.write (wrapped c.request_.outputFilters chunk) c := by
  unfold writePopulating wrapped
  split_ifs <;> rfl

theorem stable_write_populating (chunk : Source) (c : HttpConnection)
    (ha : c.isAborted = false) (hs : c.request_.outputState_ = .Populating) :
    (write chunk c).stable
      = { c.stable with handed := c.handed ++ [wrapped c.request_.outputFilters chunk] } := by
  have hne : c.request_.outputState_ ≠ .Finished := by rw [hs]; decide
  have e : write chunk c = writePopulating chunk c := by
    unfold write
    rw [if_neg (by simp [ha])]
    simp only [hs]
  rw [e, writePopulating_eq]
  exact HttpConnection.stable_write _ _ hne

theorem stable_write_unhandled (chunk : Source) (c : HttpConnection)
    (ha : c.isAborted = false) (hs : c.request_.outputState_ = .Unhandled) :
    (write chunk c).stable
      = { c.stable with
          outputState := .Populating,
          handed := c.handed
            ++ [serialize c.request_, wrapped c.request_.outputFilters chunk] } := by
  obtain ⟨c1, hc1⟩ : ∃ c1 : HttpConnection,
      c1 = { c with request_ := { c.request_ with outputState_ := .Populating } } := ⟨_, rfl⟩
  have e : write chunk c
      = writePopulating chunk (HttpConnection.write (serialize c1.request_) c1) := by
    unfold write
    rw [if_neg (by simp [ha])]
    simp only [hs, hc1]
  have h1 := HttpConnection.stable_write (serialize c1.request_) c1 (by rw [hc1]; simp)
  have hc1s : c1.stable = { c.stable with outputState := .Populating } := by rw [hc1]; rfl
  have hser : serialize c1.request_ = serialize c.request_ := by rw [hc1]; rfl
  have hhand : c1.handed = c.handed := by rw [hc1]
  rw [hser] at e h1
  rw [hc1s, hhand] at h1
  generalize HttpConnection.write (serialize c.request_) c1 = c2 at e h1
  have hf := congrArg Stable.outputFilters h1
  have ho := congrArg Stable.outputState h1
  have hh := congrArg Stable.handed h1
  simp only [HttpConnection.stable] at hf ho hh
  rw [e, writePopulating_eq, HttpConnection.stable_write _ _ (by rw [ho]; decide), h1, hf, hh]
  simp [HttpConnection.stable]

theorem writeAll_populating (cs : List Source) :
    ∀ c : HttpConnection, c.request_.outputState_ = .Populating → NotAbortedAt cs c →
      (writeAll cs c).stable
        = { c.stable with handed := c.handed ++ cs.map (wrapped c.request_.outputFilters) } := by
  induction cs with
  | nil => intro c _ _; simp [writeAll, HttpConnection.stable]
  | cons chunk rest ih =>
    intro c hs hna
    obtain ⟨ha, hrest⟩ := hna
    have h1 := stable_write_populating chunk c ha hs
    have ho := congrArg Stable.outputState h1
    have hf := congrArg Stable.outputFilters h1
    have hh := congrArg Stable.handed h1
    simp only [HttpConnection.stable] at ho hf hh
    simp only [writeAll]
    rw [ih _ (ho.trans hs) hrest, h1, hf, hh]
    simp

/-- Claim C4: for every sequence of n >= 1 calls HttpRequest::write(c1), ..., write(cn) on a
request that starts in output state Unhandled, the connection being not aborted when each
call is made, the sources handed to HttpConnection::write are, in order, the serialized
status-line-and-headers block once and first, then c1, ..., cn in call order, each wrapped in
a FilterSource when the filter chain is not empty; the output state is Populating
afterwards. -/
theorem write_sequence_hands_headers_then_chunks (chunk : Source) (rest : List Source)
    (c : HttpConnection) (hs : c.request_.outputState_ = .Unhandled)
    (hna : NotAbortedAt (chunk :: rest) c) :
    (writeAll (chunk :: rest) c).handed
        = c.handed ++ serialize c.request_
            :: (chunk :: rest).map (wrapped c.request_.outputFilters) ∧
      (writeAll (chunk :: rest) c).request_.outputState_ = .Populating := by
  obtain ⟨ha, hrest⟩ := hna
  have h1 := stable_write_unhandled chunk c ha hs
  have ho := congrArg Stable.outputState h1
  have hf := congrArg Stable.outputFilters h1
  have hh := congrArg Stable.handed h1
  simp only [HttpConnection.stable] at ho hf hh
  have h2 := writeAll_populating rest _ ho hrest
  simp only [writeAll]
  constructor
  · have := congrArg Stable.handed h2
    simp only [HttpConnection.stable] at this
    rw [this, hh, hf]
    simp
  · have := congrArg Stable.outputState h2
    simp only [HttpConnection.stable] at this
    rw [this, ho]

theorem write_sequence_hands_headers_then_chunks_witness :
    (writeAll [.buffer [104, 105], .file 3 0 10]
        (HttpConnection.reading [] ⟨60, 10, 60, 8192, 100⟩
          [⟨10, .EAGAIN, 1⟩, ⟨0, .EAGAIN, 0⟩])).handed
      = [.headerBlock 0 [], .buffer [104, 105], .file 3 0 10] ∧
    (writeAll [.buffer [104, 105], .file 3 0 10]
        (HttpConnection.reading [] ⟨60, 10, 60, 8192, 100⟩
          [⟨10, .EAGAIN, 1⟩, ⟨0, .EAGAIN, 0⟩])).request_.outputState_ = .Populating :=
  write_sequence_hands_headers_then_chunks (.buffer [104, 105]) [.file 3 0 10]
    (HttpConnection.reading [] ⟨60, 10, 60, 8192, 100⟩ [⟨10, .EAGAIN, 1⟩, ⟨0, .EAGAIN, 0⟩])
    (by decide) ⟨by decide, by decide, trivial⟩

end HttpRequest

namespace HttpRequest

theorem core_write (chunk : Source) (c : HttpConnection)
    (h : c.request_.outputState_ ≠ .Finished) :
    (write chunk c).stable.core = c.stable.core ∧
      (write chunk c).request_.outputState_ ≠ .Finished := by
  by_cases ha : c.isAborted = true
  · have e : write chunk c = c := by unfold write; rw [if_pos ha]
    rw [e]; exact ⟨rfl, h⟩
  · have ha1 : c.isAborted = false := by simpa using ha
    cases hs : c.request_.outputState_ with
    | Unhandled =>
      have h1 := stable_write_unhandled chunk c ha1 hs
      refine ⟨by rw [h1]; rfl, ?_⟩
      have := congrArg Stable.outputState h1
      simp only [HttpConnection.stable] at this
      rw [this]; decide
    | Populating =>
      have h1 := stable_write_populating chunk c ha1 hs
      refine ⟨by rw [h1]; rfl, ?_⟩
      have := congrArg Stable.outputState h1
      simp only [HttpConnection.stable] at this
      rw [this, hs]; decide
    | Finished => exact absurd hs h

theorem core_finish (c : HttpConnection) (h : c.request_.outputState_ ≠ .Finished) :
    (finish c).stable.core = c.stable.core ∧ (finish c).request_.outputState_ = .Finished := by
  obtain ⟨c1, hc1⟩ : ∃ c1 : HttpConnection, c1 =
      (match c.request_.outputState_ with
        | .Unhandled => write (.defaultContent c.request_.status) c
        | _ => c) := ⟨_, rfl⟩
  have h1 : c1.stable.core = c.stable.core ∧ c1.request_.outputState_ ≠ .Finished := by
    rw [hc1]
    cases hs : c.request_.outputState_ with
    | Unhandled => exact core_write _ c (by rw [hs]; decide)
    | Populating => exact ⟨rfl, by rw [hs]; decide⟩
    | Finished => exact absurd hs h
  obtain ⟨c2, hc2⟩ : ∃ c2 : HttpConnection, c2 =
      (if c1.request_.outputFilters.isEmpty then c1
        else HttpConnection.write (.filter (.buffer []) c1.request_.outputFilters true) c1) :=
    ⟨_, rfl⟩
  have h2 : c2.stable.core = c.stable.core := by
    rw [hc2]
    split_ifs
    · exact h1.1
    · rw [HttpConnection.stable_write _ _ h1.2, ← h1.1]; rfl
  have e : finish c = { c2 with request_ := { c2.request_ with outputState_ := .Finished } } := by
    rw [hc2, hc1]; rfl
  rw [e]
  exact ⟨h2, rfl⟩

end HttpRequest

namespace HttpConnection

/-- Claim C6, the code at the failing input: with maxRequestHeaderCount = 2, three calls of
onMessageHeader all return true, three headers are stored and the status stays Undefined. -/
theorem onMessageHeader_stores_one_too_many :
    (onMessageHeaders [(⟨0, 1⟩, ⟨3, 1⟩), (⟨6, 1⟩, ⟨9, 1⟩), (⟨12, 1⟩, ⟨15, 1⟩)]
        (reading (ascii "A: 1\r\nB: 2\r\nC: 3\r\n") ⟨60, 10, 60, 8192, 2⟩ [])).1
      = [true, true, true] ∧
    (onMessageHeaders [(⟨0, 1⟩, ⟨3, 1⟩), (⟨6, 1⟩, ⟨9, 1⟩), (⟨12, 1⟩, ⟨15, 1⟩)]
        (reading (ascii "A: 1\r\nB: 2\r\nC: 3\r\n") ⟨60, 10, 60, 8192, 2⟩ [])).2.request_.requestHeaders.length
      = 3 ∧
    (onMessageHeaders [(⟨0, 1⟩, ⟨3, 1⟩), (⟨6, 1⟩, ⟨9, 1⟩), (⟨12, 1⟩, ⟨15, 1⟩)]
        (reading (ascii "A: 1\r\nB: 2\r\nC: 3\r\n") ⟨60, 10, 60, 8192, 2⟩ [])).2.request_.status
      = HttpError.Undefined := by
  decide

/-- What finish leaves behind when onMessageHeaderEnd answers with an error status. -/
theorem finish_with_status (c : HttpConnection) (code : Nat)
    (hfin : c.request_.isFinished = false) :
    (HttpRequest.finish
        { c with request_ := { c.request_ with status := code } }).request_.status = code ∧
    (HttpRequest.finish
        { c with request_ := { c.request_ with status := code } }).request_.isFinished = true ∧
    (HttpRequest.finish
        { c with request_ := { c.request_ with status := code } }).handled = c.handled ∧
    (HttpRequest.finish
        { c with request_ := { c.request_ with status := code } }).flags_.IsHandlingRequest
      = c.flags_.IsHandlingRequest ∧
    (HttpRequest.finish
        { c with request_ := { c.request_ with status := code } }).status_ = c.status_ ∧
    (HttpRequest.finish
        { c with request_ := { c.request_ with status := code } }).requestCount_
      = c.requestCount_ ∧
    (HttpRequest.finish
        { c with request_ := { c.request_ with status := code } }).workerRequestCount
      = c.workerRequestCount := by
  have hne : ({ c with request_ := { c.request_ with status := code } } :
      HttpConnection).request_.outputState_ ≠ .Finished := by
    simpa [HttpRequest.isFinished] using hfin
  obtain ⟨h1, h2⟩ := HttpRequest.core_finish _ hne
  generalize HttpRequest.finish { c with request_ := { c.request_ with status := code } } = d
    at h1 h2
  have e1 := congrArg Stable.requestStatus h1
  have e2 := congrArg Stable.handled h1
  have e3 := congrArg Stable.isHandlingRequest h1
  have e4 := congrArg Stable.status h1
  have e5 := congrArg Stable.requestCount h1
  have e6 := congrArg Stable.workerRequestCount h1
  simp only [Stable.core, stable] at e1 e2 e3 e4 e5 e6
  exact ⟨e1, by simp [HttpRequest.isFinished, h2], e2, e3, e4, e5, e6⟩

/-- Claim C7: for every unfinished request whose method is POST or PUT and for which
contentLength() = -1, onMessageHeaderEnd sets status 411 and finishes the request without
dispatching it: worker.handleRequest is not called, the HandlingRequest flag, the connection
status and both request counters are as before. -/
theorem onMessageHeaderEnd_length_required (c : HttpConnection)
    (hfin : c.request_.isFinished = false)
    (hm : c.request_.method.bytes c.input_ = ascii "POST"
      ∨ c.request_.method.bytes c.input_ = ascii "PUT")
    (hcl : c.contentLength = -1) :
    (onMessageHeaderEnd c).1 = true ∧
    (onMessageHeaderEnd c).2.request_.status = HttpError.LengthRequired ∧
    (onMessageHeaderEnd c).2.request_.isFinished = true ∧
    (onMessageHeaderEnd c).2.handled = c.handled ∧
    (onMessageHeaderEnd c).2.flags_.IsHandlingRequest = c.flags_.IsHandlingRequest ∧
    (onMessageHeaderEnd c).2.status_ = c.status_ ∧
    (onMessageHeaderEnd c).2.requestCount_ = c.requestCount_ ∧
    (onMessageHeaderEnd c).2.workerRequestCount = c.workerRequestCount := by
  have hreq : (equals (c.request_.method.bytes c.input_) (ascii "POST")
      || equals (c.request_.method.bytes c.input_) (ascii "PUT")) = true := by
    rcases hm with h | h <;> simp [equals, h]
  have e : onMessageHeaderEnd c
      = (true, HttpRequest.finish
          { c with request_ := { c.request_ with status := HttpError.LengthRequired } }) := by
    unfold onMessageHeaderEnd
    rw [if_neg (by simp [hfin]), if_pos (by simp [content_required, hreq, hcl])]
  rw [e]
  exact ⟨rfl, finish_with_status c HttpError.LengthRequired hfin⟩

theorem onMessageHeaderEnd_length_required_witness :
    (onMessageHeaderEnd chunkedPost).1 = true ∧
    (onMessageHeaderEnd chunkedPost).2.request_.status = HttpError.LengthRequired ∧
    (onMessageHeaderEnd chunkedPost).2.request_.isFinished = true ∧
    (onMessageHeaderEnd chunkedPost).2.handled = chunkedPost.handled ∧
    (onMessageHeaderEnd chunkedPost).2.flags_.IsHandlingRequest
      = chunkedPost.flags_.IsHandlingRequest ∧
    (onMessageHeaderEnd chunkedPost).2.status_ = chunkedPost.status_ ∧
    (onMessageHeaderEnd chunkedPost).2.requestCount_ = chunkedPost.requestCount_ ∧
    (onMessageHeaderEnd chunkedPost).2.workerRequestCount = chunkedPost.workerRequestCount :=
  onMessageHeaderEnd_length_required chunkedPost (by decide) (Or.inl (by decide)) (by decide)

theorem supportsProtocol_1_1 (r : HttpRequest) :
    r.supportsProtocol 1 1
      = decide ((r.httpVersionMajor = 1 ∧ 1 ≤ r.httpVersionMinor) ∨ 1 < r.httpVersionMajor) := by
  unfold HttpRequest.supportsProtocol
  by_cases h1 : (1 : Int) = r.httpVersionMajor ∧ (1 : Int) ≤ r.httpVersionMinor
  · rw [if_pos h1]
    exact (decide_eq_true (Or.inl ⟨h1.1.symm, h1.2⟩)).symm
  · rw [if_neg h1]
    by_cases h2 : (1 : Int) < r.httpVersionMajor
    · rw [if_pos h2]
      exact (decide_eq_true (Or.inr h2)).symm
    · rw [if_neg h2]
      refine (decide_eq_false ?_).symm
      rintro (⟨h3, h4⟩ | h3)
      · exact h1 ⟨h3.symm, h4⟩
      · exact h2 h3

/-- Claim C8 as stated fails: a request of HTTP version 2.0 that carries Expect: 100-continue
is dispatched and not answered with 417. -/
theorem expect_on_version_2_is_dispatched :
    (onMessageHeaderEnd expectOnVersion2).2.handled.length = 1 ∧
    (onMessageHeaderEnd expectOnVersion2).2.flags_.IsHandlingRequest = true ∧
    (onMessageHeaderEnd expectOnVersion2).2.request_.status ≠ HttpError.ExpectationFailed ∧
    (onMessageHeaderEnd expectOnVersion2).2.request_.isFinished = false ∧
    (expectOnVersion2.request_.httpVersionMajor, expectOnVersion2.request_.httpVersionMinor)
      ≠ (1, 1) := by
  decide

/-- Claim C8, amended: for every unfinished request that passes the Content-Length checks and
carries a non-empty Expect header, onMessageHeaderEnd dispatches it exactly when the Expect
value is exactly 100-continue and the HTTP version is at least 1.1 (major 1 with minor >= 1,
or major > 1); otherwise it sets status 417, finishes the request and does not dispatch
it. -/
theorem onMessageHeaderEnd_expect (c : HttpConnection)
    (hfin : c.request_.isFinished = false)
    (hlen : (c.content_required && decide (c.contentLength = -1)) = false)
    (hbody : (!c.content_required && c.contentAvailable) = false)
    (hexp : c.expectHeader.toBool = true) :
    (c.expectHeader.bytes c.input_ = ascii "100-continue" ∧
        ((c.request_.httpVersionMajor = 1 ∧ 1 ≤ c.request_.httpVersionMinor)
          ∨ 1 < c.request_.httpVersionMajor) →
      (onMessageHeaderEnd c).2.handled
          = c.handled ++ [{ c.request_ with expectingContinue := true }] ∧
        (onMessageHeaderEnd c).2.flags_.IsHandlingRequest = true ∧
        (onMessageHeaderEnd c).2.status_ = .SendingReply ∧
        (onMessageHeaderEnd c).2.request_.status = c.request_.status ∧
        (onMessageHeaderEnd c).2.request_.isFinished = false) ∧
    (¬ (c.expectHeader.bytes c.input_ = ascii "100-continue" ∧
        ((c.request_.httpVersionMajor = 1 ∧ 1 ≤ c.request_.httpVersionMinor)
          ∨ 1 < c.request_.httpVersionMajor)) →
      (onMessageHeaderEnd c).2.request_.status = HttpError.ExpectationFailed ∧
        (onMessageHeaderEnd c).2.request_.isFinished = true ∧
        (onMessageHeaderEnd c).2.handled = c.handled ∧
        (onMessageHeaderEnd c).2.flags_.IsHandlingRequest = c.flags_.IsHandlingRequest) := by
  have heq : c.expectsContinue
      = decide (c.expectHeader.bytes c.input_ = ascii "100-continue") := by
    unfold expectsContinue equals
    by_cases h : c.expectHeader.bytes c.input_ = ascii "100-continue"
    · rw [decide_eq_true h, h]; exact beq_self_eq_true _
    · rw [decide_eq_false h]; exact beq_eq_false_iff_ne.mpr h
  obtain ⟨c1, hc1⟩ : ∃ c1 : HttpConnection, c1 =
      { c with request_ := { c.request_ with expectingContinue := c.expectsContinue } } :=
    ⟨_, rfl⟩
  have hsp : c1.request_.supportsProtocol 1 1
      = decide ((c.request_.httpVersionMajor = 1 ∧ 1 ≤ c.request_.httpVersionMinor)
          ∨ 1 < c.request_.httpVersionMajor) := by
    rw [supportsProtocol_1_1, hc1]
  have hec : c1.request_.expectingContinue = c.expectsContinue := by rw [hc1]
  have e0 : onMessageHeaderEnd c
      = if !c1.request_.expectingContinue || !c1.request_.supportsProtocol 1 1 then
          (true, HttpRequest.finish
            { c1 with request_ := { c1.request_ with status := HttpError.ExpectationFailed } })
        else dispatch c1 := by
    unfold onMessageHeaderEnd
    rw [if_neg (by simp [hfin]), if_neg (by simp [hlen]), if_neg (by simp [hbody]),
      if_pos hexp, hc1]
  constructor
  · rintro ⟨h1, h2⟩
    have hcond : ¬ ((!c1.request_.expectingContinue || !c1.request_.supportsProtocol 1 1)
        = true) := by
      rw [hsp, hec, heq, decide_eq_true h1, decide_eq_true h2]; decide
    rw [e0, if_neg hcond, hc1]
    have hex : c.expectsContinue = true := by rw [heq]; exact decide_eq_true h1
    refine ⟨?_, rfl, rfl, rfl, ?_⟩
    · simp [dispatch, handleRequest, hex]
    · simpa [dispatch, handleRequest, HttpRequest.isFinished] using hfin
  · intro hn
    have hcond : (!c1.request_.expectingContinue || !c1.request_.supportsProtocol 1 1)
        = true := by
      rw [hsp, hec, heq]
      by_cases h1 : c.expectHeader.bytes c.input_ = ascii "100-continue"
      · have h2 : ¬ ((c.request_.httpVersionMajor = 1 ∧ 1 ≤ c.request_.httpVersionMinor)
            ∨ 1 < c.request_.httpVersionMajor) := fun h => hn ⟨h1, h⟩
        rw [decide_eq_false h2]; simp
      · rw [decide_eq_false h1]; simp
    rw [e0, if_pos hcond]
    obtain ⟨f1, f2, f3, f4, -⟩ := finish_with_status c1 HttpError.ExpectationFailed
      (by rw [hc1]; simpa [HttpRequest.isFinished] using hfin)
    have g1 : c1.handled = c.handled := by rw [hc1]
    have g2 : c1.flags_ = c.flags_ := by rw [hc1]
    exact ⟨f1, f2, f3.trans g1, f4.trans (by rw [g2])⟩

theorem onMessageHeaderEnd_expect_witness :
    (onMessageHeaderEnd expectOnVersion10).2.request_.status = HttpError.ExpectationFailed ∧
    (onMessageHeaderEnd expectOnVersion10).2.request_.isFinished = true ∧
    (onMessageHeaderEnd expectOnVersion10).2.handled = expectOnVersion10.handled ∧
    (onMessageHeaderEnd expectOnVersion10).2.flags_.IsHandlingRequest
      = expectOnVersion10.flags_.IsHandlingRequest :=
  (onMessageHeaderEnd_expect expectOnVersion10 (by decide) (by decide) (by decide)
    (by decide)).2 (by decide)

/-- Claim C9 as stated fails: the POST request with Transfer-Encoding: chunked and no
Content-Length is answered with 411 and is not dispatched. -/
theorem chunked_post_is_not_dispatched :
    (HttpRequest.requestHeader chunkedPost.input_ (ascii "Transfer-Encoding")
        chunkedPost.request_.requestHeaders).bytes chunkedPost.input_ = ascii "chunked" ∧
    (HttpRequest.requestHeader chunkedPost.input_ (ascii "Content-Length")
        chunkedPost.request_.requestHeaders).toBool = false ∧
    (onMessageHeaderEnd chunkedPost).2.request_.status = HttpError.LengthRequired ∧
    (onMessageHeaderEnd chunkedPost).2.handled = [] ∧
    (onMessageHeaderEnd chunkedPost).2.flags_.IsHandlingRequest = false ∧
    (onMessageHeaderEnd chunkedPost).2.status_ ≠ .SendingReply := by
  decide

/-- Claim C9, amended: an unfinished POST request that carries Transfer-Encoding: chunked and
for which no Content-Length was received is not dispatched by onMessageHeaderEnd: status 411
is set, the request is finished, handleRequest is not called, and the HandlingRequest flag
and the connection status are as before. -/
theorem onMessageHeaderEnd_chunked_post (c : HttpConnection)
    (hfin : c.request_.isFinished = false)
    (hm : c.request_.method.bytes c.input_ = ascii "POST")
    (hte : iequals ((HttpRequest.requestHeader c.input_ (ascii "Transfer-Encoding")
        c.request_.requestHeaders).bytes c.input_) (ascii "chunked") = true)
    (hcl : c.contentLength = -1) :
    (onMessageHeaderEnd c).2.request_.status = HttpError.LengthRequired ∧
    (onMessageHeaderEnd c).2.request_.isFinished = true ∧
    (onMessageHeaderEnd c).2.handled = c.handled ∧
    (onMessageHeaderEnd c).2.flags_.IsHandlingRequest = c.flags_.IsHandlingRequest ∧
    (onMessageHeaderEnd c).2.status_ = c.status_ := by
  have _ := hte
  have hreq : c.content_required = true := by simp [content_required, equals, hm]
  have e : onMessageHeaderEnd c
      = (true, HttpRequest.finish
          { c with request_ := { c.request_ with status := HttpError.LengthRequired } }) := by
    unfold onMessageHeaderEnd
    rw [if_neg (by simp [hfin]), if_pos (by simp [hreq, hcl])]
  rw [e]
  obtain ⟨f1, f2, f3, f4, f5, -⟩ := finish_with_status c HttpError.LengthRequired hfin
  exact ⟨f1, f2, f3, f4, f5⟩

theorem onMessageHeaderEnd_chunked_post_witness :
    (onMessageHeaderEnd chunkedPost).2.request_.status = HttpError.LengthRequired ∧
    (onMessageHeaderEnd chunkedPost).2.request_.isFinished = true ∧
    (onMessageHeaderEnd chunkedPost).2.handled = chunkedPost.handled ∧
    (onMessageHeaderEnd chunkedPost).2.flags_.IsHandlingRequest
      = chunkedPost.flags_.IsHandlingRequest ∧
    (onMessageHeaderEnd chunkedPost).2.status_ = chunkedPost.status_ :=
  onMessageHeaderEnd_chunked_post chunkedPost (by decide) (by decide) (by decide) (by decide)

/-- Claim C10 as stated fails: for HTTP/2.0 and for HTTP/1.2 the keep-alive flag is set by
onMessageBegin. -/
theorem keepAlive_set_for_later_versions :
    (onMessageBegin ⟨0, 3⟩ ⟨4, 1⟩ 2 0
        (reading (ascii "GET / HTTP/2.0\r\n\r\n") ⟨60, 10, 60, 8192, 100⟩ [])).2.flags_.IsKeepAliveEnabled
      = true ∧
    (onMessageBegin ⟨0, 3⟩ ⟨4, 1⟩ 1 2
        (reading (ascii "GET / HTTP/1.2\r\n\r\n") ⟨60, 10, 60, 8192, 100⟩ [])).2.flags_.IsKeepAliveEnabled
      = true := by
  decide

/-- Claim C10, amended: for every method, URI and version (major, minor), after onMessageBegin
the keep-alive flag is set if and only if the version is at least 1.1 (major 1 with
minor >= 1, or major > 1); for every other version it is cleared. -/
theorem onMessageBegin_keepAlive (method uri : BufferRef) (versionMajor versionMinor : Int)
    (c : HttpConnection) :
    (onMessageBegin method uri versionMajor versionMinor c).2.flags_.IsKeepAliveEnabled
      = decide ((versionMajor = 1 ∧ 1 ≤ versionMinor) ∨ 1 < versionMajor) := by
  simp only [onMessageBegin, supportsProtocol_1_1, setShouldKeepAlive]
  by_cases h : (versionMajor = 1 ∧ 1 ≤ versionMinor) ∨ 1 < versionMajor
  · simp [h]
  · simp [h]

end HttpConnection

/-! ## url_decode on plain ranges, and its cursors -/

theorem url_decode_loop_plain (fuel : Nat) : ∀ (value : Buffer) (right i : Nat),
    i ≤ right → right - i ≤ fuel →
    (∀ k, i ≤ k → k < right → value.getD k 0 ≠ 37 ∧ value.getD k 0 ≠ 43) →
    url_decode_loop fuel value right i i = some (true, value, right) := by
  induction fuel with
  | zero =>
    intro value right i h1 h2 _
    have e : i = right := by omega
    subst e
    simp [url_decode_loop]
  | succ n ih =>
    intro value right i h1 h2 hp
    by_cases hi : i = right
    · subst hi
      simp [url_decode_loop]
    · obtain ⟨p1, p2⟩ := hp i (le_refl _) (by omega)
      unfold url_decode_loop
      rw [if_pos hi, if_neg p1, if_neg p2, if_neg (by simp)]
      exact ih value right (i + 1) (by omega) (by omega)
        (fun k hk hk2 => hp k (by omega) hk2)

theorem bytes_getD_mem (value : Buffer) (url : BufferRef) (k : Nat)
    (h : url.offset + url.size ≤ value.length) (h1 : url.offset ≤ k)
    (h2 : k < url.offset + url.size) : value.getD k 0 ∈ url.bytes value := by
  unfold BufferRef.bytes
  rw [List.mem_iff_getElem?]
  refine ⟨k - url.offset, ?_⟩
  rw [List.getElem?_take_of_lt (by omega), List.getElem?_drop]
  have e : url.offset + (k - url.offset) = k := by omega
  rw [e, List.getD_eq_getElem?_getD, List.getElem?_eq_getElem (by omega)]
  rfl

/-- Claim C12: for every buffer and every URL range inside it none of whose bytes is a percent
sign (37) or a plus (43), url_decode returns true and leaves the buffer and the URL reference
(offset and size) as they were; so decoding the result once more gives the same result. -/
theorem url_decode_plain_unchanged (value : Buffer) (url : BufferRef)
    (h : url.offset + url.size ≤ value.length)
    (hp : ∀ c ∈ url.bytes value, c ≠ 37 ∧ c ≠ 43) :
    url_decode value url = some (true, value, url) ∧
      (url_decode value url).bind (fun r => url_decode r.2.1 r.2.2)
        = url_decode value url := by
  have key := url_decode_loop_plain url.size value (url.offset + url.size) url.offset
    (by omega) (by omega)
    (fun k hk hk2 => hp _ (bytes_getD_mem value url k h hk hk2))
  have e : url_decode value url = some (true, value, url) := by
    unfold url_decode
    simp only [key]
    have : url.offset + url.size - url.offset = url.size := by omega
    rw [this]
  rw [e]
  exact ⟨rfl, e⟩

theorem url_decode_plain_unchanged_witness :
    url_decode (ascii "GET /index.html HTTP/1.1") ⟨4, 11⟩
        = some (true, ascii "GET /index.html HTTP/1.1", ⟨4, 11⟩) ∧
      (url_decode (ascii "GET /index.html HTTP/1.1") ⟨4, 11⟩).bind
          (fun r => url_decode r.2.1 r.2.2)
        = url_decode (ascii "GET /index.html HTTP/1.1") ⟨4, 11⟩ :=
  url_decode_plain_unchanged (ascii "GET /index.html HTTP/1.1") ⟨4, 11⟩ (by decide)
    (by decide)

theorem applyWrites_frame (left right : Nat) (steps : List LoopStep) :
    ∀ value : Buffer, (∀ s ∈ steps, s.inRange left right) →
      (applyWrites value steps).length = value.length ∧
      ∀ k, k < left ∨ right ≤ k → (applyWrites value steps).getD k 0 = value.getD k 0 := by
  induction steps with
  | nil => intro value _; exact ⟨rfl, fun _ _ => rfl⟩
  | cons s rest ih =>
    intro value h
    have hs := h s (List.mem_cons_self _ _)
    have hr : ∀ s ∈ rest, s.inRange left right := fun t ht => h t (List.mem_cons_of_mem _ ht)
    unfold applyWrites
    cases hw : s.write with
    | none => exact ih value hr
    | some p =>
      obtain ⟨k0, b⟩ := p
      obtain ⟨h1, h2, h3, h4⟩ := hs
      obtain ⟨e1, e2⟩ := h4 k0 b hw
      obtain ⟨l1, l2⟩ := ih (value.set k0 b) hr
      refine ⟨by rw [l1, List.length_set], fun k hk => ?_⟩
      rw [l2 k hk]
      simp only [List.getD_eq_getElem?_getD]
      rw [List.getElem?_set_ne (by omega)]

theorem url_decode_steps_spec (left right : Nat) :
    ∀ (fuel : Nat) (value : Buffer) (i d : Nat), left ≤ d → d ≤ i → i ≤ right →
      right - i ≤ fuel →
      (∀ s ∈ url_decode_steps fuel value right i d, s.inRange left right) ∧
      ∃ ok d1, url_decode_loop fuel value right i d
          = some (ok, applyWrites value (url_decode_steps fuel value right i d), d1) ∧
        d ≤ d1 ∧ d1 ≤ right ∧
        (ok = true →
          (url_decode_steps fuel value right i d).getLast? = some ⟨right, d1, none⟩) := by
  intro fuel
  induction fuel with
  | zero =>
    intro value i d h1 h2 h3 h4
    have e : i = right := by omega
    subst e
    refine ⟨?_, true, d, ?_, le_refl _, h2, fun _ => ?_⟩
    · intro s hs
      simp only [url_decode_steps, List.mem_singleton] at hs
      subst hs
      exact ⟨h1, h2, le_refl _, fun k b hk => by simp at hk⟩
    · simp [url_decode_loop, url_decode_steps, applyWrites]
    · simp [url_decode_steps]
  | succ fuel ih =>
    intro value i d h1 h2 h3 h4
    have single : ∀ s ∈ [(⟨i, d, none⟩ : LoopStep)], s.inRange left right := by
      intro s hs
      simp only [List.mem_singleton] at hs
      subst hs
      exact ⟨h1, h2, h3, fun k b hk => by simp at hk⟩
    have step : ∀ (w : Option (Nat × Nat)) (v1 : Buffer) (n : Nat), 0 < n → i + n ≤ right →
        (∀ k b, w = some (k, b) → k = d) →
        applyWrites value [⟨i, d, w⟩] = v1 →
        (∀ s ∈ (⟨i, d, w⟩ : LoopStep) :: url_decode_steps fuel v1 right (i + n) (d + 1),
            s.inRange left right) ∧
        ∃ ok d1, url_decode_loop fuel v1 right (i + n) (d + 1)
            = some (ok, applyWrites value
                ((⟨i, d, w⟩ : LoopStep) :: url_decode_steps fuel v1 right (i + n) (d + 1)), d1) ∧
          d ≤ d1 ∧ d1 ≤ right ∧
          (ok = true →
            ((⟨i, d, w⟩ : LoopStep) :: url_decode_steps fuel v1 right (i + n) (d + 1)).getLast?
              = some ⟨right, d1, none⟩) := by
      intro w v1 n hn hin hw hv1
      obtain ⟨a, ok, d1, b1, b2, b3, b4⟩ :=
        ih v1 (i + n) (d + 1) (by omega) (by omega) hin (by omega)
      refine ⟨?_, ok, d1, ?_, by omega, b3, ?_⟩
      · intro s hs
        rcases List.mem_cons.mp hs with hs | hs
        · subst hs
          exact ⟨h1, h2, h3, fun k b hk => ⟨hw k b hk, by show i < right; omega⟩⟩
        · exact a s hs
      · rw [b1]
        have : applyWrites value
            ((⟨i, d, w⟩ : LoopStep) :: url_decode_steps fuel v1 right (i + n) (d + 1))
            = applyWrites v1 (url_decode_steps fuel v1 right (i + n) (d + 1)) := by
          rw [← hv1]
          cases w with
          | none => simp [applyWrites]
          | some p => obtain ⟨k, b⟩ := p; simp [applyWrites]
        rw [this]
      · intro hok
        have hne : url_decode_steps fuel v1 right (i + n) (d + 1) ≠ [] := by
          intro h0
          have := b4 hok
          rw [h0] at this
          simp at this
        obtain ⟨x, xs, hx⟩ := List.exists_cons_of_ne_nil hne
        have := b4 hok
        rw [hx] at this ⊢
        rw [List.getLast?_cons_cons]
        exact this
    by_cases hir : i = right
    · subst hir
      refine ⟨?_, true, d, ?_, le_refl _, h2, fun _ => ?_⟩
      · simpa [url_decode_steps] using single
      · simp [url_decode_loop, url_decode_steps, applyWrites]
      · simp [url_decode_steps]
    · have hlt : i < right := by omega
      unfold url_decode_steps url_decode_loop
      rw [if_pos hir, if_pos hir]
      by_cases h37 : value.getD i 0 = 37
      · rw [if_pos h37, if_pos h37]
        by_cases h3r : i + 3 ≤ right
        · rw [if_pos h3r, if_pos h3r]
          cases hh : hex2int (value.getD (i + 1) 0) (value.getD (i + 2) 0) with
          | none =>
            exact ⟨single, false, d, by simp [applyWrites], le_refl _, by omega, by simp⟩
          | some ival =>
            exact step (some (d, ival % 256)) _ 3 (by omega) h3r
              (fun k b hk => by simp at hk; omega) (by simp [applyWrites])
        · rw [if_neg h3r, if_neg h3r]
          exact ⟨single, false, d, by simp [applyWrites], le_refl _, by omega, by simp⟩
      · rw [if_neg h37, if_neg h37]
        by_cases h43 : value.getD i 0 = 43
        · rw [if_pos h43, if_pos h43]
          exact step (some (d, 32)) _ 1 (by omega) (by omega)
            (fun k b hk => by simp at hk; omega) (by simp [applyWrites])
        · rw [if_neg h43, if_neg h43]
          by_cases hdi : d ≠ i
          · rw [if_pos hdi, if_pos hdi]
            exact step (some (d, value.getD i 0)) _ 1 (by omega) (by omega)
              (fun k b hk => by simp at hk; omega) (by simp [applyWrites])
          · rw [if_neg hdi, if_neg hdi]
            exact step none _ 1 (by omega) (by omega)
              (fun k b hk => by simp at hk) (by simp [applyWrites])

/-- Claim C13: at every test of the loop condition of url_decode the cursors satisfy
left <= d <= i <= right, and every assignment goes to the index d of an iteration that reads
at i < right, so to an index in the range from left to right that the read position has
reached. The call returns, its buffer is the old one with these assignments made: it has the
same length and the same bytes at every index outside the range, and the decoded size is at
most the original size. When it returns true the loop ended at i = right with the write
position that gives the new size. -/
theorem url_decode_cursors_in_range (value : Buffer) (url : BufferRef) :
    (∀ s ∈ url_decode_steps url.size value (url.offset + url.size) url.offset url.offset,
      url.offset ≤ s.d ∧ s.d ≤ s.i ∧ s.i ≤ url.offset + url.size ∧
        ∀ k b, s.write = some (k, b) → k = s.d ∧ s.i < url.offset + url.size) ∧
    ∃ ok value1 url1, url_decode value url = some (ok, value1, url1) ∧
      value1 = applyWrites value
        (url_decode_steps url.size value (url.offset + url.size) url.offset url.offset) ∧
      value1.length = value.length ∧
      (∀ k, k < url.offset ∨ url.offset + url.size ≤ k → value1.getD k 0 = value.getD k 0) ∧
      url1.offset = url.offset ∧ url1.size ≤ url.size ∧
      (ok = true →
        (url_decode_steps url.size value (url.offset + url.size) url.offset
          url.offset).getLast? = some ⟨url.offset + url.size, url.offset + url1.size, none⟩) := by
  obtain ⟨a, ok, d1, b1, b2, b3, b4⟩ :=
    url_decode_steps_spec url.offset (url.offset + url.size) url.size value url.offset
      url.offset (le_refl _) (le_refl _) (by omega) (by omega)
  obtain ⟨l1, l2⟩ := applyWrites_frame url.offset (url.offset + url.size) _ value a
  refine ⟨a, ?_⟩
  cases ok with
  | true =>
    refine ⟨true, _, ⟨url.offset, d1 - url.offset⟩, ?_, rfl, l1, l2, rfl, ?_, ?_⟩
    · unfold url_decode
      simp only [b1]
    · show d1 - url.offset ≤ url.size
      omega
    · intro _
      have e : url.offset + (d1 - url.offset) = d1 := by omega
      rw [e]
      exact b4 rfl
  | false =>
    refine ⟨false, _, url, ?_, rfl, l1, l2, rfl, le_refl _, fun h => by simp at h⟩
    unfold url_decode
    simp only [b1]

/-! ## onMessageBegin and the request URI -/

theorem find_single (c : Nat) : ∀ (l : List Nat),
    (∀ n, find [c] l = some n → l = l.take n ++ c :: l.drop (n + 1) ∧ c ∉ l.take n) ∧
    (find [c] l = none → c ∉ l) := by
  intro l
  induction l with
  | nil => simp [find]
  | cons x xs ih =>
    by_cases hx : c = x
    · subst hx
      simp [find, startsWith]
    · have hs : startsWith [c] (x :: xs) = false := by simp [startsWith, hx]
      simp only [find, hs]
      constructor
      · intro n hn
        cases hf : find [c] xs with
        | none => rw [hf] at hn; simp at hn
        | some m =>
          rw [hf] at hn
          simp at hn
          subst hn
          obtain ⟨e1, e2⟩ := ih.1 m hf
          refine ⟨?_, ?_⟩
          · simp only [List.take_succ_cons, List.drop_succ_cons, List.cons_append]
            rw [← e1]
          · simp only [List.take_succ_cons, List.mem_cons, not_or]
            exact ⟨hx, e2⟩
      · intro hn
        cases hf : find [c] xs with
        | none => simp only [List.mem_cons, not_or]; exact ⟨hx, ih.2 hf⟩
        | some m => rw [hf] at hn; simp at hn

theorem find_single_lt (c : Nat) (l : List Nat) (n : Nat) (h : find [c] l = some n) :
    n < l.length := by
  obtain ⟨e1, _⟩ := (find_single c l).1 n h
  by_contra hlt
  have h1 : l.take n = l := List.take_of_length_le (by omega)
  have h2 : l.drop (n + 1) = [] := List.drop_of_length_le (by omega)
  rw [h1, h2] at e1
  have := congrArg List.length e1
  simp at this

theorem ref_bytes (uri : BufferRef) (input : Buffer) (n : Nat) (h : n ≤ uri.size) :
    (uri.ref 0 n).bytes input = (uri.bytes input).take n := by
  simp only [BufferRef.ref, BufferRef.bytes, Nat.add_zero, List.take_take]
  rw [Nat.min_eq_left h]

theorem refFrom_bytes (uri : BufferRef) (input : Buffer) (n : Nat) :
    (uri.refFrom n).bytes input = (uri.bytes input).drop n := by
  simp only [BufferRef.refFrom, BufferRef.bytes, List.drop_take, List.drop_drop]

namespace HttpConnection

/-- Claim C11, the code at the failing input: for the request line GET /%41% HTTP/1.1 on a
new request url_decode returns false after it has written the byte of %41, onMessageBegin
goes on, and the request's uri is the text /A41%, which is no URL-decoding of /%41% (that text
has none); path is that text and query is empty. -/
theorem onMessageBegin_keeps_half_decoded_uri :
    (url_decode (ascii "GET /%41% HTTP/1.1\r\n\r\n") ⟨4, 5⟩).map (fun r => r.1) = some false ∧
    refDecode (ascii "/%41%") = none ∧
    afterBadEscape.request_.uri.bytes afterBadEscape.input_ = ascii "/A41%" ∧
    afterBadEscape.request_.path.bytes afterBadEscape.input_ = ascii "/A41%" ∧
    afterBadEscape.request_.query.bytes afterBadEscape.input_ = [] := by
  decide

/-- The fields of the request that onMessageBegin sets from the URI. -/
theorem onMessageBegin_fields (method uri : BufferRef) (a b : Int) (c : HttpConnection)
    (value : Buffer) (url : BufferRef)
    (h : (match url_decode c.input_ uri with
          | some (_, v, u) => (v, u)
          | none => (c.input_, uri)) = (value, url)) :
    (onMessageBegin method uri a b c).2.input_ = value ∧
    (onMessageBegin method uri a b c).2.request_.uri = url ∧
    (onMessageBegin method uri a b c).2.request_.path
      = (match find [63] (url.bytes value) with
        | some n => url.ref 0 n
        | none => url) ∧
    (onMessageBegin method uri a b c).2.request_.query
      = (match find [63] (url.bytes value) with
        | some n => url.refFrom (n + 1)
        | none => c.request_.query) := by
  have e63 : ascii "?" = [63] := by decide
  unfold onMessageBegin
  simp only [e63, setShouldKeepAlive]
  cases hd : url_decode c.input_ uri with
  | none =>
    rw [hd] at h
    simp only [Prod.mk.injEq] at h
    obtain ⟨h1, h2⟩ := h
    subst h1 h2
    simp only
    cases hf : find [63] (uri.bytes c.input_) <;> simp only <;> split_ifs <;> simp
  | some r =>
    obtain ⟨ok, v, u⟩ := r
    rw [hd] at h
    simp only [Prod.mk.injEq] at h
    obtain ⟨h1, h2⟩ := h
    subst h1 h2
    simp only
    cases hf : find [63] (u.bytes v) <;> simp only <;> split_ifs <;> simp

/-- After onMessageBegin on a request whose query is still empty, path and query are the
split of the request's uri, as it then stands, at its first question mark. -/
theorem onMessageBegin_splits_uri (method uri : BufferRef) (a b : Int) (c : HttpConnection)
    (hq : c.request_.query = ⟨0, 0⟩) :
    (63 ∈ (onMessageBegin method uri a b c).2.request_.uri.bytes
            (onMessageBegin method uri a b c).2.input_ →
      (onMessageBegin method uri a b c).2.request_.path.bytes
            (onMessageBegin method uri a b c).2.input_
          ++ 63 :: (onMessageBegin method uri a b c).2.request_.query.bytes
            (onMessageBegin method uri a b c).2.input_
        = (onMessageBegin method uri a b c).2.request_.uri.bytes
            (onMessageBegin method uri a b c).2.input_ ∧
      63 ∉ (onMessageBegin method uri a b c).2.request_.path.bytes
            (onMessageBegin method uri a b c).2.input_) ∧
    (63 ∉ (onMessageBegin method uri a b c).2.request_.uri.bytes
            (onMessageBegin method uri a b c).2.input_ →
      (onMessageBegin method uri a b c).2.request_.path.bytes
            (onMessageBegin method uri a b c).2.input_
        = (onMessageBegin method uri a b c).2.request_.uri.bytes
            (onMessageBegin method uri a b c).2.input_ ∧
      (onMessageBegin method uri a b c).2.request_.query.bytes
            (onMessageBegin method uri a b c).2.input_ = []) := by
  obtain ⟨value, url, h⟩ : ∃ value url, (match url_decode c.input_ uri with
          | some (_, v, u) => (v, u)
          | none => (c.input_, uri)) = (value, url) := ⟨_, _, rfl⟩
  obtain ⟨e1, e2, e3, e4⟩ := onMessageBegin_fields method uri a b c value url h
  rw [e1, e2, e3, e4]
  have hb : (url.bytes value).length ≤ url.size := by
    simp [BufferRef.bytes]
  cases hf : find [63] (url.bytes value) with
  | none =>
    have := (find_single 63 _).2 hf
    refine ⟨fun hm => absurd hm this, fun _ => ⟨rfl, ?_⟩⟩
    simp [hq, BufferRef.bytes]
  | some n =>
    obtain ⟨s1, s2⟩ := (find_single 63 _).1 n hf
    have hn := find_single_lt 63 _ n hf
    simp only
    rw [ref_bytes url value n (by omega), refFrom_bytes]
    refine ⟨fun _ => ⟨s1.symm, s2⟩, fun hm => ?_⟩
    exfalso
    apply hm
    rw [s1]
    simp

/-- When every percent sign of the URI is followed by two hexadecimal digits, the request's
uri after onMessageBegin is the URL-decoded URI. -/
theorem onMessageBegin_decodes_well_formed_uri (method uri : BufferRef) (a b : Int)
    (c : HttpConnection) (h : uri.offset + uri.size ≤ c.input_.length)
    (hw : percentsWellFormed (uri.bytes c.input_) = true) :
    refDecode (uri.bytes c.input_)
      = some ((onMessageBegin method uri a b c).2.request_.uri.bytes
          (onMessageBegin method uri a b c).2.input_) := by
  obtain ⟨value1, url1, hd, hr⟩ := url_decode_spec c.input_ uri h
  obtain ⟨e1, e2, _, _⟩ := onMessageBegin_fields method uri a b c value1 url1 (by rw [hd])
  rw [e1, e2]
  exact (hr hw).2

end HttpConnection

/-! ## abort, writes on an aborted connection, onMessageEnd, processResume -/

namespace HttpConnection

theorem isAborted_close (c : HttpConnection) : (close c).isAborted = c.isAborted := by
  simp only [close]
  split_ifs <;> rfl

theorem abortHandlerCalls_close (c : HttpConnection) :
    (close c).abortHandlerCalls = c.abortHandlerCalls := by
  simp only [close]
  split_ifs <;> rfl

theorem isAborted_abort (c : HttpConnection) : (abort c).isAborted = true := by
  by_cases h : c.isAborted = true
  · simp only [abort, if_pos h]; exact h
  · simp only [abort, if_neg h]
    split_ifs <;> first | rfl | (rw [isAborted_close]; rfl)

theorem abort_of_aborted (c : HttpConnection) (h : c.isAborted = true) : abort c = c := by
  simp only [abort, if_pos h]

theorem abortHandlerCalls_abort (c : HttpConnection) :
    (abort c).abortHandlerCalls ≤ c.abortHandlerCalls + 1 := by
  by_cases h : c.isAborted = true
  · rw [abort_of_aborted c h]; omega
  · simp only [abort, if_neg h]
    split_ifs
    · exact le_refl _
    · rw [abortHandlerCalls_close]; exact Nat.le_succ _
    · exact le_refl _
    · rw [abortHandlerCalls_close]; exact Nat.le_succ _

theorem aborts_of_aborted (n : Nat) : ∀ c : HttpConnection, c.isAborted = true →
    aborts n c = c := by
  induction n with
  | zero => intro c _; rfl
  | succ n ih =>
    intro c h
    simp only [aborts]
    rw [abort_of_aborted c h]
    exact ih c h

/-- Claim C14: HttpConnection::abort is idempotent: called on a connection that is already
aborted it leaves the whole state, the record of the calls made to collaborators included, as
it was; so abort(); abort() leaves the state of one abort(), every sequence of one or more
abort calls does, and over every sequence of abort calls the abort handler is invoked at most
once. -/
theorem abort_idempotent (c : HttpConnection) (n : Nat) :
    (c.isAborted = true → abort c = c) ∧
    abort (abort c) = abort c ∧
    aborts (n + 1) c = abort c ∧
    (aborts n c).abortHandlerCalls ≤ c.abortHandlerCalls + 1 := by
  refine ⟨abort_of_aborted c, abort_of_aborted _ (isAborted_abort c), ?_, ?_⟩
  · exact aborts_of_aborted n _ (isAborted_abort c)
  · cases n with
    | zero => exact Nat.le_succ _
    | succ m =>
      rw [show aborts (m + 1) c = abort c from aborts_of_aborted m _ (isAborted_abort c)]
      exact abortHandlerCalls_abort c

theorem output_nil_of_not_pending (c : HttpConnection) (h : c.isOutputPending = false) :
    c.output_ = [] := by
  cases ho : c.output_ with
  | nil => rfl
  | cons a t => simp [isOutputPending, ho] at h

theorem output_close (c : HttpConnection) : (close c).output_ = c.output_ := by
  simp only [close]
  split_ifs <;> rfl

/-- Claim C15 as stated fails: abort() on a connection with an abort handler set, inside a
socket callback and not yet aborted, closes the socket and invokes the handler, and does not
call close(): the connection is not marked closed, the socket mode is not reset and nothing is
released, which close() on the same state would have done. -/
theorem abort_with_handler_does_not_close :
    withAbortHandler.isAborted = false ∧
    (abort withAbortHandler).isAborted = true ∧
    (abort withAbortHandler).abortHandlerCalls = 1 ∧
    (abort withAbortHandler).isClosed = false ∧
    (abort withAbortHandler).socketMode = .Read ∧
    (abort withAbortHandler).releases = [] ∧
    (close { withAbortHandler with
        flags_ := { withAbortHandler.flags_ with IsAborted := true },
        output_ := [] }).isClosed = true := by
  decide

/-- Claim C15, amended: after abort() on a connection that was not yet aborted the Aborted
flag is set and the output queue is empty. When no abort handler is set, the connection is
then closed by close(). When an abort handler is set, the client socket is closed and the
handler is invoked once, and close() is not called: nothing else of the state changes, so the
Closed flag and the record of releases are as before. -/
theorem abort_effects (c : HttpConnection) (h : c.isAborted = false) :
    (abort c).isAborted = true ∧
    (abort c).output_ = [] ∧
    (c.abortHandlerSet = false →
      abort c = close { c with flags_ := { c.flags_ with IsAborted := true }, output_ := [] }) ∧
    (c.abortHandlerSet = true →
      abort c = { c with flags_ := { c.flags_ with IsAborted := true }, output_ := [],
                         socketClosed := true,
                         abortHandlerCalls := c.abortHandlerCalls + 1 }) := by
  have hc2 : (if ({ c with flags_ := { c.flags_ with IsAborted := true } } :
        HttpConnection).isOutputPending then
        ({ c with flags_ := { c.flags_ with IsAborted := true }, output_ := [] } :
          HttpConnection)
      else { c with flags_ := { c.flags_ with IsAborted := true } })
      = { c with flags_ := { c.flags_ with IsAborted := true }, output_ := [] } := by
    split_ifs with hp
    · rfl
    · have hp1 : c.isOutputPending = false := by simpa [isOutputPending] using hp
      have := output_nil_of_not_pending c hp1
      rw [← this]
  have e : abort c =
      if c.abortHandlerSet then
        { c with flags_ := { c.flags_ with IsAborted := true }, output_ := [],
                 socketClosed := true, abortHandlerCalls := c.abortHandlerCalls + 1 }
      else close { c with flags_ := { c.flags_ with IsAborted := true }, output_ := [] } := by
    unfold abort
    rw [if_neg (by simp [h])]
    simp only
    rw [hc2]
  refine ⟨isAborted_abort c, ?_, ?_, ?_⟩
  · rw [e]
    split_ifs
    · rfl
    · rw [output_close]
  · intro hs
    rw [e, if_neg (by simp [hs])]
  · intro hs
    rw [e, if_pos hs]

theorem abort_effects_witness :
    (abort withAbortHandler).isAborted = true ∧
    (abort withAbortHandler).output_ = [] ∧
    (withAbortHandler.abortHandlerSet = false →
      abort withAbortHandler
        = close { withAbortHandler with
            flags_ := { withAbortHandler.flags_ with IsAborted := true }, output_ := [] }) ∧
    (withAbortHandler.abortHandlerSet = true →
      abort withAbortHandler
        = { withAbortHandler with
            flags_ := { withAbortHandler.flags_ with IsAborted := true }, output_ := [],
            socketClosed := true,
            abortHandlerCalls := withAbortHandler.abortHandlerCalls + 1 }) :=
  abort_effects withAbortHandler (by decide)

end HttpConnection

/-- Claim C16: on an aborted connection every write is discarded: HttpRequest::write(chunk)
leaves the whole state as it was, so the output queue, the output state and bytesTransmitted
are unchanged and no header block is handed on; HttpConnection::write(chunk) changes nothing
but the record of the sources handed to it, so the output queue and the request are
unchanged. -/
theorem write_on_aborted_is_discarded (chunk : Source) (c : HttpConnection)
    (h : c.isAborted = true) :
    HttpRequest.write chunk c = c ∧
    HttpConnection.write chunk c = { c with handed := c.handed ++ [chunk] } ∧
    (HttpConnection.write chunk c).output_ = c.output_ ∧
    (HttpConnection.write chunk c).request_.outputState_ = c.request_.outputState_ ∧
    (HttpConnection.write chunk c).request_.bytesTransmitted_
      = c.request_.bytesTransmitted_ := by
  have e1 : HttpRequest.write chunk c = c := by
    unfold HttpRequest.write
    rw [if_pos h]
  have e2 : HttpConnection.write chunk c = { c with handed := c.handed ++ [chunk] } := by
    unfold HttpConnection.write
    have ha : ({ c with handed := c.handed ++ [chunk] } : HttpConnection).isAborted = true := h
    simp only [ha]
    rfl
  refine ⟨e1, e2, ?_, ?_, ?_⟩ <;> rw [e2]

theorem write_on_aborted_is_discarded_witness :
    HttpRequest.write (.buffer [104, 105]) HttpConnection.abortedUnhandled
      = HttpConnection.abortedUnhandled ∧
    HttpConnection.write (.buffer [104, 105]) HttpConnection.abortedUnhandled
      = { HttpConnection.abortedUnhandled with
          handed := HttpConnection.abortedUnhandled.handed ++ [.buffer [104, 105]] } ∧
    (HttpConnection.write (.buffer [104, 105]) HttpConnection.abortedUnhandled).output_
      = HttpConnection.abortedUnhandled.output_ ∧
    (HttpConnection.write (.buffer [104, 105])
        HttpConnection.abortedUnhandled).request_.outputState_
      = HttpConnection.abortedUnhandled.request_.outputState_ ∧
    (HttpConnection.write (.buffer [104, 105])
        HttpConnection.abortedUnhandled).request_.bytesTransmitted_
      = HttpConnection.abortedUnhandled.request_.bytesTransmitted_ :=
  write_on_aborted_is_discarded (.buffer [104, 105]) HttpConnection.abortedUnhandled
    (by decide)

namespace HttpConnection

/-- Claim C17: onMessageEnd delivers exactly one chunk to the request's content callback, the
empty one, and returns false if and only if the HandlingRequest flag is set; it changes
nothing of the connection state itself. -/
theorem onMessageEnd_delivers_end_of_body (c : HttpConnection) :
    (onMessageEnd c).2.1 = [⟨0, 0⟩] ∧
    (∀ chunk ∈ (onMessageEnd c).2.1, chunk.size = 0) ∧
    ((onMessageEnd c).1 = false ↔ c.flags_.IsHandlingRequest = true) ∧
    (onMessageEnd c).2.2 = c := by
  unfold onMessageEnd HttpRequest.onRequestContent
  by_cases h : c.flags_.IsHandlingRequest = true
  · simp [h]
  · simp [h]

/-- Claim C18: processResume clears the request and the Resuming flag; when unparsed input
remains (inputOffset_ < input_.size()) the status becomes ReadingRequest, and otherwise it
becomes KeepAliveRead and watchInput(maxKeepAlive) re-arms the read watcher: the socket mode
is Read and the timeout is maxKeepAlive when that is not zero. No other status results. -/
theorem processResume_status (c : HttpConnection) :
    (processResume c).request_ = HttpRequest.fresh ∧
    (processResume c).flags_.IsResuming = false ∧
    (c.inputOffset_ < c.input_.length → (processResume c).status_ = .ReadingRequest) ∧
    (¬ c.inputOffset_ < c.input_.length →
      (processResume c).status_ = .KeepAliveRead ∧
      processResume c = watchInput c.server.maxKeepAlive
        { c with flags_ := { c.flags_ with IsResuming := false },
                 request_ := HttpRequest.fresh, status_ := .KeepAliveRead } ∧
      (processResume c).socketMode = .Read ∧
      (c.server.maxKeepAlive ≠ 0 →
        (processResume c).socketTimeout = some c.server.maxKeepAlive)) ∧
    ((processResume c).status_ = .ReadingRequest ∨
      (processResume c).status_ = .KeepAliveRead) := by
  by_cases h : c.inputOffset_ < c.input_.length
  · have e : processResume c
        = { c with flags_ := { c.flags_ with IsResuming := false },
                   request_ := HttpRequest.fresh, status_ := .ReadingRequest } := by
      unfold processResume
      simp only [if_pos h, HttpRequest.clear]
    rw [e]
    exact ⟨rfl, rfl, fun _ => rfl, fun hn => absurd h hn, Or.inl rfl⟩
  · have e : processResume c = watchInput c.server.maxKeepAlive
        { c with flags_ := { c.flags_ with IsResuming := false },
                 request_ := HttpRequest.fresh, status_ := .KeepAliveRead } := by
      unfold processResume
      simp only [if_neg h, HttpRequest.clear]
    rw [e]
    by_cases hz : c.server.maxKeepAlive = 0
    · simp [watchInput, hz, h]
    · simp [watchInput, hz, h]

end HttpConnection

/-! ## timeout, and the order of the output states -/

namespace HttpConnection

theorem keepAlive_close (c : HttpConnection) :
    (close c).shouldKeepAlive = c.shouldKeepAlive := by
  simp only [close]
  split_ifs <;> rfl

theorem keepAlive_abort (c : HttpConnection) :
    (abort c).shouldKeepAlive = c.shouldKeepAlive := by
  simp only [abort]
  split_ifs <;> first | rfl | (rw [keepAlive_close]; rfl)

theorem keepAlive_unref (c : HttpConnection) :
    (unref c).shouldKeepAlive = c.shouldKeepAlive := by
  simp only [unref]
  split_ifs <;> rfl

theorem keepAlive_watchInput (t : Nat) (c : HttpConnection) :
    (watchInput t c).shouldKeepAlive = c.shouldKeepAlive := by
  simp only [watchInput]
  split_ifs <;> rfl

theorem keepAlive_watchOutput (c : HttpConnection) :
    (watchOutput c).shouldKeepAlive = c.shouldKeepAlive := by
  simp only [watchOutput]
  split_ifs <;> rfl

theorem keepAlive_processOutputLoop (l : List SendResult) :
    ∀ c : HttpConnection, c.request_.outputState_ ≠ .Finished →
      (processOutputLoop l c).shouldKeepAlive = c.shouldKeepAlive := by
  induction l with
  | nil => intro c _; simp only [processOutputLoop]; exact keepAlive_watchOutput c
  | cons res rest ih =>
    intro c h
    simp only [processOutputLoop]
    split_ifs with h1 h2 h3
    · exact (ih _ (by exact h)).trans rfl
    · rw [stable_checkFinish _ (by simpa [watchInput] using h)]
      simp only [release, shouldKeepAlive, watchInput]
      split_ifs <;> rfl
    · rw [stable_checkFinish _ (by simpa [watchInput] using h), keepAlive_watchInput]; rfl
    · split
      · exact (ih _ (by exact h)).trans rfl
      · rw [keepAlive_watchOutput]; rfl
      · rw [keepAlive_abort]; rfl

theorem keepAlive_write (chunk : Source) (c : HttpConnection)
    (h : c.request_.outputState_ ≠ .Finished) :
    (write chunk c).shouldKeepAlive = c.shouldKeepAlive := by
  simp only [write]
  split_ifs
  · simp only [processOutput]
    rw [keepAlive_unref]
    exact (keepAlive_processOutputLoop _ _ (by exact h)).trans rfl
  · rfl

end HttpConnection

namespace HttpRequest

theorem keepAlive_request_write (chunk : Source) (c : HttpConnection)
    (h : c.request_.outputState_ ≠ .Finished) :
    (write chunk c).shouldKeepAlive = c.shouldKeepAlive := by
  by_cases ha : c.isAborted = true
  · have e : write chunk c = c := by unfold write; rw [if_pos ha]
    rw [e]
  · have ha1 : c.isAborted = false := by simpa using ha
    cases hs : c.request_.outputState_ with
    | Unhandled =>
      obtain ⟨c1, hc1⟩ : ∃ c1 : HttpConnection,
          c1 = { c with request_ := { c.request_ with outputState_ := .Populating } } :=
        ⟨_, rfl⟩
      have e : write chunk c
          = writePopulating chunk (HttpConnection.write (serialize c1.request_) c1) := by
        unfold write
        rw [if_neg (by simp [ha1])]
        simp only [hs, hc1]
      have hn1 : c1.request_.outputState_ ≠ .Finished := by rw [hc1]; simp
      have k1 := HttpConnection.keepAlive_write (serialize c1.request_) c1 hn1
      have s1 := HttpConnection.stable_write (serialize c1.request_) c1 hn1
      have o1 := congrArg Stable.outputState s1
      simp only [HttpConnection.stable] at o1
      have hn2 : (HttpConnection.write (serialize c1.request_) c1).request_.outputState_
          ≠ .Finished := by rw [o1]; exact hn1
      rw [e, writePopulating_eq, HttpConnection.keepAlive_write _ _ hn2, k1, hc1]
      rfl
    | Populating =>
      have e : write chunk c = writePopulating chunk c := by
        unfold write
        rw [if_neg (by simp [ha1])]
        simp only [hs]
      rw [e, writePopulating_eq]
      exact HttpConnection.keepAlive_write _ _ h
    | Finished => exact absurd hs h

theorem keepAlive_finish (c : HttpConnection) (h : c.request_.outputState_ ≠ .Finished) :
    (finish c).shouldKeepAlive = c.shouldKeepAlive := by
  obtain ⟨c1, hc1⟩ : ∃ c1 : HttpConnection, c1 =
      (match c.request_.outputState_ with
        | .Unhandled => write (.defaultContent c.request_.status) c
        | _ => c) := ⟨_, rfl⟩
  have h1 : c1.shouldKeepAlive = c.shouldKeepAlive ∧ c1.request_.outputState_ ≠ .Finished := by
    rw [hc1]
    cases hs : c.request_.outputState_ with
    | Unhandled =>
      exact ⟨keepAlive_request_write _ c (by rw [hs]; decide),
        (core_write _ c (by rw [hs]; decide)).2⟩
    | Populating => exact ⟨rfl, by rw [hs]; decide⟩
    | Finished => exact absurd hs h
  obtain ⟨c2, hc2⟩ : ∃ c2 : HttpConnection, c2 =
      (if c1.request_.outputFilters.isEmpty then c1
        else HttpConnection.write (.filter (.buffer []) c1.request_.outputFilters true) c1) :=
    ⟨_, rfl⟩
  have h2 : c2.shouldKeepAlive = c.shouldKeepAlive := by
    rw [hc2]
    split_ifs
    · exact h1.1
    · rw [HttpConnection.keepAlive_write _ _ h1.2, h1.1]
  have e : finish c = { c2 with request_ := { c2.request_ with outputState_ := .Finished } } := by
    rw [hc2, hc1]; rfl
  rw [e, ← h2]
  rfl

end HttpRequest

namespace HttpConnection

/-- What close() does to a connection: nothing when it is marked closed; inside a socket
callback the Closed flag is set, and the socket mode reset when no output is pending; outside,
the connection is released at once. -/
theorem close_cases (c : HttpConnection) :
    (c.isClosed = true → close c = c) ∧
    (c.isClosed = false → c.isInsideSocketCallback = true →
      (close c).isClosed = true ∧ (close c).releases = c.releases ∧
      (c.isOutputPending = false → (close c).socketMode = .None)) ∧
    (c.isClosed = false → c.isInsideSocketCallback = false →
      (close c).releases = c.releases
        ++ [{ site := .close, isClosed := false, isOutputPending := c.isOutputPending,
              refCount := c.refCount_ }]) := by
  refine ⟨fun h => ?_, fun h1 h2 => ?_, fun h1 h2 => ?_⟩
  · simp only [close, h, if_true]
  · simp only [close, h1, h2, if_true, Bool.false_eq_true, if_false]
    refine ⟨?_, ?_, fun h3 => ?_⟩
    · split_ifs <;> rfl
    · split_ifs <;> rfl
    · have h4 : ({ c with flags_ := { c.flags_ with IsClosed := true } } :
          HttpConnection).isOutputPending = false := h3
      simp only [h4, Bool.not_false, if_true]
  · simp only [close, h1, h2, Bool.false_eq_true, if_false, release]

/-- Claim C19: HttpConnection::timeout acts by connection status. In ReadingRequest it clears
the keep-alive flag, sets the request status to 408, sets the connection status to
SendingReply and finishes the request; when the request was not finished before, it is
finished with status 408 afterwards, the connection is in SendingReply and keep-alive is off.
In KeepAliveRead it closes the connection and writes no response: nothing is handed to the
output and the output queue is as before; a connection not yet marked closed gets the Closed
flag inside a socket callback (and its socket mode reset when no output is pending) and is
released to the worker at once outside. In SendingReply it aborts the connection: the Aborted
flag is set; for a connection not yet aborted the output queue is emptied, and then with an
abort handler the socket is closed and the handler invoked once, and without one the
connection is closed as above. In StartingUp it changes nothing. -/
theorem timeout_by_status (c : HttpConnection) :
    (c.status_ = .ReadingRequest →
      timeout c = HttpRequest.finish
        { c with flags_ := { c.flags_ with IsKeepAliveEnabled := false },
                 request_ := { c.request_ with status := HttpError.RequestTimeout },
                 status_ := .SendingReply } ∧
      (c.request_.isFinished = false →
        (timeout c).request_.status = 408 ∧
        (timeout c).request_.isFinished = true ∧
        (timeout c).status_ = .SendingReply ∧
        (timeout c).shouldKeepAlive = false)) ∧
    (c.status_ = .KeepAliveRead →
      timeout c = close c ∧ (timeout c).handed = c.handed ∧ (timeout c).output_ = c.output_ ∧
      (c.isClosed = true → timeout c = c) ∧
      (c.isClosed = false → c.isInsideSocketCallback = true →
        (timeout c).isClosed = true ∧ (timeout c).releases = c.releases ∧
        (c.isOutputPending = false → (timeout c).socketMode = .None)) ∧
      (c.isClosed = false → c.isInsideSocketCallback = false →
        (timeout c).releases = c.releases
          ++ [{ site := .close, isClosed := false, isOutputPending := c.isOutputPending,
                refCount := c.refCount_ }])) ∧
    (c.status_ = .SendingReply →
      timeout c = abort c ∧ (timeout c).isAborted = true ∧
      (c.isAborted = true → timeout c = c) ∧
      (c.isAborted = false →
        (timeout c).output_ = [] ∧
        (c.abortHandlerSet = true →
          (timeout c).socketClosed = true ∧
          (timeout c).abortHandlerCalls = c.abortHandlerCalls + 1 ∧
          (timeout c).isClosed = c.isClosed ∧ (timeout c).releases = c.releases) ∧
        (c.abortHandlerSet = false → c.isClosed = false → c.isInsideSocketCallback = true →
          (timeout c).isClosed = true ∧ (timeout c).releases = c.releases ∧
          (timeout c).socketMode = .None ∧
          (timeout c).abortHandlerCalls = c.abortHandlerCalls) ∧
        (c.abortHandlerSet = false → c.isClosed = false → c.isInsideSocketCallback = false →
          (timeout c).releases = c.releases
            ++ [{ site := .close, isClosed := false, isOutputPending := false,
                  refCount := c.refCount_ }]))) ∧
    (c.status_ = .StartingUp → timeout c = c) := by
  refine ⟨fun hs => ?_, fun hs => ?_, fun hs => ?_, fun hs => ?_⟩
  · have e : timeout c = HttpRequest.finish
        { c with flags_ := { c.flags_ with IsKeepAliveEnabled := false },
                 request_ := { c.request_ with status := HttpError.RequestTimeout },
                 status_ := .SendingReply } := by
      unfold timeout
      simp only [hs, setShouldKeepAlive]
      rfl
    refine ⟨e, fun hfin => ?_⟩
    have hne : c.request_.outputState_ ≠ .Finished := by
      simpa [HttpRequest.isFinished] using hfin
    have f := finish_with_status
      { c with flags_ := { c.flags_ with IsKeepAliveEnabled := false },
               status_ := .SendingReply } HttpError.RequestTimeout hfin
    have k := HttpRequest.keepAlive_finish
      { c with flags_ := { c.flags_ with IsKeepAliveEnabled := false },
               request_ := { c.request_ with status := HttpError.RequestTimeout },
               status_ := .SendingReply } hne
    rw [e]
    exact ⟨f.1, f.2.1, f.2.2.2.2.1, k⟩
  · have e : timeout c = close c := by
      unfold timeout
      simp only [hs]
    have hc := close_cases c
    rw [e]
    refine ⟨rfl, ?_, output_close c, hc.1, hc.2.1, hc.2.2⟩
    have := congrArg Stable.handed (stable_close c)
    simpa [stable] using this
  · have e : timeout c = abort c := by
      unfold timeout
      simp only [hs]
    rw [e]
    refine ⟨rfl, isAborted_abort c, abort_of_aborted c, fun ha => ?_⟩
    obtain ⟨c2, hc2⟩ : ∃ c2 : HttpConnection,
        c2 = { c with flags_ := { c.flags_ with IsAborted := true }, output_ := [] } :=
      ⟨_, rfl⟩
    have hpend : (if ({ c with flags_ := { c.flags_ with IsAborted := true } } :
          HttpConnection).isOutputPending then
          ({ c with flags_ := { c.flags_ with IsAborted := true }, output_ := [] } :
            HttpConnection)
        else { c with flags_ := { c.flags_ with IsAborted := true } }) = c2 := by
      rw [hc2]
      split_ifs with hp
      · rfl
      · have hp1 : c.isOutputPending = false := by simpa [isOutputPending] using hp
        have := output_nil_of_not_pending c hp1
        rw [← this]
    have ea : abort c =
        if c.abortHandlerSet then
          { c2 with socketClosed := true, abortHandlerCalls := c2.abortHandlerCalls + 1 }
        else close c2 := by
      unfold abort
      rw [if_neg (by simp [ha])]
      simp only
      rw [hpend]
      rw [hc2]
    have hcc := close_cases c2
    have p1 : c2.isOutputPending = false := by rw [hc2]; rfl
    have p2 : c2.isClosed = c.isClosed := by rw [hc2]; rfl
    have p3 : c2.isInsideSocketCallback = c.isInsideSocketCallback := by rw [hc2]; rfl
    have p4 : c2.releases = c.releases := by rw [hc2]
    have p5 : c2.refCount_ = c.refCount_ := by rw [hc2]
    have p6 : c2.abortHandlerCalls = c.abortHandlerCalls := by rw [hc2]
    refine ⟨?_, fun hh => ?_, fun hh h1 h2 => ?_, fun hh h1 h2 => ?_⟩
    · rw [ea]
      split_ifs
      · rw [hc2]
      · rw [output_close, hc2]
    · rw [ea, if_pos hh, hc2]
      exact ⟨rfl, rfl, rfl, rfl⟩
    · rw [ea, if_neg (by simp [hh])]
      have := hcc.2.1 (by rw [p2, h1]) (by rw [p3, h2])
      exact ⟨this.1, by rw [this.2.1, p4], this.2.2 p1,
        by rw [abortHandlerCalls_close, p6]⟩
    · rw [ea, if_neg (by simp [hh])]
      have := hcc.2.2 (by rw [p2, h1]) (by rw [p3, h2])
      rw [this, p4, p1, p5]
  · unfold timeout
    simp only [hs]

end HttpConnection

namespace HttpRequest

/-- Claim C20 as stated fails: on an aborted connection HttpRequest::write returns at once, so
from Unhandled the state after the call is Unhandled, not Populating. -/
theorem write_on_aborted_stays_unhandled :
    HttpConnection.abortedUnhandled.request_.outputState_ = .Unhandled ∧
    (write (.buffer [104, 105]) HttpConnection.abortedUnhandled).request_.outputState_
      = .Unhandled ∧
    (write (.buffer [104, 105]) HttpConnection.abortedUnhandled).request_.outputState_
      ≠ .Populating := by
  decide

/-- Claim C20, amended: HttpRequest::write never moves the output state backwards in the order
Unhandled, Populating, Finished. On a connection that is not aborted, from Unhandled or
Populating the state after the call is Populating; on an aborted connection the call changes
nothing; and in state Finished the call makes no transition, enqueues nothing and hands
nothing on: the whole state is as before. -/
theorem write_outputState_monotone (chunk : Source) (c : HttpConnection) :
    c.request_.outputState_.rank ≤ (write chunk c).request_.outputState_.rank ∧
    (c.isAborted = false → c.request_.outputState_ ≠ .Finished →
      (write chunk c).request_.outputState_ = .Populating) ∧
    (c.isAborted = true → write chunk c = c) ∧
    (c.request_.outputState_ = .Finished → write chunk c = c) := by
  have hab : c.isAborted = true → write chunk c = c := by
    intro ha
    unfold write
    rw [if_pos ha]
  have hfin : c.request_.outputState_ = .Finished → write chunk c = c := by
    intro hs
    unfold write
    split_ifs
    · rfl
    · simp only [hs]
  have hpop : c.isAborted = false → c.request_.outputState_ ≠ .Finished →
      (write chunk c).request_.outputState_ = .Populating := by
    intro ha hne
    cases hs : c.request_.outputState_ with
    | Unhandled =>
      have := congrArg Stable.outputState (stable_write_unhandled chunk c ha hs)
      simpa [HttpConnection.stable] using this
    | Populating =>
      have := congrArg Stable.outputState (stable_write_populating chunk c ha hs)
      simp only [HttpConnection.stable] at this
      rw [this, hs]
    | Finished => exact absurd hs hne
  refine ⟨?_, hpop, hab, hfin⟩
  by_cases ha : c.isAborted = true
  · rw [hab ha]
  · have ha1 : c.isAborted = false := by simpa using ha
    by_cases hs : c.request_.outputState_ = .Finished
    · rw [hfin hs]
    · rw [hpop ha1 hs]
      cases hc : c.request_.outputState_ with
      | Unhandled => decide
      | Populating => decide
      | Finished => exact absurd hc hs

end HttpRequest

/-! ## writeCallback and HeaderList -/

namespace HttpConnection

theorem handed_close (c : HttpConnection) : (close c).handed = c.handed := by
  simp only [close]
  split_ifs <;> rfl

theorem handed_abort (c : HttpConnection) : (abort c).handed = c.handed := by
  simp only [abort]
  split_ifs <;> first | rfl | (rw [handed_close])

theorem handed_unref (c : HttpConnection) : (unref c).handed = c.handed := by
  simp only [unref]
  split_ifs <;> rfl

theorem handed_watchInput (t : Nat) (c : HttpConnection) :
    (watchInput t c).handed = c.handed := by
  simp only [watchInput]
  split_ifs <;> rfl

theorem handed_watchOutput (c : HttpConnection) : (watchOutput c).handed = c.handed := by
  simp only [watchOutput]
  split_ifs <;> rfl

theorem handed_resume (c : HttpConnection) : (resume c).handed = c.handed := by
  simp only [resume, processResume]
  split_ifs <;> first | rfl | (rw [handed_watchInput])

theorem handed_checkFinish (c : HttpConnection) : (checkFinish c).handed = c.handed := by
  simp only [checkFinish, finalize]
  split_ifs <;> first | rfl | (rw [handed_close]) | (rw [handed_resume])

theorem handed_processOutputLoop (l : List SendResult) :
    ∀ c : HttpConnection, (processOutputLoop l c).handed = c.handed := by
  induction l with
  | nil => intro c; simp only [processOutputLoop]; exact handed_watchOutput c
  | cons res rest ih =>
    intro c
    simp only [processOutputLoop]
    split_ifs with h1 h2 h3
    · exact (ih _).trans rfl
    · simp only [release]
      exact (handed_checkFinish _).trans ((handed_watchInput _ _).trans rfl)
    · exact (handed_checkFinish _).trans ((handed_watchInput _ _).trans rfl)
    · split
      · exact (ih _).trans rfl
      · rw [handed_watchOutput]
      · rw [handed_abort]

theorem handed_processOutput (c : HttpConnection) : (processOutput c).handed = c.handed := by
  simp only [processOutput]
  rw [handed_unref]
  exact (handed_processOutputLoop _ _).trans rfl

theorem handed_write (chunk : Source) (c : HttpConnection) :
    (write chunk c).handed = c.handed ++ [chunk] := by
  simp only [write]
  split_ifs
  · exact (handed_processOutput _).trans rfl
  · rfl

end HttpConnection

namespace HttpRequest

/-- Claim C21: HttpRequest::writeCallback(cb) either invokes cb at once and returns false,
leaving the state as it was (when the connection is aborted or the output queue is empty), or
hands exactly one CallbackSource holding cb to HttpConnection::write, which appends it to the
output queue and flushes, and returns true without invoking cb itself (when output is
pending). In every case the number of direct invocations plus the number of sources enqueued
is one, and the return value is true exactly when cb was enqueued. -/
theorem writeCallback_invokes_or_enqueues (cb : Nat) (c : HttpConnection) :
    (c.isAborted = true ∨ c.isOutputPending = false →
      writeCallback cb c = (false, 1, c)) ∧
    (c.isAborted = false ∧ c.isOutputPending = true →
      (writeCallback cb c).1 = true ∧ (writeCallback cb c).2.1 = 0 ∧
      (writeCallback cb c).2.2
        = HttpConnection.processOutput
            { c with handed := c.handed ++ [.callback cb],
                     output_ := c.output_ ++ [.callback cb] } ∧
      (writeCallback cb c).2.2.handed = c.handed ++ [.callback cb]) ∧
    (writeCallback cb c).2.1 + ((writeCallback cb c).2.2.handed.length - c.handed.length) = 1 ∧
    ((writeCallback cb c).1 = true ↔
      (writeCallback cb c).2.2.handed = c.handed ++ [.callback cb]) := by
  by_cases ha : c.isAborted = true
  · have e : writeCallback cb c = (false, 1, c) := by
      unfold writeCallback
      rw [if_pos ha]
    rw [e]
    refine ⟨fun _ => rfl, fun h => ?_, by simp, ?_⟩
    · rw [ha] at h; exact absurd h.1 (by decide)
    · simp
  · have ha1 : c.isAborted = false := by simpa using ha
    by_cases hp : c.isOutputPending = true
    · have e : writeCallback cb c = (true, 0, HttpConnection.write (.callback cb) c) := by
        unfold writeCallback
        rw [if_neg ha, if_pos hp]
      have ew : HttpConnection.write (.callback cb) c
          = HttpConnection.processOutput
              { c with handed := c.handed ++ [.callback cb],
                       output_ := c.output_ ++ [.callback cb] } := by
        unfold HttpConnection.write
        have : ({ c with handed := c.handed ++ [Source.callback cb] } :
            HttpConnection).isAborted = false := ha1
        simp only [this]
        rfl
      have hh := HttpConnection.handed_write (.callback cb) c
      rw [e]
      refine ⟨fun h => ?_, fun _ => ⟨rfl, rfl, ew, hh⟩, ?_, ?_⟩
      · rcases h with h | h
        · exact absurd h ha
        · rw [hp] at h; exact absurd h (by decide)
      · simp only [hh]
        simp
      · simp only [hh]
    · have hp1 : c.isOutputPending = false := by simpa using hp
      have e : writeCallback cb c = (false, 1, c) := by
        unfold writeCallback
        rw [if_neg ha, if_neg hp]
      rw [e]
      refine ⟨fun _ => rfl, fun h => ?_, by simp, ?_⟩
      · rw [hp1] at h; exact absurd h.2 (by decide)
      · simp

end HttpRequest

theorem toLower_eq_zero (c : Nat) : toLower c = 0 ↔ c = 0 := by
  unfold toLower
  by_cases h : 65 ≤ c ∧ c ≤ 90
  · rw [if_pos h]
    constructor <;> intro h1 <;> omega
  · rw [if_neg h]

theorem c_str_map_toLower (s : List Nat) : (c_str s).map toLower = c_str (s.map toLower) := by
  unfold c_str
  induction s with
  | nil => rfl
  | cons a t ih =>
    by_cases h : a = 0
    · subst h
      simp [List.takeWhile, toLower]
    · have h2 : toLower a ≠ 0 := fun e => h ((toLower_eq_zero a).mp e)
      simpa [List.takeWhile, h, h2] using ih

theorem iequals_c_str (a b : List Nat) (h : iequals a b = true) :
    (c_str a).map toLower = (c_str b).map toLower := by
  have e : a.map toLower = b.map toLower := by simpa [iequals] using h
  rw [c_str_map_toLower, c_str_map_toLower, e]

namespace HeaderList

theorem findHeader_congr (n n' : List Nat) (h : iequals n n' = true) :
    ∀ l : List (List Nat × List Nat), findHeader n l = findHeader n' l := by
  have e := iequals_c_str n n' h
  intro l
  induction l with
  | nil => rfl
  | cons item rest ih =>
    simp only [findHeader, iequals, e, ih]

theorem findHeader_names (n : List Nat) :
    ∀ l l1 : List (List Nat × List Nat), l.map Prod.fst = l1.map Prod.fst →
      findHeader n l = findHeader n l1 := by
  intro l
  induction l with
  | nil =>
    intro l1 h
    cases l1 with
    | nil => rfl
    | cons _ _ => simp at h
  | cons item rest ih =>
    intro l1 h
    cases l1 with
    | nil => simp at h
    | cons item1 rest1 =>
      simp only [List.map_cons, List.cons.injEq] at h
      simp only [findHeader, h.1, ih rest1 h.2]

theorem findHeader_lt (n : List Nat) :
    ∀ (l : List (List Nat × List Nat)) (i : Nat), findHeader n l = some i → i < l.length := by
  intro l
  induction l with
  | nil => intro i h; simp [findHeader] at h
  | cons item rest ih =>
    intro i h
    simp only [findHeader] at h
    split_ifs at h with hm
    · simp only [Option.some.injEq] at h
      subst h
      simp
    · cases hf : findHeader n rest with
      | none => rw [hf] at h; simp at h
      | some j =>
        rw [hf] at h
        simp only [Option.map_some', Option.some.injEq] at h
        subst h
        simp only [List.length_cons]
        have := ih j hf
        omega

theorem findHeader_push_back (n v : List Nat) :
    ∀ l : List (List Nat × List Nat), findHeader n l = none →
      findHeader n (l ++ [(n, v)]) = some l.length := by
  intro l
  induction l with
  | nil => intro _; simp [findHeader, iequals]
  | cons item rest ih =>
    intro h
    simp only [findHeader] at h
    split_ifs at h with hm
    cases hf : findHeader n rest with
    | some j => rw [hf] at h; simp at h
    | none =>
      show findHeader n (item :: (rest ++ [(n, v)])) = some (rest.length + 1)
      simp only [findHeader, if_neg hm]
      rw [ih hf]
      rfl

theorem set_names (l : List (List Nat × List Nat)) (i : Nat) (v : List Nat) :
    (l.set i ((l.getD i ([], [])).1, v)).map Prod.fst = l.map Prod.fst := by
  induction l generalizing i with
  | nil => rfl
  | cons item rest ih =>
    cases i with
    | zero => simp
    | succ j =>
      simp only [List.set_cons_succ, List.map_cons, List.cons.injEq, true_and]
      simpa using ih j

/-- Claim C22: for every HeaderList L, value v and names n, n' that are equal ignoring ASCII
case: after L.overwrite(n, v), L.contains(n') holds and L[n'] is v. When L had no header
with that name, the size grows by one and the headers are the old ones followed by (n, v).
When it had one, the size is unchanged, the number of headers is unchanged, the first header
of that name has its old name and the value v at its old position, and every other header is
as it was at its position. -/
theorem overwrite_then_lookup (L : HeaderList) (n n' v : List Nat)
    (h : iequals n n' = true) :
    (L.overwrite n v).contains n' = true ∧
    (L.overwrite n v).get n' = v ∧
    (L.contains n = false →
      (L.overwrite n v).size = L.size + 1 ∧
      (L.overwrite n v).headers = L.headers ++ [(n, v)]) ∧
    (L.contains n = true →
      (L.overwrite n v).size = L.size ∧
      (L.overwrite n v).headers.length = L.headers.length ∧
      ∃ i, findHeader n L.headers = some i ∧ i < L.headers.length ∧
        (L.overwrite n v).headers[i]? = some ((L.headers.getD i ([], [])).1, v) ∧
        ∀ j, j ≠ i → (L.overwrite n v).headers[j]? = L.headers[j]?) := by
  cases hf : findHeader n L.headers with
  | none =>
    have e : L.overwrite n v = L.push_back n v := by
      unfold overwrite
      simp only [hf]
    have hf1 : findHeader n' (L.headers ++ [(n, v)]) = some L.headers.length := by
      rw [← findHeader_congr n n' h]
      exact findHeader_push_back n v _ hf
    rw [e]
    refine ⟨?_, ?_, fun _ => ⟨rfl, rfl⟩, fun hc => ?_⟩
    · simp [contains, push_back, hf1]
    · simp [get, push_back, hf1]
    · simp [contains, hf] at hc
  | some i =>
    have hi := findHeader_lt n _ i hf
    have e : L.overwrite n v
        = { L with headers := L.headers.set i ((L.headers.getD i ([], [])).1, v) } := by
      unfold overwrite
      simp only [hf]
    have hf1 : findHeader n' (L.headers.set i ((L.headers.getD i ([], [])).1, v))
        = some i := by
      rw [← findHeader_congr n n' h, findHeader_names n _ L.headers (set_names _ _ _), hf]
    rw [e]
    refine ⟨?_, ?_, fun hc => ?_, fun _ => ⟨rfl, ?_, i, rfl, hi, ?_, fun j hj => ?_⟩⟩
    · show (findHeader n' (L.headers.set i ((L.headers.getD i ([], [])).1, v))).isSome = true
      rw [hf1]
      rfl
    · simp only [get, hf1]
      simp [List.getD_eq_getElem?_getD, hi]
    · simp [contains, hf] at hc
    · simp
    · simp [hi]
    · simp only
      rw [List.getElem?_set_ne (Ne.symm hj)]

theorem overwrite_then_lookup_witness :
    (overwrite ⟨1, [(ascii "Content-Type", ascii "text/plain")]⟩
        (ascii "content-type") (ascii "text/html")).contains (ascii "CONTENT-TYPE") = true ∧
    (overwrite ⟨1, [(ascii "Content-Type", ascii "text/plain")]⟩
        (ascii "content-type") (ascii "text/html")).get (ascii "CONTENT-TYPE")
      = ascii "text/html" :=
  ⟨(overwrite_then_lookup ⟨1, [(ascii "Content-Type", ascii "text/plain")]⟩
      (ascii "content-type") (ascii "CONTENT-TYPE") (ascii "text/html") (by decide)).1,
   (overwrite_then_lookup ⟨1, [(ascii "Content-Type", ascii "text/plain")]⟩
      (ascii "content-type") (ascii "CONTENT-TYPE") (ascii "text/html") (by decide)).2.1⟩

/-- Claim C23, the code: HeaderList::append(name, value) changes nothing, for every list, name
and value; after append(Vary, Accept) on the empty list the list holds no header named Vary
and its size is 0. -/
theorem append_changes_nothing (L : HeaderList) (name value : List Nat) :
    L.append name value = L ∧
    (append ⟨0, []⟩ (ascii "Vary") (ascii "Accept")).contains (ascii "Vary") = false ∧
    (append ⟨0, []⟩ (ascii "Vary") (ascii "Accept")).size = 0 := by
  refine ⟨rfl, ?_, ?_⟩ <;> decide

end HeaderList

/-! ## FastCGI request ids, request body and parameter names -/

/-- The counter nextID_ after k requests whose backend opened. -/
theorem handleRequest_counter (k : Nat) (o : Bool) :
    (CgiContext.handleRequest o (if k = 0 then 0 else (k - 1) % 65535 + 1))
      = if o then (k % 65535 + 1, some (k % 65535 + 1))
        else ((if k = 0 then 0 else (k - 1) % 65535 + 1), none) := by
  cases o with
  | false => simp [CgiContext.handleRequest]
  | true =>
    simp only [CgiContext.handleRequest, if_true]
    by_cases hk : k = 0
    · subst hk; decide
    · simp only [if_neg hk]
      have h1 : (k - 1) % 65535 < 65535 := Nat.mod_lt _ (by decide)
      by_cases hw : (k - 1) % 65535 = 65534
      · have hk2 : k % 65535 = 0 := by omega
        simp [hw, hk2]
      · have hk2 : k % 65535 = (k - 1) % 65535 + 1 := by omega
        have e1 : ((k - 1) % 65535 + 1 + 1) % 65536 = (k - 1) % 65535 + 2 :=
          Nat.mod_eq_of_lt (by omega)
        simp only [e1, hk2]
        simp

theorem handleRequests_from (opens : List Bool) :
    ∀ k : Nat,
      CgiContext.handleRequests opens (if k = 0 then 0 else (k - 1) % 65535 + 1)
        = (List.range opens.length).map (fun i =>
            if opens.getD i false then some ((k + (opens.take i).count true) % 65535 + 1)
            else none) := by
  induction opens with
  | nil => intro k; rfl
  | cons o rest ih =>
    intro k
    simp only [CgiContext.handleRequests, handleRequest_counter, List.length_cons,
      List.range_succ_eq_map, List.map_cons, List.map_map]
    cases o with
    | false =>
      simp only [Bool.false_eq_true, if_false]
      rw [ih k]
      simp
    | true =>
      simp only [if_true]
      have e : (k % 65535 + 1) = (if k + 1 = 0 then 0 else (k + 1 - 1) % 65535 + 1) := by
        simp
      rw [e, ih (k + 1)]
      simp only [List.getD_cons_zero, List.take_zero, List.count_nil, Nat.add_zero, if_true,
        List.cons.injEq]
      refine ⟨by simp, ?_⟩
      apply List.map_congr_left
      intro i _
      simp only [Function.comp, List.getD_cons_succ, List.take_succ_cons,
        List.count_cons_self]
      have : k + 1 + List.count true (List.take i rest)
          = k + (List.count true (List.take i rest) + 1) := by omega
      rw [this]

/-- Claim C24: starting from the initial counter 0, for every sequence of requests the k-th
request whose backend opened is bound with the id ((k - 1) mod 65535) + 1, where k - 1 is the
number of earlier requests whose backend opened; a request whose backend failed to open gets
no id and leaves the counter as it was. Every id handed out is a nonzero 16-bit value. -/
theorem handleRequests_ids (opens : List Bool) :
    CgiContext.handleRequests opens 0
      = (List.range opens.length).map (fun i =>
          if opens.getD i false then some ((opens.take i).count true % 65535 + 1) else none) ∧
    (∀ id, some id ∈ CgiContext.handleRequests opens 0 → 0 < id ∧ id < 65536) ∧
    (∀ n, (CgiContext.handleRequest false n) = (n, none)) := by
  have key := handleRequests_from opens 0
  simp only [if_true, Nat.zero_add] at key
  refine ⟨key, ?_, fun n => rfl⟩
  intro id hid
  rw [key] at hid
  simp only [List.mem_map, List.mem_range] at hid
  obtain ⟨i, _, hi⟩ := hid
  split_ifs at hi
  simp only [Option.some.injEq] at hi
  have := Nat.mod_lt (List.count true (List.take i opens)) (show 0 < 65535 by decide)
  omega

theorem flatten_length_le (B : Nat) : ∀ l : List (List Nat), (∀ x ∈ l, x.length ≤ B) →
    l.flatten.length ≤ l.length * B := by
  intro l
  induction l with
  | nil => intro _; simp
  | cons a t ih =>
    intro h
    have h1 := h a (List.mem_cons_self _ _)
    have h2 := ih (fun x hx => h x (List.mem_cons_of_mem _ hx))
    simp only [List.flatten_cons, List.length_append, List.length_cons, Nat.add_mul, Nat.one_mul]
    omega

theorem flatten_length_lt_of_empty (B : Nat) : ∀ l : List (List Nat),
    (∀ x ∈ l, x.length ≤ B) → [] ∈ l → l.flatten.length + B ≤ l.length * B := by
  intro l
  induction l with
  | nil => intro _ h; simp at h
  | cons a t ih =>
    intro h hm
    have h1 := h a (List.mem_cons_self _ _)
    have ht : ∀ x ∈ t, x.length ≤ B := fun x hx => h x (List.mem_cons_of_mem _ hx)
    simp only [List.flatten_cons, List.length_append, List.length_cons, Nat.add_mul, Nat.one_mul]
    rcases List.mem_cons.mp hm with hm | hm
    · subst hm
      have := flatten_length_le B t ht
      simp only [List.length_nil]
      omega
    · have := ih ht hm
      omega

/-- Claim C25: CgiTransport::processRequestBody(chunk) appends a StdIn record with
contentLength 0 exactly for the empty chunk. For the empty chunk it appends one record of 8
bytes: type StdIn, the transport's id, no content, no padding. For a chunk that is not empty
it appends only StdIn records whose content holds at least one byte. -/
theorem processRequestBody_terminator (id_ : Nat) (chunk : List Nat) (writeBuffer : Buffer)
    (hid : id_ < 65536) :
    (chunk = [] →
      CgiTransport.processRequestBody id_ chunk writeBuffer
        = some (writeBuffer ++ FastCgi.Record.data FastCgi.Type.StdIn id_ 0 0) ∧
      (FastCgi.Record.data FastCgi.Type.StdIn id_ 0 0).length = 8 ∧
      FastCgi.parseRecords (FastCgi.Record.data FastCgi.Type.StdIn id_ 0 0)
        = some [{ version := 1, type := FastCgi.Type.StdIn, requestId := id_, content := [],
                  paddingLength := 0 }]) ∧
    (chunk ≠ [] →
      ∃ recs : List FastCgi.WireRecord,
        CgiTransport.processRequestBody id_ chunk writeBuffer
          = some (writeBuffer ++ (recs.map FastCgi.WireRecord.bytes).flatten) ∧
        FastCgi.parseRecords (recs.map FastCgi.WireRecord.bytes).flatten = some recs ∧
        ∀ r ∈ recs, r.type = FastCgi.Type.StdIn ∧ r.requestId = id_ ∧
          1 ≤ r.content.length) := by
  constructor
  · intro hc
    subst hc
    refine ⟨by simp [CgiTransport.processRequestBody, CgiTransport.write], by
      simp [FastCgi.Record.data], ?_⟩
    have := readRecords_cons 7 FastCgi.Type.StdIn id_ 0 0 [] [] [] [] (by decide) hid
      (by decide) (by decide) rfl rfl (by simp [FastCgi.readRecords])
    simpa [FastCgi.parseRecords, FastCgi.Record.data] using this
  · intro hc
    have hlen : 0 < chunk.length := List.length_pos.mpr hc
    obtain ⟨recs, h1, h2, h3, h4, h5⟩ :=
      write_loop_spec chunk.length FastCgi.Type.StdIn id_ chunk 0 writeBuffer (by decide) hid
        (Nat.zero_le _) (by omega)
    refine ⟨recs, ?_, h2 _ (le_refl _), fun r hr => ⟨(h4 r hr).2.1, (h4 r hr).2.2.1, ?_⟩⟩
    · have hne : chunk.length ≠ 0 := by omega
      simp only [CgiTransport.processRequestBody, CgiTransport.write, hne, if_false, h1]
    · by_contra hz
      have hz0 : r.content = [] := List.length_eq_zero.mp (by omega)
      have hmem : [] ∈ recs.map (fun r => r.content) :=
        List.mem_map.mpr ⟨r, hr, hz0⟩
      have hb : ∀ x ∈ recs.map (fun r => r.content), x.length ≤ 65535 := by
        intro x hx
        obtain ⟨q, hq, rfl⟩ := List.mem_map.mp hx
        exact (h4 q hq).2.2.2
      have hle := flatten_length_lt_of_empty 65535 _ hb hmem
      rw [h5] at hle
      simp only [List.drop_zero, List.length_map, h3, Nat.sub_zero] at hle
      have := Nat.div_mul_le_self (chunk.length + 65534) 65535
      omega

theorem processRequestBody_terminator_witness :
    ([7, 8, 9] = ([] : List Nat) →
      CgiTransport.processRequestBody 1 [7, 8, 9] [4]
        = some ([4] ++ FastCgi.Record.data FastCgi.Type.StdIn 1 0 0) ∧
      (FastCgi.Record.data FastCgi.Type.StdIn 1 0 0).length = 8 ∧
      FastCgi.parseRecords (FastCgi.Record.data FastCgi.Type.StdIn 1 0 0)
        = some [{ version := 1, type := FastCgi.Type.StdIn, requestId := 1, content := [],
                  paddingLength := 0 }]) ∧
    ([7, 8, 9] ≠ ([] : List Nat) →
      ∃ recs : List FastCgi.WireRecord,
        CgiTransport.processRequestBody 1 [7, 8, 9] [4]
          = some ([4] ++ (recs.map FastCgi.WireRecord.bytes).flatten) ∧
        FastCgi.parseRecords (recs.map FastCgi.WireRecord.bytes).flatten = some recs ∧
        ∀ r ∈ recs, r.type = FastCgi.Type.StdIn ∧ r.requestId = 1 ∧
          1 ≤ r.content.length) :=
  processRequestBody_terminator 1 [7, 8, 9] [4] (by decide)

theorem isalnum_toupper (p : Nat) :
    ((65 ≤ p ∧ p ≤ 90) → isalnum p = true ∧ toupper p = p) ∧
    ((97 ≤ p ∧ p ≤ 122) → isalnum p = true ∧ toupper p = p - 32) ∧
    ((48 ≤ p ∧ p ≤ 57) → isalnum p = true ∧ toupper p = p) ∧
    (¬ (65 ≤ p ∧ p ≤ 90) → ¬ (97 ≤ p ∧ p ≤ 122) → ¬ (48 ≤ p ∧ p ≤ 57) → isalnum p = false) := by
  unfold isalnum toupper
  refine ⟨fun h => ?_, fun h => ?_, fun h => ?_, fun h1 h2 h3 => ?_⟩
  · have : ¬ (97 ≤ p ∧ p ≤ 122) := by omega
    simp [h.1, h.2, this]
  · simp [h.1, h.2]
  · have : ¬ (97 ≤ p ∧ p ≤ 122) := by omega
    simp [h.1, h.2, this]
  · simp only [Bool.or_eq_false_iff, Bool.and_eq_false_iff, decide_eq_false_iff_not]
    omega

/-- Claim C26: for every request header name n the CGI parameter name that CgiTransport::bind
encodes is HTTP_ followed by one character for each character of n, in order: the upper-case
letter for an ASCII letter, the digit itself for a digit, the underscore for every other
character. Its length is 5 + |n|, and after the prefix it holds only A-Z, 0-9 and the
underscore. Content-Type gives HTTP_CONTENT_TYPE. -/
theorem headerKey_spec (n : List Nat) :
    (CgiTransport.headerKey n).take 5 = ascii "HTTP_" ∧
    (CgiTransport.headerKey n).length = 5 + n.length ∧
    (∀ i, i < n.length →
      ((65 ≤ n.getD i 0 ∧ n.getD i 0 ≤ 90) →
        (CgiTransport.headerKey n).getD (5 + i) 0 = n.getD i 0) ∧
      ((97 ≤ n.getD i 0 ∧ n.getD i 0 ≤ 122) →
        (CgiTransport.headerKey n).getD (5 + i) 0 = n.getD i 0 - 32) ∧
      ((48 ≤ n.getD i 0 ∧ n.getD i 0 ≤ 57) →
        (CgiTransport.headerKey n).getD (5 + i) 0 = n.getD i 0) ∧
      (¬ (65 ≤ n.getD i 0 ∧ n.getD i 0 ≤ 90) → ¬ (97 ≤ n.getD i 0 ∧ n.getD i 0 ≤ 122) →
        ¬ (48 ≤ n.getD i 0 ∧ n.getD i 0 ≤ 57) →
        (CgiTransport.headerKey n).getD (5 + i) 0 = 95)) ∧
    (∀ c ∈ (CgiTransport.headerKey n).drop 5,
      (65 ≤ c ∧ c ≤ 90) ∨ (48 ≤ c ∧ c ≤ 57) ∨ c = 95) ∧
    CgiTransport.headerKey (ascii "Content-Type") = ascii "HTTP_CONTENT_TYPE" := by
  have h5 : (ascii "HTTP_").length = 5 := by decide
  have hd : (CgiTransport.headerKey n).drop 5
      = n.map (fun p => if isalnum p then toupper p else 95) := by
    unfold CgiTransport.headerKey
    rw [List.drop_left' h5]
  have hg : ∀ i, i < n.length → (CgiTransport.headerKey n).getD (5 + i) 0
      = if isalnum (n.getD i 0) then toupper (n.getD i 0) else 95 := by
    intro i hi
    unfold CgiTransport.headerKey
    simp only [List.getD_eq_getElem?_getD]
    rw [List.getElem?_append_right (by omega)]
    simp [h5, hi]
  refine ⟨?_, ?_, fun i hi => ?_, ?_, by decide⟩
  · unfold CgiTransport.headerKey
    rw [List.take_left' h5]
  · unfold CgiTransport.headerKey
    simp [h5]
  · obtain ⟨a1, a2, a3, a4⟩ := isalnum_toupper (n.getD i 0)
    rw [hg i hi]
    refine ⟨fun h => ?_, fun h => ?_, fun h => ?_, fun h1 h2 h3 => ?_⟩
    · rw [(a1 h).1, (a1 h).2]; rfl
    · rw [(a2 h).1, (a2 h).2]; rfl
    · rw [(a3 h).1, (a3 h).2]; rfl
    · rw [a4 h1 h2 h3]; rfl
  · intro c hc
    rw [hd] at hc
    obtain ⟨p, _, rfl⟩ := List.mem_map.mp hc
    obtain ⟨a1, a2, a3, a4⟩ := isalnum_toupper p
    by_cases h1 : 65 ≤ p ∧ p ≤ 90
    · rw [(a1 h1).1, (a1 h1).2]; exact Or.inl h1
    · by_cases h2 : 97 ≤ p ∧ p ≤ 122
      · rw [(a2 h2).1, (a2 h2).2]
        simp only [if_true]
        omega
      · by_cases h3 : 48 ≤ p ∧ p ≤ 57
        · rw [(a3 h3).1, (a3 h3).2]; exact Or.inr (Or.inl h3)
        · rw [a4 h1 h2 h3]; exact Or.inr (Or.inr rfl)

/-! ## CgiTransport: records from the backend and response headers -/

namespace CgiTransport

theorem destroy_frame (t : CgiTransport) :
    (destroy t).readBuffer_ = t.readBuffer_ ∧ (destroy t).readOffset_ = t.readOffset_ ∧
    (destroy t).processed = t.processed := by
  simp only [destroy]
  split_ifs <;> exact ⟨rfl, rfl, rfl⟩

theorem unref_frame (t : CgiTransport) :
    (unref t).readBuffer_ = t.readBuffer_ ∧ (unref t).readOffset_ = t.readOffset_ ∧
    (unref t).processed = t.processed := by
  simp only [unref]
  split_ifs
  · exact destroy_frame _
  · exact ⟨rfl, rfl, rfl⟩

theorem close_frame (t : CgiTransport) :
    (close t).readBuffer_ = t.readBuffer_ ∧ (close t).readOffset_ = t.readOffset_ ∧
    (close t).processed = t.processed := by
  simp only [close]
  split_ifs
  · exact unref_frame _
  · exact ⟨rfl, rfl, rfl⟩

theorem processRecord_frame (off : Nat) (t : CgiTransport) :
    (processRecord off t).2.readBuffer_ = t.readBuffer_ ∧
    (processRecord off t).2.readOffset_ = t.readOffset_ ∧
    (processRecord off t).2.processed = t.processed ++ [off] := by
  simp only [processRecord, onStdOut, onStdErr, onEndRequest]
  split_ifs
  · exact ⟨rfl, rfl, rfl⟩
  · exact ⟨rfl, rfl, rfl⟩
  · exact ⟨rfl, rfl, rfl⟩
  · exact close_frame _
  · exact ⟨rfl, rfl, rfl⟩

/-- The record loop returns when the fuel covers the bytes not yet consumed, and when it
leaves without a handler having stopped it, the bytes left are at most the 8 bytes of a
header, or are fewer than the record they start announces. -/
theorem recordLoop_exit (fuel : Nat) : ∀ t : CgiTransport,
    t.readBuffer_.length - t.readOffset_ ≤ 8 * fuel + 8 →
    ∃ stop r, recordLoop fuel t = some (stop, r) ∧ r.readBuffer_ = t.readBuffer_ ∧
      (stop = false →
        r.readBuffer_.length - r.readOffset_ ≤ 8 ∨
        r.readBuffer_.length - r.readOffset_
          < FastCgi.Record.size r.readBuffer_ r.readOffset_) := by
  induction fuel with
  | zero =>
    intro t h
    have hc : ¬ t.readOffset_ + 8 < t.readBuffer_.length := by omega
    exact ⟨false, t, by simp [recordLoop, hc], rfl, fun _ => Or.inl (by omega)⟩
  | succ n ih =>
    intro t h
    unfold recordLoop
    by_cases hc : t.readOffset_ + 8 < t.readBuffer_.length
    · rw [if_pos hc]
      by_cases hs : t.readBuffer_.length - t.readOffset_
          < FastCgi.Record.size t.readBuffer_ t.readOffset_
      · rw [if_pos hs]
        exact ⟨false, t, rfl, rfl, fun _ => Or.inr hs⟩
      · rw [if_neg hs]
        simp only
        obtain ⟨f1, f2, _⟩ := processRecord_frame t.readOffset_
          { t with readOffset_ := t.readOffset_
              + FastCgi.Record.size t.readBuffer_ t.readOffset_ }
        by_cases hp : (processRecord t.readOffset_
            { t with readOffset_ := t.readOffset_
                + FastCgi.Record.size t.readBuffer_ t.readOffset_ }).1 = true
        · simp only [hp, Bool.not_true, Bool.false_eq_true, if_false]
          have hsz : 8 ≤ FastCgi.Record.size t.readBuffer_ t.readOffset_ := by
            unfold FastCgi.Record.size; omega
          obtain ⟨stop, r, e1, e2, e3⟩ := ih _ (by rw [f1, f2]; simp only; omega)
          exact ⟨stop, r, e1, e2.trans f1, e3⟩
        · have hp1 : (processRecord t.readOffset_
              { t with readOffset_ := t.readOffset_
                  + FastCgi.Record.size t.readBuffer_ t.readOffset_ }).1 = false := by
            simpa using hp
          simp only [hp1, Bool.not_false, if_true]
          exact ⟨true, _, rfl, f1, fun h => absurd h (by decide)⟩
    · rw [if_neg hc]
      exact ⟨false, t, rfl, rfl, fun _ => Or.inl (by omega)⟩

/-- Claim C27, the code at the failing input: the backend sends one complete StdOut record
with empty content and no padding (8 bytes) to a transport with an empty read buffer. After io
the read offset is still 0 and no record was handed to processRecord, although the 8 bytes
left are a whole header and are the whole record that header announces. With one more byte
behind it the same record is processed. -/
theorem io_leaves_bare_record_unprocessed :
    (io true false
        (bound 1 [.data (FastCgi.Record.data FastCgi.Type.StdOut 1 0 0)])).map
        (fun t => (t.readBuffer_.length, t.readOffset_, t.processed, t.stdout))
      = some (8, 0, [], []) ∧
    FastCgi.Record.size (FastCgi.Record.data FastCgi.Type.StdOut 1 0 0) 0 = 8 ∧
    (io true false
        (bound 1 [.data (FastCgi.Record.data FastCgi.Type.StdOut 1 0 0 ++ [1])])).map
        (fun t => (t.readBuffer_.length, t.readOffset_, t.processed, t.stdout))
      = some (9, 8, [0], [[]]) := by
  decide

theorem unrefs_pending (k : Nat) : ∀ (t : CgiTransport) (m : Nat),
    t.refCount_ = (k : Int) + 1 + m →
    (unrefs k t).finished = t.finished ∧ (unrefs k t).request_ = t.request_ ∧
    (unrefs k t).refCount_ = (m : Int) + 1 ∧ (unrefs k t).backendOpen = t.backendOpen ∧
    (unrefs k t).released = t.released := by
  induction k with
  | zero =>
    intro t m h
    refine ⟨rfl, rfl, ?_, rfl, rfl⟩
    show t.refCount_ = (m : Int) + 1
    push_cast at h
    omega
  | succ n ih =>
    intro t m h
    have hne : ¬ (t.refCount_ - 1 = 0) := by
      push_cast at h
      omega
    have e : unref t = { t with refCount_ := t.refCount_ - 1 } := by
      simp [unref, hne]
    simp only [unrefs]
    rw [e]
    obtain ⟨a1, a2, a3, a4, a5⟩ := ih { t with refCount_ := t.refCount_ - 1 } m
      (by simp only; push_cast at h ⊢; omega)
    exact ⟨a1, a2, a3, a4, a5⟩

theorem unref_last (t : CgiTransport) (h : t.refCount_ = 1) (hb : t.backendOpen = false) :
    (unref t).finished
      = t.finished ++ [if t.request_.status = HttpError.Undefined
          then HttpError.ServiceUnavailable else t.request_.status] ∧
    (unref t).request_.status
      = (if t.request_.status = HttpError.Undefined
          then HttpError.ServiceUnavailable else t.request_.status) ∧
    (unref t).released = true ∧ (unref t).backendOpen = false := by
  have e : unref t = destroy { t with refCount_ := t.refCount_ - 1 } := by
    simp [unref, h]
  rw [e]
  simp only [destroy, hb]
  split_ifs with h1 <;> simp [h1]

end CgiTransport

namespace CgiTransport

theorem unrefs_snoc (k : Nat) : ∀ t : CgiTransport, unrefs (k + 1) t = unref (unrefs k t) := by
  induction k with
  | zero => intro t; rfl
  | succ n ih =>
    intro t
    show unrefs (n + 1) (unref t) = unref (unrefs n (unref t))
    exact ih (unref t)

end CgiTransport

namespace CgiTransport

theorem find_first (c : Nat) : ∀ (l rest : List Nat), c ∉ l →
    find [c] (l ++ c :: rest) = some l.length := by
  intro l
  induction l with
  | nil => intro rest _; simp [find, startsWith]
  | cons x xs ih =>
    intro rest h
    simp only [List.mem_cons, not_or] at h
    have hs : startsWith [c] (x :: (xs ++ c :: rest)) = false := by
      simp [startsWith, h.1]
    show find [c] (x :: (xs ++ c :: rest)) = _
    simp only [find, hs, ih rest h.2]
    simp

theorem find_none (c : Nat) : ∀ l : List Nat, c ∉ l → find [c] l = none := by
  intro l
  induction l with
  | nil => intro _; simp [find]
  | cons x xs ih =>
    intro h
    simp only [List.mem_cons, not_or] at h
    have hs : startsWith [c] (x :: xs) = false := by simp [startsWith, h.1]
    simp only [find, hs, ih h.2]
    simp

theorem takeWhile_digits (ds : List Nat) (h : ∀ d ∈ ds, 48 ≤ d ∧ d ≤ 57) :
    ds.takeWhile (fun c => 48 ≤ c && c ≤ 57) = ds := by
  rw [List.takeWhile_eq_self_iff]
  intro d hd
  simp [h d hd]

/-- Claim C28: for a backend response header whose name equals Status ignoring case and whose
value is a string of decimal digits, alone or followed by a space and a reason phrase, with a
code that fits an int, CgiTransport::onMessageHeader sets request.status to that code, leaves
the response headers as they were and returns true. For a header of every other name it
returns true and appends the header, name and value unchanged, to the response headers.
Status: 404 Not Found gives status 404. -/
theorem onMessageHeader_status_and_others (name value : List Nat) (r : HttpRequest) :
    (iequals name (ascii "Status") = true →
      ∀ digits reason : List Nat, (∀ d ∈ digits, 48 ≤ d ∧ d ≤ 57) →
        digitsValue digits < 2147483648 →
        (value = digits ∨ value = digits ++ 32 :: reason) →
        onMessageHeader name value r = (true, { r with status := digitsValue digits })) ∧
    (iequals name (ascii "Status") = false →
      (onMessageHeader name value r).1 = true ∧
      (onMessageHeader name value r).2.responseHeaders
        = r.responseHeaders ++ [(name, value)]) ∧
    onMessageHeader (ascii "status") (ascii "404 Not Found") HttpRequest.fresh
      = (true, { HttpRequest.fresh with status := 404 }) := by
  have e32 : ascii " " = [32] := by decide
  refine ⟨fun hn digits reason hd hfit hv => ?_, fun hn => ?_, by decide⟩
  · have h32 : (32 : Nat) ∉ digits := by
      intro hm
      have := hd 32 hm
      omega
    have hcode : (match find (ascii " ") value with
        | some n => value.take n
        | none => value) = digits := by
      rw [e32]
      rcases hv with hv | hv
      · rw [hv, find_none 32 digits h32]
      · rw [hv, find_first 32 digits reason h32]
        simp
    have hint : (toInt digits).toNat = digitsValue digits := by
      unfold toInt
      rw [takeWhile_digits digits hd,
        RequestParser.wrapInt_of_fits _ (by omega) (by omega)]
      simp
    unfold onMessageHeader
    rw [if_pos hn]
    simp only [hcode, hint]
  · unfold onMessageHeader
    rw [if_neg (by simp [hn])]
    refine ⟨rfl, ?_⟩
    by_cases hl : equals name (ascii "Location") = true
    · simp only [hl, if_true]
    · simp [hl]

/-- Claim C29, the code at the failing input: the backend sends Status: 301 Moved Permanently
and then Location: /new. After the first header the status is 301; the second sets it to 302
although it was set, and appends the Location header. For every request and value a header
named Location leaves the status 302. -/
theorem onMessageHeader_location_overrides_status (value : List Nat) (r : HttpRequest) :
    (onMessageHeader (ascii "Status") (ascii "301 Moved Permanently")
        HttpRequest.fresh).2.status = 301 ∧
    (onMessageHeader (ascii "Location") (ascii "/new")
        (onMessageHeader (ascii "Status") (ascii "301 Moved Permanently")
          HttpRequest.fresh).2).2.status = 302 ∧
    (onMessageHeader (ascii "Location") (ascii "/new")
        (onMessageHeader (ascii "Status") (ascii "301 Moved Permanently")
          HttpRequest.fresh).2).2.responseHeaders = [(ascii "Location", ascii "/new")] ∧
    (onMessageHeader (ascii "Location") value r).2.status = HttpError.MovedTemporarily ∧
    (onMessageHeader (ascii "Location") value r).2.responseHeaders
      = r.responseHeaders ++ [(ascii "Location", value)] := by
  refine ⟨by decide, by decide, by decide, ?_, ?_⟩
  · have h1 : iequals (ascii "Location") (ascii "Status") = false := by decide
    have h2 : equals (ascii "Location") (ascii "Location") = true := by decide
    simp [onMessageHeader, h1, h2]
  · have h1 : iequals (ascii "Location") (ascii "Status") = false := by decide
    have h2 : equals (ascii "Location") (ascii "Location") = true := by decide
    simp [onMessageHeader, h1, h2]

end CgiTransport

/-! ## CgiTransport::io: end of stream, records inside the read buffer -/

namespace CgiTransport

/-- The read loop over reads that bring data and then the end of the stream. -/
theorem readLoop_data_then_eof (bs : List (List Nat)) (rest : List ReadResult) :
    ∀ t : CgiTransport,
      readLoop (bs.map ReadResult.data ++ .eof :: rest) t
        = (true, { t with reads := rest, readBuffer_ := t.readBuffer_ ++ bs.flatten }) := by
  induction bs with
  | nil => intro t; simp [readLoop]
  | cons b bs ih =>
    intro t
    show readLoop (ReadResult.data b :: (bs.map ReadResult.data ++ .eof :: rest)) t = _
    rw [readLoop, ih]
    simp

/-- Giving up the references to a transport whose backend is closed: the request is finished
by the last one, with the status it had, or 503 when that was Undefined. -/
theorem last_reference_finishes (tX : CgiTransport) (n : Nat)
    (hrc : tX.refCount_ = (n : Int) + 1) (hb : tX.backendOpen = false) :
    (unref tX).backendOpen = false ∧
    (∀ k, k < n → (unrefs k (unref tX)).finished = tX.finished) ∧
    (unrefs n (unref tX)).finished
      = tX.finished ++ [if tX.request_.status = HttpError.Undefined
          then HttpError.ServiceUnavailable else tX.request_.status] ∧
    (unrefs n (unref tX)).request_.status
      = (if tX.request_.status = HttpError.Undefined
          then HttpError.ServiceUnavailable else tX.request_.status) ∧
    (unrefs n (unref tX)).released = true := by
  have hp := unrefs_pending n tX 0 (by omega)
  have hlast := unref_last (unrefs n tX) (by simpa using hp.2.2.1) (by rw [hp.2.2.2.1, hb])
  rw [hp.1, hp.2.1] at hlast
  refine ⟨?_, ?_, ?_, ?_, ?_⟩
  · cases n with
    | zero => exact (unref_last tX (by simpa using hrc) hb).2.2.2
    | succ m =>
      have := unrefs_pending 1 tX m (by push_cast at hrc ⊢; omega)
      rw [show unrefs 1 tX = unref tX from rfl] at this
      rw [this.2.2.2.1, hb]
  · intro k hk
    have := unrefs_pending (k + 1) tX (n - k - 1) (by push_cast; omega)
    rw [show unrefs k (unref tX) = unrefs (k + 1) tX from rfl, this.1]
  · rw [show unrefs n (unref tX) = unrefs (n + 1) tX from rfl, unrefs_snoc]
    exact hlast.1
  · rw [show unrefs n (unref tX) = unrefs (n + 1) tX from rfl, unrefs_snoc]
    exact hlast.2.1
  · rw [show unrefs n (unref tX) = unrefs (n + 1) tX from rfl, unrefs_snoc]
    exact hlast.2.2.1

/-- Claim C31 as stated fails: the backend closes the stream at the first read of a new
transport, before any record. io closes the backend and the request is finished once, with
status 503, not 502. -/
theorem eof_finishes_with_503 :
    (io true false atEof).map (fun t => (t.backendOpen, t.finished, t.request_.status))
      = some (false, [HttpError.ServiceUnavailable], HttpError.ServiceUnavailable) ∧
    HttpError.ServiceUnavailable ≠ HttpError.BadGateway := by
  decide

/-- Claim C31, amended: when a read from the backend returns zero in io, after reads that
brought data or none, the transport closes the backend without processing a record in this
call, and the request is finished exactly once, when the last reference to the transport is
given up: with the status it already had, or with 503 when that was still Undefined. -/
theorem eof_closes_and_finishes_once (t : CgiTransport) (n : Nat) (bs : List (List Nat))
    (rest : List ReadResult) (write : Bool)
    (hopen : t.backendOpen = true)
    (hreads : t.reads = bs.map ReadResult.data ++ .eof :: rest)
    (hrc : t.refCount_ = (n : Int) + 1) :
    ∃ t1, io true write t = some t1 ∧
      t1.backendOpen = false ∧
      t1.processed = t.processed ∧
      (∀ k, k < n → (unrefs k t1).finished = t.finished) ∧
      (unrefs n t1).finished
        = t.finished ++ [if t.request_.status = HttpError.Undefined
            then HttpError.ServiceUnavailable else t.request_.status] ∧
      (unrefs n t1).request_.status
        = (if t.request_.status = HttpError.Undefined
            then HttpError.ServiceUnavailable else t.request_.status) ∧
      (unrefs n t1).released = true := by
  obtain ⟨tX, hX⟩ : ∃ tX : CgiTransport, tX = { t with
      reads := rest, readBuffer_ := t.readBuffer_ ++ bs.flatten, backendOpen := false } :=
    ⟨_, rfl⟩
  have hne : ¬ (t.refCount_ + 1 - 1 = 0) := by omega
  have hclose : close { ref t with
      reads := rest, readBuffer_ := (ref t).readBuffer_ ++ bs.flatten } = tX := by
    simp only [close, ref, hopen, unref, hne, if_true, if_false, hX]
    congr 1
    omega
  have hio : io true write t = some (unref tX) := by
    simp only [io, ioRead, if_true]
    rw [show (ref t).reads = bs.map ReadResult.data ++ .eof :: rest from hreads,
      readLoop_data_then_eof]
    simp only [if_true, ioLeave]
    rw [hclose]
  obtain ⟨a1, a2, a3, a4, a5⟩ := last_reference_finishes tX n (by rw [hX]; exact hrc)
    (by rw [hX])
  have hfin : tX.finished = t.finished := by rw [hX]
  have hreq : tX.request_ = t.request_ := by rw [hX]
  rw [hfin] at a2 a3
  rw [hreq] at a3 a4
  exact ⟨unref tX, hio, a1, by rw [(unref_frame tX).2.2, hX], a2, a3, a4, a5⟩

theorem eof_closes_and_finishes_once_witness :
    ∃ t1, io true false atEof = some t1 ∧
      t1.backendOpen = false ∧
      t1.processed = atEof.processed ∧
      (∀ k, k < 0 → (unrefs k t1).finished = atEof.finished) ∧
      (unrefs 0 t1).finished
        = atEof.finished ++ [if atEof.request_.status = HttpError.Undefined
            then HttpError.ServiceUnavailable else atEof.request_.status] ∧
      (unrefs 0 t1).request_.status
        = (if atEof.request_.status = HttpError.Undefined
            then HttpError.ServiceUnavailable else atEof.request_.status) ∧
      (unrefs 0 t1).released = true :=
  eof_closes_and_finishes_once atEof 0 [] [] false (by decide) (by decide) (by decide)

end CgiTransport

namespace CgiTransport

theorem record_size_ge (buf : Buffer) (off : Nat) : 8 ≤ FastCgi.Record.size buf off := by
  unfold FastCgi.Record.size
  omega

theorem record_size_append (buf extra : Buffer) (off : Nat) (h : off + 8 ≤ buf.length) :
    FastCgi.Record.size (buf ++ extra) off = FastCgi.Record.size buf off := by
  have g : ∀ k, k < 8 → (buf ++ extra).getD (off + k) 0 = buf.getD (off + k) 0 := by
    intro k hk
    simp only [List.getD_eq_getElem?_getD]
    rw [List.getElem?_append_left (by omega)]
  simp only [FastCgi.Record.size, FastCgi.Record.contentLength, FastCgi.Record.paddingLength,
    g 4 (by omega), g 5 (by omega), g 6 (by omega)]

/-- The read side of a state decides recordsInside. -/
theorem recordsInside_of_frame (t r : CgiTransport) (h : t.recordsInside)
    (h1 : r.readBuffer_ = t.readBuffer_) (h2 : r.readOffset_ = t.readOffset_)
    (h3 : r.processed = t.processed) : r.recordsInside := by
  unfold recordsInside at *
  rw [h1, h2, h3]
  exact h

theorem recordsInside_append (t : CgiTransport) (extra : List Nat) (h : t.recordsInside) :
    ({ t with readBuffer_ := t.readBuffer_ ++ extra } : CgiTransport).recordsInside := by
  obtain ⟨h1, h2⟩ := h
  refine ⟨?_, fun off hoff => ?_⟩
  · simp only [List.length_append]
    omega
  · have := h2 off hoff
    have h8 := record_size_ge t.readBuffer_ off
    show off + FastCgi.Record.size (t.readBuffer_ ++ extra) off
      ≤ (t.readBuffer_ ++ extra).length
    rw [record_size_append _ _ _ (by omega)]
    simp only [List.length_append]
    omega

theorem recordsInside_readLoop (l : List ReadResult) : ∀ t : CgiTransport,
    t.recordsInside →
      (readLoop l t).2.recordsInside ∧ (readLoop l t).2.processed = t.processed := by
  induction l with
  | nil => intro t h; exact ⟨h, rfl⟩
  | cons x rest ih =>
    intro t h
    cases x with
    | data bytes =>
      rw [readLoop]
      have h1 := recordsInside_append t bytes h
      have := ih { t with reads := rest, readBuffer_ := t.readBuffer_ ++ bytes }
        (recordsInside_of_frame _ _ h1 rfl rfl rfl)
      exact this
    | eof =>
      rw [readLoop]
      exact ⟨recordsInside_of_frame _ _ h rfl rfl rfl, rfl⟩
    | failed errno =>
      have e : (readLoop (.failed errno :: rest) t).2 = { t with reads := rest } := by
        cases errno <;> rfl
      rw [e]
      exact ⟨recordsInside_of_frame _ _ h rfl rfl rfl, rfl⟩

theorem recordsInside_recordLoop (fuel : Nat) : ∀ t : CgiTransport,
    t.recordsInside → t.readBuffer_.length - t.readOffset_ ≤ 8 * fuel + 8 →
    ∃ stop r, recordLoop fuel t = some (stop, r) ∧ r.recordsInside ∧
      ∃ more, r.processed = t.processed ++ more := by
  induction fuel with
  | zero =>
    intro t h hf
    have hc : ¬ t.readOffset_ + 8 < t.readBuffer_.length := by omega
    exact ⟨false, t, by simp [recordLoop, hc], h, [], by simp⟩
  | succ n ih =>
    intro t h hf
    unfold recordLoop
    by_cases hc : t.readOffset_ + 8 < t.readBuffer_.length
    · rw [if_pos hc]
      by_cases hs : t.readBuffer_.length - t.readOffset_
          < FastCgi.Record.size t.readBuffer_ t.readOffset_
      · rw [if_pos hs]
        exact ⟨false, t, rfl, h, [], by simp⟩
      · rw [if_neg hs]
        simp only
        obtain ⟨f1, f2, f3⟩ := processRecord_frame t.readOffset_
          { t with readOffset_ := t.readOffset_
              + FastCgi.Record.size t.readBuffer_ t.readOffset_ }
        have h8 := record_size_ge t.readBuffer_ t.readOffset_
        have hin : (processRecord t.readOffset_
            { t with readOffset_ := t.readOffset_
                + FastCgi.Record.size t.readBuffer_ t.readOffset_ }).2.recordsInside := by
          obtain ⟨h1, h2⟩ := h
          refine ⟨by rw [f1, f2]; simp only; omega, fun off hoff => ?_⟩
          rw [f3] at hoff
          rw [f1]
          simp only [List.mem_append, List.mem_singleton] at hoff
          rcases hoff with hoff | hoff
          · exact h2 off hoff
          · subst hoff
            simp only
            omega
        by_cases hp : (processRecord t.readOffset_
            { t with readOffset_ := t.readOffset_
                + FastCgi.Record.size t.readBuffer_ t.readOffset_ }).1 = true
        · simp only [hp, Bool.not_true, Bool.false_eq_true, if_false]
          obtain ⟨stop, r, e1, e2, more, e3⟩ := ih _ hin (by rw [f1, f2]; simp only; omega)
          exact ⟨stop, r, e1, e2, t.readOffset_ :: more, by rw [e3, f3]; simp⟩
        · have hp1 : (processRecord t.readOffset_
              { t with readOffset_ := t.readOffset_
                  + FastCgi.Record.size t.readBuffer_ t.readOffset_ }).1 = false := by
            simpa using hp
          simp only [hp1, Bool.not_false, if_true]
          exact ⟨true, _, rfl, hin, [t.readOffset_], f3⟩
    · rw [if_neg hc]
      exact ⟨false, t, rfl, h, [], by simp⟩

theorem recordsInside_ioLeave (exit : IoExit) (t : CgiTransport) (h : t.recordsInside) :
    (ioLeave exit t).recordsInside ∧ (ioLeave exit t).processed = t.processed := by
  cases exit
  · exact ⟨recordsInside_of_frame _ _ h (unref_frame t).1 (unref_frame t).2.1
      (unref_frame t).2.2, (unref_frame t).2.2⟩
  · have c := close_frame t
    have u := unref_frame (close t)
    exact ⟨recordsInside_of_frame _ _ h (u.1.trans c.1) (u.2.1.trans c.2.1)
      (u.2.2.trans c.2.2), u.2.2.trans c.2.2⟩
  · exact ⟨recordsInside_of_frame _ _ h (unref_frame t).1 (unref_frame t).2.1
      (unref_frame t).2.2, (unref_frame t).2.2⟩

theorem ioWrite_frame (t : CgiTransport) :
    (ioWrite t).2.readBuffer_ = t.readBuffer_ ∧ (ioWrite t).2.readOffset_ = t.readOffset_ ∧
    (ioWrite t).2.processed = t.processed := by
  unfold ioWrite
  cases hw : t.writes with
  | nil => exact ⟨rfl, rfl, rfl⟩
  | cons w rest =>
    simp only
    split_ifs
    · cases w.errno <;> exact ⟨rfl, rfl, rfl⟩
    · exact ⟨rfl, rfl, rfl⟩
    · exact ⟨rfl, rfl, rfl⟩

/-- Claim C39: a new transport has its read offset inside its read buffer and no record
processed; every call of io, whatever the events and whatever the backend then reads and
writes, returns and keeps this: afterwards readOffset_ <= readBuffer_.size(), and every record
handed to processRecord, before or in this call, lies wholly inside the read buffer: the
offset of its header plus 8 + contentLength + paddingLength is at most readBuffer_.size(). -/
theorem io_keeps_records_inside (id : Nat) (reads : List ReadResult) (t : CgiTransport)
    (read write : Bool) :
    (bound id reads).recordsInside ∧
    (t.recordsInside →
      ∃ t1, io read write t = some t1 ∧ t1.recordsInside ∧
        (∃ more, t1.processed = t.processed ++ more) ∧
        t1.readOffset_ ≤ t1.readBuffer_.length ∧
        ∀ off ∈ t1.processed,
          off + (8 + FastCgi.Record.contentLength t1.readBuffer_ off
            + FastCgi.Record.paddingLength t1.readBuffer_ off) ≤ t1.readBuffer_.length) := by
  constructor
  · exact ⟨Nat.le_refl _, fun off hoff => by simp [bound] at hoff⟩
  · intro h
    have h0 : (ref t).recordsInside := recordsInside_of_frame _ _ h rfl rfl rfl
    have fin : ∀ t1 : CgiTransport, t1.recordsInside → (∃ more, t1.processed = t.processed ++ more) →
        t1.recordsInside ∧ (∃ more, t1.processed = t.processed ++ more) ∧
        t1.readOffset_ ≤ t1.readBuffer_.length ∧
        ∀ off ∈ t1.processed,
          off + (8 + FastCgi.Record.contentLength t1.readBuffer_ off
            + FastCgi.Record.paddingLength t1.readBuffer_ off) ≤ t1.readBuffer_.length :=
      fun t1 a b => ⟨a, b, a.1, a.2⟩
    have leave : ∀ (exit : IoExit) (t1 : CgiTransport), t1.recordsInside →
        (∃ more, t1.processed = t.processed ++ more) →
        (ioLeave exit t1).recordsInside ∧
          (∃ more, (ioLeave exit t1).processed = t.processed ++ more) := by
      intro exit t1 a b
      obtain ⟨l1, l2⟩ := recordsInside_ioLeave exit t1 a
      exact ⟨l1, by rw [l2]; exact b⟩
    have next : ∀ t1 : CgiTransport, t1.recordsInside →
        (∃ more, t1.processed = t.processed ++ more) →
        ∃ t2, (if write then some (ioLeave (ioWrite t1).1 (ioWrite t1).2)
            else some (ioLeave .done t1)) = some t2 ∧ t2.recordsInside ∧
          (∃ more, t2.processed = t.processed ++ more) := by
      intro t1 a b
      cases write with
      | false =>
        obtain ⟨l1, l2⟩ := leave .done t1 a b
        exact ⟨_, rfl, l1, l2⟩
      | true =>
        obtain ⟨w1, w2, w3⟩ := ioWrite_frame t1
        obtain ⟨l1, l2⟩ := leave (ioWrite t1).1 (ioWrite t1).2
          (recordsInside_of_frame _ _ a w1 w2 w3) (by rw [w3]; exact b)
        exact ⟨_, rfl, l1, l2⟩
    cases read with
    | false =>
      obtain ⟨t2, e, a, b⟩ := next (ref t) h0 ⟨[], by simp [ref]⟩
      refine ⟨t2, ?_, fin t2 a b⟩
      simp only [io, Bool.false_eq_true, if_false]
      exact e
    | true =>
      obtain ⟨r1, r2⟩ := recordsInside_readLoop (ref t).reads (ref t) h0
      by_cases hx : (readLoop (ref t).reads (ref t)).1 = true
      · obtain ⟨l1, l2⟩ := leave .app_err _ r1 ⟨[], by rw [r2]; simp [ref]⟩
        refine ⟨_, ?_, fin _ l1 l2⟩
        simp only [io, ioRead, if_true, hx]
      · have hx1 : (readLoop (ref t).reads (ref t)).1 = false := by simpa using hx
        obtain ⟨stop, r, e1, e2, more, e3⟩ :=
          recordsInside_recordLoop (readLoop (ref t).reads (ref t)).2.readBuffer_.length _ r1
            (by omega)
        have hb : ∃ more, r.processed = t.processed ++ more :=
          ⟨more, by rw [e3, r2]; rfl⟩
        cases stop with
        | true =>
          obtain ⟨l1, l2⟩ := leave .done r e2 hb
          refine ⟨_, ?_, fin _ l1 l2⟩
          simp only [io, ioRead, if_true, hx1, e1, if_false, Bool.false_eq_true]
        | false =>
          obtain ⟨t2, e, a, b⟩ := next r e2 hb
          refine ⟨t2, ?_, fin t2 a b⟩
          simp only [io, ioRead, if_true, hx1, e1, if_false, Bool.false_eq_true]
          exact e

end CgiTransport

/-! ## url_decode on failure, pipelined input at resume, the expire plugin -/

/-- Claim C37, the code at the failing input: url_decode on the range a+b% of a buffer returns
false at the percent sign that has no two characters behind it, and keeps the reference; the
plus before it has by then been overwritten with a space, so the buffer is not as it was.
For every call that returns false the reference is the old one. -/
theorem url_decode_false_has_written (value : Buffer) (url : BufferRef) :
    url_decode (ascii "a+b% HTTP/1.1") ⟨0, 4⟩ = some (false, ascii "a b% HTTP/1.1", ⟨0, 4⟩) ∧
    ascii "a b% HTTP/1.1" ≠ ascii "a+b% HTTP/1.1" ∧
    (∀ value1 url1, url_decode value url = some (false, value1, url1) → url1 = url) := by
  refine ⟨by decide, by decide, ?_⟩
  intro value1 url1 h
  unfold url_decode at h
  simp only at h
  split at h
  · exact absurd h (by simp)
  · simp only [Option.some.injEq, Prod.mk.injEq] at h
    exact absurd h.1 (by decide)
  · simp only [Option.some.injEq, Prod.mk.injEq] at h
    exact h.2.2.symm

namespace HttpConnection

/-- Claim C34, the code at the failing input: a keep-alive connection has answered GET /a
while the 19 bytes of GET /b stand unparsed behind inputOffset_ = 19. resume() outside a
socket callback sets the status to ReadingRequest and clears the request, and that is all:
the input offset is still 19, no request has been handed to the worker, and the socket
watcher is as before, so the bytes wait for the next read event. In general processResume
with unparsed input changes only the Resuming flag, the request and the status. -/
theorem resume_leaves_pipelined_bytes_unparsed (c : HttpConnection) :
    pipelined.inputOffset_ < pipelined.input_.length ∧
    (resume pipelined).status_ = .ReadingRequest ∧
    (resume pipelined).inputOffset_ = 19 ∧
    (resume pipelined).input_ = pipelined.input_ ∧
    (resume pipelined).request_ = HttpRequest.fresh ∧
    (resume pipelined).handled = [] ∧
    (resume pipelined).socketMode = pipelined.socketMode ∧
    (resume pipelined).socketTimeout = pipelined.socketTimeout ∧
    (c.inputOffset_ < c.input_.length →
      processResume c
        = { c with flags_ := { c.flags_ with IsResuming := false },
                   request_ := HttpRequest.fresh, status_ := .ReadingRequest }) := by
  refine ⟨by decide, by decide, by decide, by decide, by decide, by decide, by decide,
    by decide, fun h => ?_⟩
  unfold processResume
  simp only [if_pos h, HttpRequest.clear]

end HttpConnection

namespace HeaderList

theorem findHeader_name (n : List Nat) :
    ∀ (l : List (List Nat × List Nat)) (i : Nat), findHeader n l = some i →
      iequals (c_str (l.getD i ([], [])).1) (c_str n) = true := by
  intro l
  induction l with
  | nil => intro i h; simp [findHeader] at h
  | cons item rest ih =>
    intro i h
    simp only [findHeader] at h
    split_ifs at h with hm
    · simp only [Option.some.injEq] at h
      subst h
      exact hm
    · cases hf : findHeader n rest with
      | none => rw [hf] at h; simp at h
      | some j =>
        rw [hf] at h
        simp only [Option.map_some', Option.some.injEq] at h
        subst h
        exact ih j hf

theorem findHeader_append_other (n n1 v : List Nat)
    (h : iequals (c_str n) (c_str n1) = false) :
    ∀ l : List (List Nat × List Nat), findHeader n1 (l ++ [(n, v)]) = findHeader n1 l := by
  intro l
  induction l with
  | nil => simp [findHeader, h]
  | cons item rest ih =>
    show findHeader n1 (item :: (rest ++ [(n, v)])) = _
    simp only [findHeader, ih]

/-- After overwrite(n, v) the list contains n, and its value is v. -/
theorem get_overwrite (L : HeaderList) (n v : List Nat) :
    (L.overwrite n v).contains n = true ∧ (L.overwrite n v).get n = v := by
  cases hf : findHeader n L.headers with
  | none =>
    have hf1 := findHeader_push_back n v _ hf
    simp [overwrite, hf, contains, get, push_back, hf1]
  | some i =>
    have hi := findHeader_lt n _ i hf
    have hf1 : findHeader n (L.headers.set i ((L.headers.getD i ([], [])).1, v)) = some i := by
      rw [findHeader_names n _ L.headers (set_names _ _ _), hf]
    have e : L.overwrite n v
        = { L with headers := L.headers.set i ((L.headers.getD i ([], [])).1, v) } := by
      unfold overwrite
      simp only [hf]
    rw [e]
    refine ⟨?_, ?_⟩
    · show (findHeader n (L.headers.set i ((L.headers.getD i ([], [])).1, v))).isSome = true
      rw [hf1]
      rfl
    · simp only [get, hf1]
      simp [List.getD_eq_getElem?_getD, hi]

/-- The function overwrite(n, v) leaves the lookup of every name that differs from n as it
was. -/
theorem get_overwrite_other (L : HeaderList) (n n1 v : List Nat)
    (h : iequals (c_str n) (c_str n1) = false) :
    (L.overwrite n v).contains n1 = L.contains n1 ∧ (L.overwrite n v).get n1 = L.get n1 := by
  cases hf : findHeader n L.headers with
  | none =>
    have hf1 := findHeader_append_other n n1 v h L.headers
    have e : L.overwrite n v = L.push_back n v := by
      unfold overwrite
      simp only [hf]
    rw [e]
    refine ⟨by simp only [contains, push_back, hf1], ?_⟩
    simp only [get, push_back, hf1]
    cases hg : findHeader n1 L.headers with
    | none => rfl
    | some j =>
      have hj := findHeader_lt n1 _ j hg
      simp [List.getD_eq_getElem?_getD, List.getElem?_append_left hj]
  | some i =>
    have hf1 : findHeader n1 (L.headers.set i ((L.headers.getD i ([], [])).1, v))
        = findHeader n1 L.headers :=
      findHeader_names n1 _ L.headers (set_names _ _ _)
    have e : L.overwrite n v
        = { L with headers := L.headers.set i ((L.headers.getD i ([], [])).1, v) } := by
      unfold overwrite
      simp only [hf]
    rw [e]
    refine ⟨by simp only [contains, hf1], ?_⟩
    simp only [get, hf1]
    cases hg : findHeader n1 L.headers with
    | none => rfl
    | some j =>
      have hne : i ≠ j := by
        intro hij
        subst hij
        have a := findHeader_name n _ i hf
        have b := findHeader_name n1 _ i hg
        simp only [iequals, beq_iff_eq] at a b
        have : iequals (c_str n) (c_str n1) = true := by
          simp only [iequals, beq_iff_eq]
          rw [← a, b]
        rw [h] at this
        exact absurd this (by decide)
      simp [List.getD_eq_getElem?_getD, List.getElem?_set_ne hne]

end HeaderList

namespace ExpirePlugin

/-- Claim C40: for all integer times now and mtime and every argument v, ExpirePlugin::expire
computes e = max(now, v1) with v1 = v + now when v < mtime and v1 = v otherwise, where mtime
is now when the request has no fileinfo, and overwrites both headers: afterwards the response
headers contain Expires and Cache-Control, the value of Expires is the HTTP date of e and the
value of Cache-Control is max-age= followed by e - now, and the lookup of every other name is
as before. So e >= now and the max-age is not negative. Without an argument the headers are
left as they were. -/
theorem expire_spec (http_str number : Int → List Nat) (v : Int) (rest : List Int)
    (now : Int) (fileinfo : Option Int) (L : HeaderList) :
    expiry now (fileinfo.getD now) v = max now (if v < fileinfo.getD now then v + now else v) ∧
    expire http_str number (v :: rest) now fileinfo L
      = (L.overwrite (ascii "Expires")
          (http_str (expiry now (fileinfo.getD now) v))).overwrite (ascii "Cache-Control")
          (ascii "max-age=" ++ number (expiry now (fileinfo.getD now) v - now)) ∧
    (expire http_str number (v :: rest) now fileinfo L).contains (ascii "Expires") = true ∧
    (expire http_str number (v :: rest) now fileinfo L).get (ascii "Expires")
      = http_str (expiry now (fileinfo.getD now) v) ∧
    (expire http_str number (v :: rest) now fileinfo L).contains (ascii "Cache-Control")
      = true ∧
    (expire http_str number (v :: rest) now fileinfo L).get (ascii "Cache-Control")
      = ascii "max-age=" ++ number (expiry now (fileinfo.getD now) v - now) ∧
    (∀ n : List Nat, iequals (c_str (ascii "Expires")) (c_str n) = false →
      iequals (c_str (ascii "Cache-Control")) (c_str n) = false →
      (expire http_str number (v :: rest) now fileinfo L).contains n = L.contains n ∧
      (expire http_str number (v :: rest) now fileinfo L).get n = L.get n) ∧
    now ≤ expiry now (fileinfo.getD now) v ∧
    0 ≤ expiry now (fileinfo.getD now) v - now ∧
    expire http_str number [] now fileinfo L = L := by
  have e1 : expiry now (fileinfo.getD now) v
      = max now (if v < fileinfo.getD now then v + now else v) := by
    unfold expiry
    simp only
    split_ifs <;> omega
  have e2 : now ≤ expiry now (fileinfo.getD now) v := by
    rw [e1]
    exact le_max_left _ _
  have e3 : expire http_str number (v :: rest) now fileinfo L
      = (L.overwrite (ascii "Expires")
          (http_str (expiry now (fileinfo.getD now) v))).overwrite (ascii "Cache-Control")
          (ascii "max-age=" ++ number (expiry now (fileinfo.getD now) v - now)) := by
    cases fileinfo <;> rfl
  have hd : iequals (c_str (ascii "Cache-Control")) (c_str (ascii "Expires")) = false := by
    decide
  have hcc := HeaderList.get_overwrite
    (L.overwrite (ascii "Expires") (http_str (expiry now (fileinfo.getD now) v)))
    (ascii "Cache-Control") (ascii "max-age=" ++ number (expiry now (fileinfo.getD now) v - now))
  have hex := HeaderList.get_overwrite L (ascii "Expires")
    (http_str (expiry now (fileinfo.getD now) v))
  have hother := HeaderList.get_overwrite_other
    (L.overwrite (ascii "Expires") (http_str (expiry now (fileinfo.getD now) v)))
    (ascii "Cache-Control") (ascii "Expires")
    (ascii "max-age=" ++ number (expiry now (fileinfo.getD now) v - now)) hd
  refine ⟨e1, e3, ?_, ?_, ?_, ?_, fun n h1 h2 => ?_, e2, by omega, rfl⟩
  · rw [e3, hother.1]
    exact hex.1
  · rw [e3, hother.2]
    exact hex.2
  · rw [e3]
    exact hcc.1
  · rw [e3]
    exact hcc.2
  · rw [e3]
    have a := HeaderList.get_overwrite_other
      (L.overwrite (ascii "Expires") (http_str (expiry now (fileinfo.getD now) v)))
      (ascii "Cache-Control") n
      (ascii "max-age=" ++ number (expiry now (fileinfo.getD now) v - now)) h2
    have b := HeaderList.get_overwrite_other L (ascii "Expires") n
      (http_str (expiry now (fileinfo.getD now) v)) h1
    exact ⟨a.1.trans b.1, a.2.trans b.2⟩

end ExpirePlugin

/-! ## composite_buffer -/

namespace composite_buffer

/-- Claim C32, the code at the failing input: after push_back(std::string ab) and
push_back(std::string cd) on an empty buffer, size() is 2 although 4 bytes were pushed: the
one string chunk holds abcd and its size field says 2. After push_back of the empty string and
of the string x, empty() holds although one byte was pushed. In general push_back of a string
onto a buffer whose last chunk is a string chunk leaves size() as it was. -/
theorem string_onto_string_not_counted (b : composite_buffer) (value : List Nat) :
    (pushAll [.string (ascii "ab"), .string (ascii "cd")] empty_buffer).size = 2 ∧
    ([Push.string (ascii "ab"), Push.string (ascii "cd")].map Push.bytes).sum = 4 ∧
    (pushAll [.string (ascii "ab"), .string (ascii "cd")] empty_buffer).chunks
      = [{ string_chunk (ascii "abcd") with size := 2 }] ∧
    (pushAll [.string [], .string (ascii "x")] empty_buffer).empty = true ∧
    ([Push.string [], Push.string (ascii "x")].map Push.bytes).sum = 1 ∧
    (∀ back, b.chunks.getLast? = some back → back.type = .cstring →
      (push_back_string value b).size = b.size) := by
  refine ⟨by decide, by decide, by decide, by decide, by decide, ?_⟩
  intro back h1 h2
  simp [push_back_string, h1, h2, size]

theorem chunk_write_done (socket : List (Option Nat)) :
    ∀ (total : Int) (c : chunk) (rv : Int) (c1 : chunk) (s1 : List (Option Nat)),
      chunk_write socket total c = some (rv, c1, s1) → rv ≠ -1 → c1.size = 0 := by
  induction socket with
  | nil =>
    intro total c rv c1 s1 h hrv
    unfold chunk_write at h
    by_cases hs : c.size ≠ 0
    · rw [if_pos hs] at h
      exact absurd h (by simp)
    · rw [if_neg hs] at h
      simp only [Option.some.injEq, Prod.mk.injEq] at h
      rw [← h.2.1]
      simpa using hs
  | cons accepts rest ih =>
    intro total c rv c1 s1 h hrv
    unfold chunk_write at h
    by_cases hs : c.size ≠ 0
    · rw [if_pos hs] at h
      simp only at h
      by_cases hw : (write_some accepts c).1 ≠ -1
      · rw [if_pos hw] at h
        exact ih _ _ rv c1 s1 h hrv
      · rw [if_neg hw] at h
        simp only [Option.some.injEq, Prod.mk.injEq] at h
        exact absurd (h.1.symm.trans (by simpa using hw)) hrv
    · rw [if_neg hs] at h
      simp only [Option.some.injEq, Prod.mk.injEq] at h
      rw [← h.2.1]
      simpa using hs

theorem write_loop_done (chunks : List chunk) :
    ∀ (socket : List (Option Nat)) (nwritten : Int) (size_ : Nat) (rv : Int)
      (b1 : composite_buffer) (s1 : List (Option Nat)),
      size_ < 2 ^ 64 →
      write_loop chunks socket nwritten size_ = some (rv, b1, s1) → rv ≠ -1 →
      b1.chunks = [] ∧ b1.size_ = size_ := by
  induction chunks with
  | nil =>
    intro socket nwritten size_ rv b1 s1 _ h _
    simp only [write_loop, Option.some.injEq, Prod.mk.injEq] at h
    rw [← h.2.1]
    exact ⟨rfl, rfl⟩
  | cons front next ih =>
    intro socket nwritten size_ rv b1 s1 hlt h hrv
    simp only [write_loop] at h
    cases hc : chunk_write socket 0 front with
    | none => rw [hc] at h; exact absurd h (by simp)
    | some res =>
      obtain ⟨rv0, front1, socket1⟩ := res
      rw [hc] at h
      simp only at h
      by_cases hr : rv0 ≠ -1
      · rw [if_pos hr] at h
        have hz := chunk_write_done socket 0 front rv0 front1 socket1 hc hr
        rw [hz] at h
        have e : (size_ + 2 ^ 64 - 0) % 2 ^ 64 = size_ := by omega
        rw [e] at h
        exact ih _ _ _ rv b1 s1 hlt h hrv
      · rw [if_neg hr] at h
        simp only [Option.some.injEq, Prod.mk.injEq] at h
        exact absurd h.1.symm hrv

/-- Claim C33, the code at the failing input: a buffer holds the one string chunk ab (size()
2) and the socket takes all bytes offered. write returns 2 and no chunk is left, but size()
is still 2 and empty() does not hold. In general, whenever write returns a value other than
-1 no chunk is left and size() is what it was before the call. -/
theorem write_keeps_size (socket : List (Option Nat)) (b : composite_buffer) :
    write [some 10] (push_back_string (ascii "ab") empty_buffer)
      = some (2, { chunks := [], size_ := 2 }, []) ∧
    (push_back_string (ascii "ab") empty_buffer).size = 2 ∧
    size { chunks := [], size_ := 2 } = 2 ∧
    empty { chunks := [], size_ := 2 } = false ∧
    (b.size_ < 2 ^ 64 → ∀ rv b1 s1, write socket b = some (rv, b1, s1) → rv ≠ -1 →
      b1.chunks = [] ∧ b1.size = b.size) := by
  refine ⟨by decide, by decide, by decide, by decide, ?_⟩
  intro hlt rv b1 s1 h hrv
  exact write_loop_done b.chunks socket 0 b.size_ rv b1 s1 hlt h hrv

end composite_buffer

/-! ## request_parser: the path behind the request URI -/

namespace RequestParser

theorem withUri_fields (r : Request) (U : List Nat) :
    (r.withUri U).uri = U ∧ (r.withUri U).path = pathOf U := by
  unfold Request.withUri pathOf
  obtain hf | ⟨n, hf⟩ := Option.eq_none_or_eq_some (find [63] U)
  · simp [hf]
  · simp [hf]

/-- The step of consume at the space that ends the request URI. -/
theorem consume_uri_space (hexValue : Nat → Nat → Option Int) (r : Request) :
    consume hexValue .uri r 32
      = match url_decode hexValue r.uri with
        | none => ⟨.bad_request, .uri, r⟩
        | some U =>
          if (pathOf U).isEmpty || (pathOf U).head? ≠ some 47
              || (find [46, 46] (pathOf U)).isSome then
            ⟨.bad_request, .uri, r.withUri U⟩
          else ⟨.indeterminate, .http_version_h, r.withUri U⟩ := by
  simp only [consume, if_true]
  cases url_decode hexValue r.uri with
  | none => rfl
  | some U =>
    obtain hf | ⟨n, hf⟩ := Option.eq_none_or_eq_some (find [63] U)
    · simp [Request.withUri, pathOf, hf]
    · simp [Request.withUri, pathOf, hf]

theorem consume_uri_other (hexValue : Nat → Nat → Option Int) (r : Request) (c : Nat)
    (h : c ≠ 32) :
    (consume hexValue .uri r c).state = .uri ∧
    (consume hexValue .uri r c).result ≠ .accepted := by
  simp only [consume, if_neg h]
  split_ifs <;> exact ⟨rfl, by simp⟩

theorem consume_pastUri (hexValue : Nat → Nat → Option Int) (s : State) (r : Request)
    (c : Nat) (h : s.pastUri = true) :
    (consume hexValue s r c).state.pastUri = true ∧
    (consume hexValue s r c).r.uri = r.uri ∧ (consume hexValue s r c).r.path = r.path := by
  cases s <;> simp only [State.pastUri, Bool.false_eq_true] at h <;>
    simp only [consume] <;> split_ifs <;> exact ⟨rfl, rfl, rfl⟩

theorem consume_accepted (hexValue : Nat → Nat → Option Int) (s : State) (r : Request)
    (c : Nat) (h : (consume hexValue s r c).result = .accepted) : s.pastUri = true := by
  cases s with
  | uri =>
    exfalso
    by_cases hc : c = 32
    · subst hc
      rw [consume_uri_space] at h
      cases hd : url_decode hexValue r.uri with
      | none => rw [hd] at h; exact absurd h (by simp)
      | some U =>
        rw [hd] at h
        simp only at h
        split_ifs at h
    · exact (consume_uri_other hexValue r c hc).2 h
  | _ =>
    first
    | rfl
    | (exfalso; revert h; simp only [consume]; split_ifs <;> simp)

/-- A request that leaves the URI state has passed the test on its path. -/
theorem consume_checked (hexValue : Nat → Nat → Option Int) (s : State) (r : Request)
    (c : Nat) (h : s.pastUri = true → r.pathChecked hexValue) :
    (consume hexValue s r c).state.pastUri = true →
      (consume hexValue s r c).r.pathChecked hexValue := by
  intro hp
  by_cases hs : s.pastUri = true
  · obtain ⟨_, e2, e3⟩ := consume_pastUri hexValue s r c hs
    have := h hs
    unfold Request.pathChecked at this ⊢
    rw [e2, e3]
    exact this
  · cases s with
    | uri =>
      by_cases hc : c = 32
      · subst hc
        rw [consume_uri_space] at hp ⊢
        cases hd : url_decode hexValue r.uri with
        | none => rw [hd] at hp; simp [State.pastUri] at hp
        | some U =>
          rw [hd] at hp
          simp only at hp ⊢
          by_cases hb : ((pathOf U).isEmpty || decide ((pathOf U).head? ≠ some 47)
              || (find [46, 46] (pathOf U)).isSome) = true
          · rw [if_pos hb] at hp
            simp [State.pastUri] at hp
          · rw [if_neg hb]
            simp only
            obtain ⟨w1, w2⟩ := withUri_fields r U
            have hb1 : pathOf U ≠ [] ∧ (pathOf U).head? = some 47
                ∧ find [46, 46] (pathOf U) = none := by
              simpa [not_or, and_assoc] using hb
            exact ⟨⟨r.uri, by rw [w1]; exact hd⟩, by rw [w1, w2], by rw [w2]; exact hb1.1,
              by rw [w2]; exact hb1.2.1, by rw [w2]; exact hb1.2.2⟩
      · rw [(consume_uri_other hexValue r c hc).1] at hp
        simp [State.pastUri] at hp
    | _ =>
      first
      | exact absurd rfl hs
      | (exfalso; revert hp; simp only [consume]; split_ifs <;> simp [State.pastUri])

theorem feed_pastUri (hexValue : Nat → Nat → Option Int) (l : List Nat) :
    ∀ (s : State) (r : Request), s.pastUri = true →
      (feed hexValue s r l).2.1.pastUri = true := by
  induction l with
  | nil => intro s r h; exact h
  | cons c cs ih =>
    intro s r h
    simp only [feed]
    exact ih _ _ (consume_pastUri hexValue s r c h).1

theorem feed_checked (hexValue : Nat → Nat → Option Int) (l : List Nat) :
    ∀ (s : State) (r : Request), (s.pastUri = true → r.pathChecked hexValue) →
      (feed hexValue s r l).2.1.pastUri = true →
      (feed hexValue s r l).2.2.pathChecked hexValue := by
  induction l with
  | nil => intro s r h hp; exact h hp
  | cons c cs ih =>
    intro s r h hp
    simp only [feed] at hp ⊢
    exact ih _ _ (consume_checked hexValue s r c h) hp

theorem feed_accepted (hexValue : Nat → Nat → Option Int) (l : List Nat) :
    ∀ (s : State) (r : Request), Outcome.accepted ∈ (feed hexValue s r l).1 →
      (feed hexValue s r l).2.1.pastUri = true := by
  induction l with
  | nil => intro s r h; simp [feed] at h
  | cons c cs ih =>
    intro s r h
    simp only [feed, List.mem_cons] at h ⊢
    rcases h with h | h
    · have hs := consume_accepted hexValue s r c h.symm
      exact feed_pastUri hexValue cs _ _ (consume_pastUri hexValue s r c hs).1
    · exact ih _ _ h

/-- Claim C35: for every character sequence fed to consume on a fresh parser and request, and
every reading hexValue of percent escapes: when the parser is past the request URI, and so
whenever it has returned true, r.uri is the URL-decoding of the text read, r.path is its part
before the first question mark, and r.path is not empty, starts with a slash and does not
contain two dots in a row. At the space that ends the URI a text that does not decode, or
whose decoded path fails one of the three tests, is answered with bad_request and the parser
stays in the URI state; this holds as well for dots sent as %2e. -/
theorem path_checked_past_uri (hexValue : Nat → Nat → Option Int) (input : List Nat)
    (r : Request) (U : List Nat) :
    ((feed hexValue .method_start Request.fresh input).2.1.pastUri = true ∨
        Outcome.accepted ∈ (feed hexValue .method_start Request.fresh input).1 →
      (∃ raw, url_decode hexValue raw
          = some (feed hexValue .method_start Request.fresh input).2.2.uri) ∧
      (feed hexValue .method_start Request.fresh input).2.2.path
        = pathOf (feed hexValue .method_start Request.fresh input).2.2.uri ∧
      (feed hexValue .method_start Request.fresh input).2.2.path ≠ [] ∧
      (feed hexValue .method_start Request.fresh input).2.2.path.head? = some 47 ∧
      find [46, 46] (feed hexValue .method_start Request.fresh input).2.2.path = none) ∧
    (url_decode hexValue r.uri = none →
      consume hexValue .uri r 32 = ⟨.bad_request, .uri, r⟩) ∧
    (url_decode hexValue r.uri = some U →
      (pathOf U = [] ∨ (pathOf U).head? ≠ some 47 ∨ find [46, 46] (pathOf U) ≠ none) →
      (consume hexValue .uri r 32).result = .bad_request ∧
      (consume hexValue .uri r 32).state = .uri) ∧
    (feed hexOfDigits .method_start Request.fresh (ascii "GET /a/%2e%2e/b ")).1.getLast?
      = some .bad_request ∧
    (feed hexOfDigits .method_start Request.fresh (ascii "GET /a/b?x=.. ")).2
      = (.http_version_h,
          { Request.fresh with method := ascii "GET", uri := ascii "/a/b?x=..",
                               path := ascii "/a/b", query := ascii "x=.." }) := by
  refine ⟨fun h => ?_, fun h => ?_, fun h hbad => ?_, by decide, by decide⟩
  · have hp : (feed hexValue .method_start Request.fresh input).2.1.pastUri = true := by
      rcases h with h | h
      · exact h
      · exact feed_accepted hexValue input _ _ h
    exact feed_checked hexValue input _ _ (fun h0 => absurd h0 (by decide)) hp
  · rw [consume_uri_space, h]
  · rw [consume_uri_space, h]
    have hb : ((pathOf U).isEmpty || decide ((pathOf U).head? ≠ some 47)
        || (find [46, 46] (pathOf U)).isSome) = true := by
      rcases hbad with hbad | hbad | hbad
      · simp [hbad]
      · simp [hbad]
      · have : (find [46, 46] (pathOf U)).isSome = true := by
          cases hf : find [46, 46] (pathOf U) with
          | none => exact absurd hf hbad
          | some n => rfl
        simp [this]
    show (if ((pathOf U).isEmpty || decide ((pathOf U).head? ≠ some 47)
          || (find [46, 46] (pathOf U)).isSome) = true
        then (⟨.bad_request, .uri, r.withUri U⟩ : Step)
        else ⟨.indeterminate, .http_version_h, r.withUri U⟩).result = .bad_request ∧
      (if ((pathOf U).isEmpty || decide ((pathOf U).head? ≠ some 47)
          || (find [46, 46] (pathOf U)).isSome) = true
        then (⟨.bad_request, .uri, r.withUri U⟩ : Step)
        else ⟨.indeterminate, .http_version_h, r.withUri U⟩).state = .uri
    rw [if_pos hb]
    exact ⟨rfl, rfl⟩

end RequestParser

/-! ## Base64 (lib/base/Base64.cpp) -/

namespace Base64

theorem pr2six_of_base64 : ∀ s, s < 64 → pr2six_.getD (base64_.getD s 0) 64 = s := by decide

theorem and3F (a : Nat) : a &&& 0x3F = a % 64 := Nat.and_pow_two_sub_one_eq_mod a 6
theorem and3 (a : Nat) : a &&& 0x3 = a % 4 := Nat.and_pow_two_sub_one_eq_mod a 2
theorem andF (a : Nat) : a &&& 0xF = a % 16 := Nat.and_pow_two_sub_one_eq_mod a 4

set_option maxRecDepth 8000 in
theorem andF0 : ∀ b, b < 256 → (b &&& 0xF0) >>> 4 = b / 16 := by decide
set_option maxRecDepth 8000 in
theorem andC0 : ∀ c, c < 256 → (c &&& 0xC0) >>> 6 = c / 64 := by decide

theorem or_shift2 : ∀ p, p < 64 → ∀ y, y < 4 → (p <<< 2) ||| y = p * 4 + y := by decide
theorem or_shift4 : ∀ p, p < 64 → ∀ y, y < 16 → (p <<< 4) ||| y = p * 16 + y := by decide
theorem or_shift6 : ∀ p, p < 64 → ∀ y, y < 64 → (p <<< 6) ||| y = p * 64 + y := by decide

theorem base64_ne_zero : ∀ s, s < 64 → base64_.getD s 0 ≠ 0 := by decide

theorem pr2six_pad : pr2six_.getD 61 64 = 64 := by decide

/-- The four characters that encode writes for three bytes, by their values. -/
theorem encode_triple (a b c : Nat) (rest : List Nat) (ha : a < 256) (hb : b < 256)
    (hc : c < 256) :
    encode (a :: b :: c :: rest)
      = base64_.getD (a / 4) 0 :: base64_.getD (a % 4 * 16 + b / 16) 0
          :: base64_.getD (b % 16 * 4 + c / 64) 0 :: base64_.getD (c % 64) 0 :: encode rest := by
  have e0 : (a >>> 2) &&& 0x3F = a / 4 := by
    rw [and3F, Nat.shiftRight_eq_div_pow]
    omega
  have e1 : ((a &&& 0x3) <<< 4) ||| ((b &&& 0xF0) >>> 4) = a % 4 * 16 + b / 16 := by
    rw [and3, andF0 b hb]
    exact or_shift4 _ (by omega) _ (by omega)
  have e2 : ((b &&& 0xF) <<< 2) ||| ((c &&& 0xC0) >>> 6) = b % 16 * 4 + c / 64 := by
    rw [andF, andC0 c hc]
    exact or_shift2 _ (by omega) _ (by omega)
  rw [encode, e0, e1, e2, and3F]

theorem encode_pair (a b : Nat) (ha : a < 256) (hb : b < 256) :
    encode [a, b]
      = [base64_.getD (a / 4) 0, base64_.getD (a % 4 * 16 + b / 16) 0,
         base64_.getD (b % 16 * 4) 0, 61] := by
  have e0 : (a >>> 2) &&& 0x3F = a / 4 := by
    rw [and3F, Nat.shiftRight_eq_div_pow]
    omega
  have e1 : ((a &&& 0x3) <<< 4) ||| ((b &&& 0xF0) >>> 4) = a % 4 * 16 + b / 16 := by
    rw [and3, andF0 b hb]
    exact or_shift4 _ (by omega) _ (by omega)
  have e2 : (b &&& 0xF) <<< 2 = b % 16 * 4 := by
    rw [andF, Nat.shiftLeft_eq]
  rw [encode, e0, e1, e2]

theorem encode_single (a : Nat) (ha : a < 256) :
    encode [a] = [base64_.getD (a / 4) 0, base64_.getD (a % 4 * 16) 0, 61, 61] := by
  have e0 : (a >>> 2) &&& 0x3F = a / 4 := by
    rw [and3F, Nat.shiftRight_eq_div_pow]
    omega
  have e1 : (a &&& 0x3) <<< 4 = a % 4 * 16 := by
    rw [and3, Nat.shiftLeft_eq]
  rw [encode, e0, e1]

theorem nprbytes_cons (s : Nat) (l : List Nat) (h : s < 64) :
    nprbytes (base64_.getD s 0 :: l) = nprbytes l + 1 := by
  have hv : decide (pr2six_.getD (base64_.getD s 0) 64 ≤ 63) = true := by
    rw [pr2six_of_base64 s h]
    exact decide_eq_true (by omega)
  unfold nprbytes
  rw [List.takeWhile_cons]
  simp only [hv, if_true, List.length_cons]

theorem nprbytes_pad (l : List Nat) : nprbytes (61 :: l) = 0 := by
  have hv : decide (pr2six_.getD 61 64 ≤ 63) = false := by
    rw [pr2six_pad]
    decide
  unfold nprbytes
  rw [List.takeWhile_cons]
  simp only [hv]
  rfl

theorem byte0_eq (s0 s1 : Nat) (l : List Nat) (h0 : s0 < 64) (h1 : s1 < 64) :
    byte0 (base64_.getD s0 0 :: base64_.getD s1 0 :: l) = (s0 * 4 + s1 / 16) % 256 := by
  unfold byte0
  simp only [List.getD_cons_zero, List.getD_cons_succ, pr2six_of_base64 s0 h0,
    pr2six_of_base64 s1 h1]
  rw [Nat.shiftRight_eq_div_pow, or_shift2 s0 h0 _ (by omega)]

theorem byte1_eq (x s1 s2 : Nat) (l : List Nat) (h1 : s1 < 64) (h2 : s2 < 64) :
    byte1 (x :: base64_.getD s1 0 :: base64_.getD s2 0 :: l) = (s1 * 16 + s2 / 4) % 256 := by
  unfold byte1
  simp only [List.getD_cons_zero, List.getD_cons_succ, pr2six_of_base64 s1 h1,
    pr2six_of_base64 s2 h2]
  rw [Nat.shiftRight_eq_div_pow, or_shift4 s1 h1 _ (by omega)]

theorem byte2_eq (x y s2 s3 : Nat) (l : List Nat) (h2 : s2 < 64) (h3 : s3 < 64) :
    byte2 (x :: y :: base64_.getD s2 0 :: base64_.getD s3 0 :: l) = (s2 * 64 + s3) % 256 := by
  unfold byte2
  simp only [List.getD_cons_zero, List.getD_cons_succ, pr2six_of_base64 s2 h2,
    pr2six_of_base64 s3 h3]
  rw [or_shift6 s2 h2 _ h3]

theorem nprbytes_encode_triple (a b c : Nat) (rest : List Nat) (ha : a < 256) (hb : b < 256)
    (hc : c < 256) : nprbytes (encode (a :: b :: c :: rest)) = nprbytes (encode rest) + 4 := by
  rw [encode_triple a b c rest ha hb hc, nprbytes_cons _ _ (by omega),
    nprbytes_cons _ _ (by omega), nprbytes_cons _ _ (by omega), nprbytes_cons _ _ (by omega)]

theorem nprbytes_encode_pair (a b : Nat) (ha : a < 256) (hb : b < 256) :
    nprbytes (encode [a, b]) = 3 := by
  rw [encode_pair a b ha hb, nprbytes_cons _ _ (by omega), nprbytes_cons _ _ (by omega),
    nprbytes_cons _ _ (by omega), nprbytes_pad]

theorem nprbytes_encode_single (a : Nat) (ha : a < 256) : nprbytes (encode [a]) = 2 := by
  rw [encode_single a ha, nprbytes_cons _ _ (by omega), nprbytes_cons _ _ (by omega),
    nprbytes_pad]

theorem nprbytes_encode_nil : nprbytes (encode []) = 0 := rfl

theorem nprbytes_encode_pos (d : Nat) (rest : List Nat) (h : ∀ a ∈ d :: rest, a < 256) :
    0 < nprbytes (encode (d :: rest)) := by
  have hd : d < 256 := h d (by simp)
  rcases rest with _ | ⟨e, _ | ⟨f, r⟩⟩
  · rw [nprbytes_encode_single d hd]
    omega
  · rw [nprbytes_encode_pair d e hd (h e (by simp))]
    omega
  · rw [nprbytes_encode_triple d e f r hd (h e (by simp)) (h f (by simp))]
    omega

theorem encode_ne_zero : ∀ (n : Nat) (x : List Nat), x.length ≤ n → (∀ a ∈ x, a < 256) →
    ∀ ch ∈ encode x, ch ≠ 0 := by
  intro n
  induction n using Nat.strong_induction_on with
  | _ n ih =>
    intro x hn h ch hch
    rcases x with _ | ⟨a, _ | ⟨b, _ | ⟨c, rest⟩⟩⟩
    · simp [encode] at hch
    · have ha : a < 256 := h a (by simp)
      rw [encode_single a ha] at hch
      simp only [List.mem_cons, List.mem_singleton, List.not_mem_nil, or_false] at hch
      rcases hch with e | e | e | e
      · rw [e]; exact base64_ne_zero _ (by omega)
      · rw [e]; exact base64_ne_zero _ (by omega)
      · omega
      · omega
    · have ha : a < 256 := h a (by simp)
      have hb : b < 256 := h b (by simp)
      rw [encode_pair a b ha hb] at hch
      simp only [List.mem_cons, List.mem_singleton, List.not_mem_nil, or_false] at hch
      rcases hch with e | e | e | e
      · rw [e]; exact base64_ne_zero _ (by omega)
      · rw [e]; exact base64_ne_zero _ (by omega)
      · rw [e]; exact base64_ne_zero _ (by omega)
      · omega
    · have ha : a < 256 := h a (by simp)
      have hb : b < 256 := h b (by simp)
      have hc : c < 256 := h c (by simp)
      rw [encode_triple a b c rest ha hb hc] at hch
      simp only [List.mem_cons] at hch
      rcases hch with e | e | e | e | e
      · rw [e]; exact base64_ne_zero _ (by omega)
      · rw [e]; exact base64_ne_zero _ (by omega)
      · rw [e]; exact base64_ne_zero _ (by omega)
      · rw [e]; exact base64_ne_zero _ (by omega)
      · exact ih rest.length (by simp only [List.length_cons] at hn; omega) rest le_rfl
          (fun y hy => h y (by simp [hy])) ch e

theorem c_str_encode (x : List Nat) (h : ∀ a ∈ x, a < 256) : c_str (encode x) = encode x := by
  unfold c_str
  rw [List.takeWhile_eq_self_iff]
  intro ch hch
  have := encode_ne_zero x.length x le_rfl h ch hch
  simpa using this

/-- One round of the loop of decode on the encoding of at least four bytes: the first three
bytes are written and the encoding of the others is left. -/
theorem decode_loop_step (fuel a b c d : Nat) (rest out : List Nat)
    (h : ∀ y ∈ a :: b :: c :: d :: rest, y < 256) :
    decode_loop (fuel + 1) (encode (a :: b :: c :: d :: rest))
        (nprbytes (encode (a :: b :: c :: d :: rest))) out
      = decode_loop fuel (encode (d :: rest)) (nprbytes (encode (d :: rest)))
          (out ++ [a, b, c]) := by
  have ha : a < 256 := h a (by simp)
  have hb : b < 256 := h b (by simp)
  have hc : c < 256 := h c (by simp)
  have hpos := nprbytes_encode_pos d rest (fun y hy => h y (by simp [hy]))
  rw [nprbytes_encode_triple a b c _ ha hb hc, decode_loop,
    if_pos (by omega), encode_triple a b c _ ha hb hc,
    byte0_eq _ _ _ (by omega) (by omega), byte1_eq _ _ _ _ (by omega) (by omega),
    byte2_eq _ _ _ _ _ (by omega) (by omega)]
  have e0 : (a / 4 * 4 + (a % 4 * 16 + b / 16) / 16) % 256 = a := by omega
  have e1 : ((a % 4 * 16 + b / 16) * 16 + (b % 16 * 4 + c / 64) / 4) % 256 = b := by omega
  have e2 : ((b % 16 * 4 + c / 64) * 64 + c % 64) % 256 = c := by omega
  rw [e0, e1, e2]
  rfl

/-- The loop of decode on an encoding: it returns, having written all bytes but the last one to
three, whose encoding is left. -/
theorem decode_loop_encode : ∀ (k : Nat) (x out : List Nat) (fuel : Nat), x.length ≤ k →
    (∀ a ∈ x, a < 256) → nprbytes (encode x) ≤ fuel →
    ∃ (m : Nat) (x1 x2 : List Nat), x = x1 ++ x2 ∧ x2.length ≤ 3 ∧ x1.length = 3 * m ∧
      nprbytes (encode x) = 4 * m + nprbytes (encode x2) ∧
      decode_loop fuel (encode x) (nprbytes (encode x)) out
        = some (encode x2, nprbytes (encode x2), out ++ x1) := by
  intro k
  induction k using Nat.strong_induction_on with
  | _ k ih =>
    intro x out fuel hk h hfuel
    have short : x.length ≤ 3 → nprbytes (encode x) ≤ 4 →
        ∃ (m : Nat) (x1 x2 : List Nat), x = x1 ++ x2 ∧ x2.length ≤ 3 ∧ x1.length = 3 * m ∧
          nprbytes (encode x) = 4 * m + nprbytes (encode x2) ∧
          decode_loop fuel (encode x) (nprbytes (encode x)) out
            = some (encode x2, nprbytes (encode x2), out ++ x1) := by
      intro hl hn
      refine ⟨0, [], x, rfl, hl, rfl, by omega, ?_⟩
      cases fuel with
      | zero => rw [decode_loop, if_neg (by omega)]; simp
      | succ f => rw [decode_loop, if_neg (by omega)]; simp
    rcases x with _ | ⟨a, _ | ⟨b, _ | ⟨c, _ | ⟨d, rest⟩⟩⟩⟩
    · exact short (by simp) (by rw [nprbytes_encode_nil]; omega)
    · exact short (by simp) (by rw [nprbytes_encode_single a (h a (by simp))]; omega)
    · exact short (by simp)
        (by rw [nprbytes_encode_pair a b (h a (by simp)) (h b (by simp))]; omega)
    · exact short (by simp)
        (by rw [nprbytes_encode_triple a b c [] (h a (by simp)) (h b (by simp))
          (h c (by simp)), nprbytes_encode_nil])
    · have ha : a < 256 := h a (by simp)
      have hb : b < 256 := h b (by simp)
      have hc : c < 256 := h c (by simp)
      have hN := nprbytes_encode_triple a b c (d :: rest) ha hb hc
      cases fuel with
      | zero => omega
      | succ f =>
        obtain ⟨m, x1, x2, e, h2, h1, hn, hloop⟩ :=
          ih (d :: rest).length (by simp only [List.length_cons] at hk ⊢; omega) (d :: rest)
            (out ++ [a, b, c]) f le_rfl (fun y hy => h y (by simp only [List.mem_cons] at hy ⊢; tauto))
            (by omega)
        refine ⟨m + 1, a :: b :: c :: x1, x2, by rw [e]; rfl, h2,
          by simp only [List.length_cons, h1]; omega, by omega, ?_⟩
        rw [decode_loop_step f a b c d rest out h, hloop]
        simp

/-- The three statements after the loop of decode, on the encoding of at most three bytes:
they write these bytes. -/
theorem decode_tail (m : Nat) (x2 out : List Nat) (h2 : x2.length ≤ 3)
    (h : ∀ a ∈ x2, a < 256) :
    let n := nprbytes (encode x2)
    let bufout1 := if n > 1 then out ++ [byte0 (encode x2)] else out
    let bufout2 := if n > 2 then bufout1 ++ [byte1 (encode x2)] else bufout1
    let bufout3 := if n > 3 then bufout2 ++ [byte2 (encode x2)] else bufout2
    bufout3 = out ++ x2 ∧ (4 * m + n + 3) / 4 * 3 - ((4 - n) &&& 3) = 3 * m + x2.length := by
  rcases x2 with _ | ⟨a, _ | ⟨b, _ | ⟨c, _ | ⟨d, rest⟩⟩⟩⟩
  · simp only [nprbytes_encode_nil]
    exact ⟨by simp, by rw [show ((4 : Nat) - 0) &&& 3 = 0 by decide]; simp only [List.length_nil]; omega⟩
  · have ha : a < 256 := h a (by simp)
    have e0 : (a / 4 * 4 + a % 4 * 16 / 16) % 256 = a := by omega
    simp only [nprbytes_encode_single a ha]
    rw [encode_single a ha, byte0_eq _ _ _ (by omega) (by omega), e0]
    exact ⟨by simp, by rw [show ((4 : Nat) - 2) &&& 3 = 2 by decide]; simp only [List.length_cons, List.length_nil]; omega⟩
  · have ha : a < 256 := h a (by simp)
    have hb : b < 256 := h b (by simp)
    have e0 : (a / 4 * 4 + (a % 4 * 16 + b / 16) / 16) % 256 = a := by omega
    have e1 : ((a % 4 * 16 + b / 16) * 16 + b % 16 * 4 / 4) % 256 = b := by omega
    simp only [nprbytes_encode_pair a b ha hb]
    rw [encode_pair a b ha hb, byte0_eq _ _ _ (by omega) (by omega),
      byte1_eq _ _ _ _ (by omega) (by omega), e0, e1]
    exact ⟨by simp, by rw [show ((4 : Nat) - 3) &&& 3 = 1 by decide]; simp only [List.length_cons, List.length_nil]; omega⟩
  · have ha : a < 256 := h a (by simp)
    have hb : b < 256 := h b (by simp)
    have hc : c < 256 := h c (by simp)
    have e0 : (a / 4 * 4 + (a % 4 * 16 + b / 16) / 16) % 256 = a := by omega
    have e1 : ((a % 4 * 16 + b / 16) * 16 + (b % 16 * 4 + c / 64) / 4) % 256 = b := by omega
    have e2 : ((b % 16 * 4 + c / 64) * 64 + c % 64) % 256 = c := by omega
    simp only [nprbytes_encode_triple a b c [] ha hb hc, nprbytes_encode_nil]
    rw [encode_triple a b c [] ha hb hc, byte0_eq _ _ _ (by omega) (by omega),
      byte1_eq _ _ _ _ (by omega) (by omega), byte2_eq _ _ _ _ _ (by omega) (by omega),
      e0, e1, e2]
    exact ⟨by simp, by rw [show ((4 : Nat) - (0 + 4)) &&& 3 = 0 by decide]; simp only [List.length_cons, List.length_nil]; omega⟩
  · simp only [List.length_cons] at h2
    omega

/-- Claim C36: for every string x of bytes, decoding the Base64 encoding of x gives x back:
the scan, the loop and the closing statements of decode return, and the buffer cut to the
returned length holds exactly the bytes of x. This covers the empty string and the lengths
whose encoding ends in one or two padding characters. -/
theorem decode_encode (x : List Nat) (hx : ∀ a ∈ x, a < 256) : decode (encode x) = some x := by
  obtain ⟨m, x1, x2, e, h2, h1, hn, hloop⟩ :=
    decode_loop_encode x.length x [] (nprbytes (encode x)) le_rfl hx le_rfl
  have ht := decode_tail m x2 ([] ++ x1) h2 (fun a ha => hx a (by rw [e]; simp [ha]))
  simp only at ht
  have hlen : x.length = 3 * m + x2.length := by rw [e, List.length_append, h1]
  unfold decode
  rw [c_str_encode x hx]
  simp only [decode_cstr, hloop, Option.map_some']
  rw [ht.1, hn, ht.2, ← hlen, List.nil_append, ← e, List.take_length]

theorem decode_encode_witness :
    (∀ a ∈ ascii "x0!!", a < 256) ∧ decode (encode (ascii "x0!!")) = some (ascii "x0!!") :=
  ⟨by decide, decode_encode (ascii "x0!!") (by decide)⟩

end Base64

/-! ## HeaderList::remove and unlinkHeader on the linked list -/

namespace HeaderList

namespace Links

theorem size_mk (s : Nat) (f l : Option Nat) (h : Nat → Option Header) :
    size ⟨s, f, l, h⟩ = s := rfl

theorem headOr_append (l r : List Nat) (nxt : Option Nat) :
    headOr (l ++ r) nxt = headOr l (headOr r nxt) := by
  cases l <;> rfl

theorem lastOr_append (l r : List Nat) (p : Option Nat) :
    lastOr (l ++ r) p = lastOr r (lastOr l p) := by
  induction l generalizing p with
  | nil => rfl
  | cons a l ih => exact ih (some a)

theorem lastOr_mem (l : List Nat) (p : Option Nat) (q : Nat) (h : lastOr l p = some q) :
    q ∈ l ∨ p = some q := by
  induction l generalizing p with
  | nil => exact Or.inr h
  | cons a l ih =>
    rcases ih (some a) h with h1 | h1
    · exact Or.inl (List.mem_cons_of_mem _ h1)
    · exact Or.inl (by simp only [Option.some.injEq] at h1; simp [h1])

theorem seg_length (heap : Nat → Option Header) (p : Option Nat) (as : List Nat)
    (es : List (List Nat × List Nat)) (nxt : Option Nat) (h : seg heap p as es nxt) :
    as.length = es.length := by
  induction as generalizing p es with
  | nil =>
    cases es with
    | nil => rfl
    | cons e es => exact absurd h (by simp [seg])
  | cons a as ih =>
    cases es with
    | nil => exact absurd h (by simp [seg])
    | cons e es =>
      simp only [seg] at h
      simp [ih _ _ h.2]

theorem seg_alive (heap : Nat → Option Header) (p : Option Nat) (as : List Nat)
    (es : List (List Nat × List Nat)) (nxt : Option Nat) (h : seg heap p as es nxt)
    (a : Nat) (ha : a ∈ as) : heap a ≠ none := by
  induction as generalizing p es with
  | nil => simp at ha
  | cons b as ih =>
    cases es with
    | nil => exact absurd h (by simp [seg])
    | cons e es =>
      simp only [seg] at h
      rcases List.mem_cons.mp ha with e1 | e1
      · rw [e1, h.1]
        simp
      · exact ih _ _ h.2 e1

theorem seg_congr (heap heap1 : Nat → Option Header) (p : Option Nat) (as : List Nat)
    (es : List (List Nat × List Nat)) (nxt : Option Nat) (hf : ∀ a ∈ as, heap1 a = heap a)
    (h : seg heap p as es nxt) : seg heap1 p as es nxt := by
  induction as generalizing p es with
  | nil =>
    cases es with
    | nil => trivial
    | cons e es => exact absurd h (by simp [seg])
  | cons a as ih =>
    cases es with
    | nil => exact absurd h (by simp [seg])
    | cons e es =>
      simp only [seg] at h ⊢
      exact ⟨by rw [hf a (by simp), h.1],
        ih (some a) es (fun b hb => hf b (List.mem_cons_of_mem _ hb)) h.2⟩

theorem seg_append (heap : Nat → Option Header) (l r : List Nat)
    (el er : List (List Nat × List Nat)) (p nxt : Option Nat) (hlen : el.length = l.length) :
    seg heap p (l ++ r) (el ++ er) nxt
      ↔ seg heap p l el (headOr r nxt) ∧ seg heap (lastOr l p) r er nxt := by
  induction l generalizing p el with
  | nil =>
    cases el with
    | nil => simp [seg, lastOr]
    | cons e el => simp at hlen
  | cons a l ih =>
    cases el with
    | nil => simp at hlen
    | cons e el =>
      simp only [List.length_cons, Nat.add_right_cancel_iff] at hlen
      show seg heap p (a :: (l ++ r)) (e :: (el ++ er)) nxt ↔ _
      simp only [seg, lastOr, headOr_append, ih el (some a) hlen, and_assoc]

/-- Setting the next link of the last Header of a segment. -/
theorem seg_setNext (heap : Nat → Option Header) (l : List Nat)
    (el : List (List Nat × List Nat)) (p nxt nxt1 : Option Nat) (q : Nat) (hnd : l.Nodup)
    (h : seg heap p l el nxt) (hq : lastOr l none = some q) :
    ∃ heap1, setNext heap q nxt1 = some heap1 ∧ seg heap1 p l el nxt1 ∧
      ∀ a, a ≠ q → heap1 a = heap a := by
  induction l generalizing p el with
  | nil => simp [lastOr] at hq
  | cons a l ih =>
    cases el with
    | nil => exact absurd h (by simp [seg])
    | cons e el =>
      simp only [seg] at h
      cases l with
      | nil =>
        have hqa : a = q := by simpa [lastOr] using hq
        subst hqa
        have hel : el = [] := by
          have := seg_length _ _ _ _ _ h.2
          simpa using this.symm
        subst hel
        refine ⟨fun x => if x = a then some ⟨e.1, e.2, p, nxt1⟩ else heap x,
          by simp only [setNext, h.1], ?_, fun b hb => by simp only [if_neg hb]⟩
        simp [seg, headOr]
      | cons b l =>
        have hq1 : lastOr (b :: l) none = some q := hq
        have hqm : q ∈ b :: l := by
          rcases lastOr_mem (b :: l) none q hq1 with h1 | h1
          · exact h1
          · simp at h1
        have hne : a ≠ q := fun e1 => (List.nodup_cons.mp hnd).1 (e1 ▸ hqm)
        obtain ⟨heap1, hs, hseg, hfr⟩ := ih el (some a) (List.nodup_cons.mp hnd).2 h.2 hq1
        refine ⟨heap1, hs, ?_, hfr⟩
        simp only [seg]
        exact ⟨by rw [hfr a hne, h.1]; rfl, hseg⟩

/-- Setting the prev link of the first Header of a segment. -/
theorem seg_setPrev (heap : Nat → Option Header) (r : List Nat)
    (er : List (List Nat × List Nat)) (p p1 nxt : Option Nat) (n : Nat) (hnd : r.Nodup)
    (h : seg heap p r er nxt) (hn : headOr r none = some n) :
    ∃ heap2, setPrev heap n p1 = some heap2 ∧ seg heap2 p1 r er nxt ∧
      ∀ a, a ≠ n → heap2 a = heap a := by
  cases r with
  | nil => simp [headOr] at hn
  | cons b r =>
    have hb : b = n := by simpa [headOr] using hn
    subst hb
    cases er with
    | nil => exact absurd h (by simp [seg])
    | cons e er =>
      simp only [seg] at h
      refine ⟨fun x => if x = b then some ⟨e.1, e.2, p1, headOr r nxt⟩ else heap x,
        by simp only [setPrev, h.1], ?_, fun a ha => by simp only [if_neg ha]⟩
      simp only [seg, if_true, true_and]
      refine seg_congr heap _ _ _ _ _ (fun a ha => ?_) h.2
      have : a ≠ b := fun e1 => (List.nodup_cons.mp hnd).1 (e1 ▸ ha)
      simp [this]

theorem lastOr_some (l : List Nat) (a : Nat) : ∃ q, lastOr l (some a) = some q := by
  induction l generalizing a with
  | nil => exact ⟨a, rfl⟩
  | cons b l ih => exact ih b

theorem lastOr_none (l : List Nat) (h : lastOr l none = none) : l = [] := by
  cases l with
  | nil => rfl
  | cons a l =>
    obtain ⟨q, hq⟩ := lastOr_some l a
    rw [lastOr, hq] at h
    simp at h

theorem seg_nil (heap : Nat → Option Header) (p nxt : Option Nat)
    (es : List (List Nat × List Nat)) (h : seg heap p [] es nxt) : es = [] := by
  cases es with
  | nil => rfl
  | cons e es => exact absurd h (by simp [seg])

/-- The statement if (prev) prev->next = next of unlinkHeader, on the segment before item. -/
theorem relink_next (heap : Nat → Option Header) (l : List Nat)
    (el : List (List Nat × List Nat)) (nxt nxt1 : Option Nat) (hnd : l.Nodup)
    (h : seg heap none l el nxt) :
    ∃ heap1, linkNext heap (lastOr l none) nxt1 = some heap1 ∧
      seg heap1 none l el nxt1 ∧ ∀ x, x ∉ l → heap1 x = heap x := by
  cases hq : lastOr l none with
  | none =>
    have hl := lastOr_none l hq
    subst hl
    have hel := seg_nil _ _ _ _ h
    subst hel
    exact ⟨heap, rfl, trivial, fun _ _ => rfl⟩
  | some q =>
    show ∃ heap1, setNext heap q nxt1 = some heap1 ∧ _
    obtain ⟨heap1, hs, hseg, hfr⟩ := seg_setNext heap l el none nxt nxt1 q hnd h hq
    have hqm : q ∈ l := by
      rcases lastOr_mem l none q hq with h1 | h1
      · exact h1
      · simp at h1
    exact ⟨heap1, hs, hseg, fun x hx => hfr x (fun e1 => hx (e1 ▸ hqm))⟩

/-- The statement if (next) next->prev = prev of unlinkHeader, on the segment after item. -/
theorem relink_prev (heap : Nat → Option Header) (r : List Nat)
    (er : List (List Nat × List Nat)) (p p1 : Option Nat) (hnd : r.Nodup)
    (h : seg heap p r er none) :
    ∃ heap2, linkPrev heap (headOr r none) p1 = some heap2 ∧
      seg heap2 p1 r er none ∧ ∀ x, x ∉ r → heap2 x = heap x := by
  cases r with
  | nil =>
    have her := seg_nil _ _ _ _ h
    subst her
    exact ⟨heap, rfl, trivial, fun _ _ => rfl⟩
  | cons n r =>
    show ∃ heap2, setPrev heap n p1 = some heap2 ∧ _
    obtain ⟨heap2, hs, hseg, hfr⟩ := seg_setPrev heap (n :: r) er p p1 none n hnd h rfl
    exact ⟨heap2, hs, hseg, fun x hx => hfr x (fun e1 => hx (by simp [e1]))⟩

/-- HeaderList::unlinkHeader on a Header of a well-formed list: the Headers before and after
it are linked to each other, first_ and last_ point to the ends of what is left, size_ is
decremented. -/
theorem unlinkHeader_spec (L : Links) (l r : List Nat) (a : Nat)
    (el er : List (List Nat × List Nat)) (e : List Nat × List Nat)
    (hwf : wellFormed L (l ++ a :: r) (el ++ e :: er)) (hlen : el.length = l.length) :
    ∃ heap2, unlinkHeader a L
        = some (a, ⟨(L.size_ + 2 ^ 64 - 1) % 2 ^ 64, headOr (l ++ r) none,
            lastOr (l ++ r) none, heap2⟩) ∧
      seg heap2 none l el (headOr r none) ∧ seg heap2 (lastOr l none) r er none := by
  obtain ⟨hnd, hfirst, hlast, hseg⟩ := hwf
  rw [seg_append L.heap _ _ _ _ _ _ hlen] at hseg
  obtain ⟨hsl, hsa⟩ := hseg
  simp only [seg] at hsa
  obtain ⟨ha, hsr⟩ := hsa
  have hndl : l.Nodup := (List.nodup_append.mp hnd).1
  have hndar : (a :: r).Nodup := (List.nodup_append.mp hnd).2.1
  have hdis := (List.nodup_append.mp hnd).2.2
  have hndr : r.Nodup := (List.nodup_cons.mp hndar).2
  have har : a ∉ r := (List.nodup_cons.mp hndar).1
  have hal : a ∉ l := fun h1 => hdis h1 (List.mem_cons_self _ _)
  have hlr : ∀ x, x ∈ l → x ∉ r := fun x h1 h2 => hdis h1 (List.mem_cons_of_mem _ h2)
  obtain ⟨heap1, hs1, hseg1, hfr1⟩ := relink_next L.heap l el (some a) (headOr r none) hndl hsl
  have hsr1 : seg heap1 (some a) r er none :=
    seg_congr L.heap heap1 _ _ _ _ (fun x hx => hfr1 x (fun h1 => hlr x h1 hx)) hsr
  obtain ⟨heap2, hs2, hseg2, hfr2⟩ := relink_prev heap1 r er (some a) (lastOr l none) hndr hsr1
  have hsl2 : seg heap2 none l el (headOr r none) :=
    seg_congr heap1 heap2 _ _ _ _ (fun x hx => hfr2 x (hlr x hx)) hseg1
  have ha2 : heap2 a = some ⟨e.1, e.2, lastOr l none, headOr r none⟩ := by
    rw [hfr2 a har, hfr1 a hal, ha]
  refine ⟨heap2, ?_, hsl2, hseg2⟩
  have hf : (if some a = L.first_ then (heap2 a).map (fun f => f.next) else some L.first_)
      = some (headOr (l ++ r) none) := by
    rw [hfirst, ha2]
    cases l with
    | nil => simp [headOr]
    | cons b l =>
      have hba : a ≠ b := fun e1 => hal (by simp [e1])
      simp [headOr, hba]
  have hl : (if some a = L.last_ then (heap2 a).map (fun f => f.prev) else some L.last_)
      = some (lastOr (l ++ r) none) := by
    rw [hlast, ha2, lastOr_append, lastOr_append]
    cases r with
    | nil => simp [lastOr]
    | cons b r =>
      have hq : lastOr (b :: r) (some a) = lastOr (b :: r) none := rfl
      obtain ⟨q, hq1⟩ := lastOr_some r b
      have hqm : q ∈ b :: r := by
        rcases lastOr_mem (b :: r) none q hq1 with h1 | h1
        · exact h1
        · simp at h1
      have hqa : a ≠ q := fun e1 => har (e1 ▸ hqm)
      simp [lastOr, hq1, hqa]
  simp only [unlinkHeader, ha, Option.some_bind, hs1, hs2, hf, hl]

/-- The loop of findHeader on a well-formed segment returns the first Header whose name is
the one asked for. -/
theorem findHeaderFrom_first (name : List Nat) (heap : Nat → Option Header) (l r : List Nat)
    (a : Nat) (el er : List (List Nat × List Nat)) (e : List Nat × List Nat) (p : Option Nat)
    (fuel : Nat) (h : seg heap p (l ++ a :: r) (el ++ e :: er) none)
    (hlen : el.length = l.length)
    (hno : ∀ x ∈ el, iequals (c_str x.1) (c_str name) = false)
    (hyes : iequals (c_str e.1) (c_str name) = true) (hfuel : l.length + 1 ≤ fuel) :
    findHeaderFrom name heap fuel (headOr (l ++ a :: r) none) = some (some a) := by
  induction l generalizing p el fuel with
  | nil =>
    cases el with
    | cons x el => simp at hlen
    | nil =>
      simp only [List.nil_append, seg] at h
      cases fuel with
      | zero => simp at hfuel
      | succ f => simp [headOr, findHeaderFrom, h.1, hyes]
  | cons b l ih =>
    cases el with
    | nil => simp at hlen
    | cons x el =>
      simp only [List.length_cons, Nat.add_right_cancel_iff] at hlen
      have h1 : seg heap p (b :: (l ++ a :: r)) (x :: (el ++ e :: er)) none := h
      simp only [seg] at h1
      cases fuel with
      | zero => simp at hfuel
      | succ f =>
        have hx : iequals (c_str x.1) (c_str name) = false := hno x (by simp)
        show findHeaderFrom name heap (f + 1) (some b) = _
        simp only [findHeaderFrom, h1.1, hx, Bool.false_eq_true, if_false]
        exact ih el (some b) f h1.2 hlen (fun y hy => hno y (by simp [hy]))
          (by simp only [List.length_cons] at hfuel; omega)

/-- The loop of findHeader on a well-formed list without a Header of that name returns NULL. -/
theorem findHeaderFrom_none (name : List Nat) (heap : Nat → Option Header) (as : List Nat)
    (es : List (List Nat × List Nat)) (p : Option Nat) (fuel : Nat)
    (h : seg heap p as es none)
    (hno : ∀ x ∈ es, iequals (c_str x.1) (c_str name) = false) (hfuel : as.length ≤ fuel) :
    findHeaderFrom name heap fuel (headOr as none) = some none := by
  induction as generalizing p es fuel with
  | nil => cases fuel <;> rfl
  | cons b as ih =>
    cases es with
    | nil => exact absurd h (by simp [seg])
    | cons x es =>
      simp only [seg] at h
      cases fuel with
      | zero => simp at hfuel
      | succ f =>
        have hx : iequals (c_str x.1) (c_str name) = false := hno x (by simp)
        show findHeaderFrom name heap (f + 1) (some b) = _
        simp only [findHeaderFrom, h.1, hx, Bool.false_eq_true, if_false]
        exact ih es (some b) f h.2 (fun y hy => hno y (by simp [hy]))
          (by simp only [List.length_cons] at hfuel; omega)

/-- An iterator from the first Header of a well-formed list meets its entries, in order. -/
theorem entriesFrom_seg (heap : Nat → Option Header) (as : List Nat)
    (es : List (List Nat × List Nat)) (p : Option Nat) (fuel : Nat)
    (h : seg heap p as es none) (hfuel : as.length ≤ fuel) :
    entriesFrom heap fuel (headOr as none) = some es := by
  induction as generalizing p es fuel with
  | nil =>
    rw [seg_nil _ _ _ _ h]
    cases fuel <;> rfl
  | cons b as ih =>
    cases es with
    | nil => exact absurd h (by simp [seg])
    | cons x es =>
      simp only [seg] at h
      cases fuel with
      | zero => simp at hfuel
      | succ f =>
        show entriesFrom heap (f + 1) (some b) = _
        simp only [entriesFrom, h.1]
        rw [ih es (some b) f h.2 (by simp only [List.length_cons] at hfuel; omega)]
        rfl

theorem entries_wellFormed (L : Links) (as : List Nat) (es : List (List Nat × List Nat))
    (fuel : Nat) (hwf : wellFormed L as es) (hfuel : es.length ≤ fuel) :
    entries fuel L = some es := by
  obtain ⟨_, hfirst, _, hseg⟩ := hwf
  unfold entries
  rw [hfirst]
  exact entriesFrom_seg L.heap as es none fuel hseg (by rw [seg_length _ _ _ _ _ hseg]; exact hfuel)

/-- HeaderList::push_back keeps the list well-formed and puts the new entry last. -/
theorem push_back_wellFormed (L : Links) (as : List Nat) (es : List (List Nat × List Nat))
    (addr : Nat) (name value : List Nat) (hwf : wellFormed L as es)
    (hfresh : L.heap addr = none) :
    ∃ L1, push_back addr name value L = some L1 ∧ L1.size_ = (L.size_ + 1) % 2 ^ 64 ∧
      wellFormed L1 (as ++ [addr]) (es ++ [(name, value)]) := by
  obtain ⟨hnd, hfirst, hlast, hseg⟩ := hwf
  have hna : addr ∉ as := fun h1 => seg_alive _ _ _ _ _ hseg addr h1 hfresh
  have hseg0 : seg (fun a => if a = addr then some ⟨name, value, L.last_, none⟩ else L.heap a)
      none as es none :=
    seg_congr L.heap _ _ _ _ _
      (fun x hx => by simp only [if_neg (fun e1 : x = addr => hna (e1 ▸ hx))]) hseg
  obtain ⟨heap1, hs1, hseg1, hfr1⟩ := relink_next _ as es none (some addr) hnd hseg0
  have ha1 : heap1 addr = some ⟨name, value, lastOr as none, none⟩ := by
    rw [hfr1 addr hna, hlast]
    simp
  rw [← hlast] at hs1
  refine ⟨⟨(L.size_ + 1) % 2 ^ 64, if L.first_ = none then some addr else L.first_,
    some addr, heap1⟩, ?_, rfl, ?_, ?_, ?_, ?_⟩
  · simp only [push_back, newHeader, hfresh, if_true, hs1, Option.some_bind, linkPrev,
      Option.map_some']
  · rw [List.nodup_append]
    exact ⟨hnd, by simp, fun x hx hx1 => hna (by simp only [List.mem_singleton] at hx1; exact hx1 ▸ hx)⟩
  · show (if L.first_ = none then some addr else L.first_) = _
    rw [hfirst]
    cases as <;> simp [headOr]
  · show some addr = _
    rw [lastOr_append]
    rfl
  · show seg heap1 none (as ++ [addr]) (es ++ [(name, value)]) none
    rw [seg_append heap1 _ _ _ _ _ _ (seg_length _ _ _ _ _ hseg).symm]
    exact ⟨hseg1, by simp only [seg, ha1, headOr, and_true]⟩

/-- Claim C38: on a well-formed list whose size_ is the number of its entries,
HeaderList::remove(name) returns and deletes exactly the first Header whose name is name
ignoring ASCII case (names being compared as C strings, as findHeader does). Before the call
the entries reachable from begin() are es. When no entry has that name the list is unchanged.
When the first such entry is e, between el and er, the size is one less, the entries reachable
from begin() are those of el followed by those of er, with their values and in their order,
size() is their number, and the list is well-formed again. -/
theorem remove_first_match (L : Links) (as : List Nat) (es : List (List Nat × List Nat))
    (name : List Nat) (fuel : Nat) (hwf : wellFormed L as es) (hsize : L.size = es.length)
    (hmax : L.size < 2 ^ 64) (hfuel : es.length ≤ fuel) :
    entries fuel L = some es ∧
    ((∀ x ∈ es, iequals (c_str x.1) (c_str name) = false) → remove fuel name L = some L) ∧
    (∀ el e er, es = el ++ e :: er →
      (∀ x ∈ el, iequals (c_str x.1) (c_str name) = false) →
      iequals (c_str e.1) (c_str name) = true →
      ∃ L1, remove fuel name L = some L1 ∧ L1.size + 1 = L.size ∧
        entries fuel L1 = some (el ++ er) ∧ L1.size = (el ++ er).length ∧
        ∃ as1, wellFormed L1 as1 (el ++ er)) := by
  have hlen := seg_length _ _ _ _ _ hwf.2.2.2
  refine ⟨entries_wellFormed L as es fuel hwf hfuel, fun hno => ?_, ?_⟩
  · simp only [remove, findHeader]
    rw [hwf.2.1, findHeaderFrom_none name L.heap as es none fuel hwf.2.2.2 hno
      (by rw [hlen]; exact hfuel)]
  · intro el e er hes hno hyes
    subst hes
    have hsplit : ∃ l a r, as = l ++ a :: r ∧ el.length = l.length := by
      simp only [List.length_append, List.length_cons] at hlen
      have hd : as.drop el.length ≠ [] := by
        intro h1
        have := congrArg List.length h1
        simp only [List.length_drop, List.length_nil] at this
        omega
      obtain ⟨a, r, har⟩ := List.exists_cons_of_ne_nil hd
      refine ⟨as.take el.length, a, r, ?_, ?_⟩
      · rw [← har, List.take_append_drop]
      · rw [List.length_take]
        omega
    obtain ⟨l, a, r, has, hll⟩ := hsplit
    subst has
    obtain ⟨heap2, hu, hsl, hsr⟩ := unlinkHeader_spec L l r a el er e hwf hll
    obtain ⟨hnd, hfirst, hlast, hseg⟩ := hwf
    have hndl : l.Nodup := (List.nodup_append.mp hnd).1
    have hndar : (a :: r).Nodup := (List.nodup_append.mp hnd).2.1
    have hdis := (List.nodup_append.mp hnd).2.2
    have har : a ∉ r := (List.nodup_cons.mp hndar).1
    have hal : a ∉ l := fun h1 => hdis h1 (List.mem_cons_self _ _)
    have hf : findHeaderFrom name L.heap fuel L.first_ = some (some a) := by
      rw [hfirst]
      exact findHeaderFrom_first name L.heap l r a el er e none fuel hseg hll hno hyes
        (by simp only [List.length_append, List.length_cons] at hfuel; omega)
    have hsz : (L.size_ + 2 ^ 64 - 1) % 2 ^ 64 + 1 = L.size_ := by
      have h1 : L.size_ = (el ++ e :: er).length := hsize
      have h2 : L.size_ < 2 ^ 64 := hmax
      simp only [List.length_append, List.length_cons] at h1
      omega
    have hwf1 : wellFormed
        ⟨(L.size_ + 2 ^ 64 - 1) % 2 ^ 64, headOr (l ++ r) none, lastOr (l ++ r) none,
          fun x => if x = a then none else heap2 x⟩ (l ++ r) (el ++ er) := by
      refine ⟨?_, rfl, rfl, ?_⟩
      · rw [List.nodup_append]
        exact ⟨hndl, (List.nodup_cons.mp hndar).2,
          fun x h1 h2 => hdis h1 (List.mem_cons_of_mem _ h2)⟩
      · show seg (fun x => if x = a then none else heap2 x) none (l ++ r) (el ++ er) none
        rw [seg_append _ _ _ _ _ _ _ hll]
        exact ⟨seg_congr heap2 _ _ _ _ _
            (fun x hx => by simp only [if_neg (fun e1 : x = a => hal (e1 ▸ hx))]) hsl,
          seg_congr heap2 _ _ _ _ _
            (fun x hx => by simp only [if_neg (fun e1 : x = a => har (e1 ▸ hx))]) hsr⟩
    have hl1 : (el ++ er).length + 1 = L.size_ := by
      have h1 : L.size_ = (el ++ e :: er).length := hsize
      simp only [List.length_append, List.length_cons] at h1 ⊢
      omega
    refine ⟨⟨(L.size_ + 2 ^ 64 - 1) % 2 ^ 64, headOr (l ++ r) none, lastOr (l ++ r) none,
      fun x => if x = a then none else heap2 x⟩, by simp only [remove, findHeader, hf, hu],
      ?_, ?_, ?_, l ++ r, hwf1⟩
    · rw [size_mk, hsz]
      rfl
    · exact entries_wellFormed _ _ _ fuel hwf1
        (by simp only [List.length_append, List.length_cons] at hfuel ⊢; omega)
    · rw [size_mk]
      omega

theorem remove_first_match_witness :
    wellFormed sample [10, 20, 30]
      [(ascii "Accept", ascii "text/html"), (ascii "Vary", ascii "Accept"),
        (ascii "vary", ascii "Cookie")] ∧
    ∃ L1, remove 3 (ascii "VARY") sample = some L1 ∧ L1.size + 1 = sample.size ∧
      entries 3 L1 = some ([(ascii "Accept", ascii "text/html")]
        ++ [(ascii "vary", ascii "Cookie")]) ∧
      L1.size = ([(ascii "Accept", ascii "text/html")]
        ++ [(ascii "vary", ascii "Cookie")]).length ∧
      ∃ as1, wellFormed L1 as1 ([(ascii "Accept", ascii "text/html")]
        ++ [(ascii "vary", ascii "Cookie")]) :=
  have hwf : wellFormed sample [10, 20, 30]
      [(ascii "Accept", ascii "text/html"), (ascii "Vary", ascii "Accept"),
        (ascii "vary", ascii "Cookie")] :=
    ⟨by decide, by decide, by decide, by decide, by decide, by decide, trivial⟩
  ⟨hwf, (remove_first_match sample [10, 20, 30] _ (ascii "VARY") 3 hwf (by decide) (by decide)
      (by decide)).2.2 [(ascii "Accept", ascii "text/html")] (ascii "Vary", ascii "Accept")
      [(ascii "vary", ascii "Cookie")] rfl (by decide) (by decide)⟩

end Links

end HeaderList

/-! ## CgiTransport::io at an EndRequest record -/

namespace CgiTransport

end CgiTransport

/-! ## The calls of worker_->release(handle_) -/

namespace HttpConnection

theorem keeps_watchInput (t : Nat) (c : HttpConnection) : Keeps c (watchInput t c) := by
  simp only [watchInput]
  split_ifs <;> exact ⟨rfl, rfl⟩

theorem output_watchInput (t : Nat) (c : HttpConnection) :
    (watchInput t c).output_ = c.output_ := by
  simp only [watchInput]
  split_ifs <;> rfl

theorem output_resume (c : HttpConnection) : (resume c).output_ = c.output_ := by
  simp only [resume, processResume]
  split_ifs <;> first | rfl | exact output_watchInput _ _

/-- When the request is finished and the output drained, resume() leaves the connection
settled: it waits for the next request with an empty queue. -/
theorem settled_resume (c : HttpConnection) (h : 0 ≤ c.refCount_) (ho : c.output_ = []) :
    (resume c).settled := by
  refine ⟨?_, fun _ => by rw [output_resume]; exact ho⟩
  simp only [resume, processResume]
  split_ifs
  · exact h
  · exact h
  · rw [(keeps_watchInput _ _).1]
    exact h

end HttpConnection

namespace HttpRequest

end HttpRequest

namespace HttpConnection

end HttpConnection

end X0
